import Mathlib

/-
  Verification of the MCENoC / Banyan static route generators.

  Shallow embedding of `mcenoc-route.py` and `banyan-sroute.py`.
  Python dicts (which preserve insertion order) are modelled as
  association lists; `d[k] = v` updates in place when the key exists and
  appends otherwise; `del d[k]` removes the binding; iterating a dict
  yields its bindings in list order.  Code points where Python raises
  (KeyError on a missing key, StopIteration from `next` on an exhausted
  iterator, TypeError from `None & 1`) are modelled with `Option`:
  `none` means the Python program raises.  Python `set(...)` values are
  modelled as deduplicated lists; only membership, cardinality and
  emptiness of these sets are ever used.
-/

set_option maxRecDepth 4000

namespace MCENoC

/-- Floor base-2 logarithm (`int(math.log(n, 2))`, exact on powers of two),
written with structural fuel so that it evaluates inside the kernel. -/
def log2floorAux : Nat → Nat → Nat
  | 0, _ => 0
  | fuel + 1, n => if 2 ≤ n then log2floorAux fuel (n / 2) + 1 else 0

/-- Floor base-2 logarithm. -/
def log2floor (n : Nat) : Nat := log2floorAux n n

/-- Lookup in an insertion-ordered dict (Python `d[k]`; `none` = KeyError). -/
def aget {κ α : Type} [DecidableEq κ] : List (κ × α) → κ → Option α
  | [], _ => none
  | (k', v) :: t, k => if k' = k then some v else aget t k

/-- Python `d[k] = v`: replace in place if the key is present (keeping its
position), otherwise append at the end. -/
def aset {κ α : Type} [DecidableEq κ] : List (κ × α) → κ → α → List (κ × α)
  | [], k, v => [(k, v)]
  | (k', v') :: t, k, v => if k' = k then (k, v) :: t else (k', v') :: aset t k v

/-- Python `del d[k]` (the caller checks presence; removes the first binding). -/
def adel {κ α : Type} [DecidableEq κ] : List (κ × α) → κ → List (κ × α)
  | [], _ => []
  | (k', v') :: t, k => if k' = k then t else (k', v') :: adel t k

/-- One (source, destination) pair of `BSPMat`: `src`/`dst` are the ids at the
current recursion level, `os`/`od` the original (unhalved) ids of the parent
level, `none` until the entry is produced by `BSPMat.insert`. -/
structure Entry where
  src : Nat
  dst : Nat
  os : Option Nat
  od : Option Nat
deriving DecidableEq, Repr

/-- The partition dictionaries `ps`/`pd` built by `BSPMat.partition`:
halved cell index to the dict of entries of the cell, keyed by the
unhalved id. -/
abbrev Cells := List (Nat × List (Nat × Entry))

/-- `BSPMat` of mcenoc-route.py: `s` keyed by source, `d` keyed by
destination, both holding the same entries.  The empty constructor's
`size` is `None` in Python and is never read before being assigned;
it is a placeholder `0` here. -/
structure BSPMat where
  s : List (Nat × Entry)
  d : List (Nat × Entry)
  size : Nat
deriving DecidableEq, Repr

/-- `BSPMat.__init__` from a src/dst pair list (`BSPMat(zip(src, dst))`). -/
def BSPMat.ofList (srcdst : List (Nat × Nat)) : BSPMat :=
  let s := srcdst.foldl (fun acc ab => aset acc ab.1 ⟨ab.1, ab.2, none, none⟩) []
  let d := s.foldl (fun acc kv => aset acc kv.2.dst kv.2) []
  ⟨s, d, s.length⟩

/-- `BSPMat.insert`: halve the ids, remember the originals in `os`/`od`. -/
def BSPMat.insert (m : BSPMat) (x : Entry) : BSPMat :=
  let newsrc := x.src / 2
  let newdst := x.dst / 2
  let v : Entry := ⟨newsrc, newdst, some x.src, some x.dst⟩
  { m with s := aset m.s newsrc v, d := aset m.d newdst v }

/-- The partition state `self.ps` / `self.pd` / `self.dbl` set up by
`BSPMat.partition`.  `dbl` is a dict keyed by (halved source, halved
destination) whose values are all `True`. -/
structure PartState where
  ps : Cells
  pd : Cells
  dbl : List ((Nat × Nat) × Bool)
deriving DecidableEq, Repr

/-- `BSPMat.delete`: remove entry `x` from both partition dicts, dropping a
cell once it becomes empty.  `none` models the KeyError raised when a key
is absent. -/
def PartState.delete (st : PartState) (x : Entry) : Option PartState := do
  let newsrc := x.src / 2
  let newdst := x.dst / 2
  let cs ← aget st.ps newsrc
  let _ ← aget cs x.src
  let cs := adel cs x.src
  let ps := if cs.isEmpty then adel st.ps newsrc else aset st.ps newsrc cs
  let cd ← aget st.pd newdst
  let _ ← aget cd x.dst
  let cd := adel cd x.dst
  let pd := if cd.isEmpty then adel st.pd newdst else aset st.pd newdst cd
  pure ⟨ps, pd, st.dbl⟩

/-- One iteration of the distribution loop of `BSPMat.partition`: file the
entry into both cell dicts and track the doubled cells via `seen`. -/
def partStep (acc : PartState × List (Nat × Nat)) (kv : Nat × Entry) :
    Option (PartState × List (Nat × Nat)) := do
  let x := kv.2
  let ns := x.src / 2
  let nd := x.dst / 2
  let cs ← aget acc.1.ps ns
  let ps := aset acc.1.ps ns (aset cs x.src x)
  let cd ← aget acc.1.pd nd
  let pd := aset acc.1.pd nd (aset cd x.dst x)
  if (ns, nd) ∈ acc.2 then
    pure ((⟨ps, pd, aset acc.1.dbl (ns, nd) true⟩ : PartState), acc.2)
  else
    pure ((⟨ps, pd, acc.1.dbl⟩ : PartState), (ns, nd) :: acc.2)

/-- `BSPMat.partition`: pre-create one empty cell per halved index, then
distribute the entries of `d` (in dict order), recording in `dbl` the
cells hit twice on both coordinates.  The `seen` set is the second fold
component. -/
def BSPMat.partition (m : BSPMat) : Option PartState := do
  let newsize := m.size / 2
  let ps0 : Cells := (List.range newsize).map (fun x => (x, []))
  let pd0 : Cells := (List.range newsize).map (fun x => (x, []))
  let st ← m.d.foldlM partStep ((⟨ps0, pd0, []⟩ : PartState), [])
  pure st.1

/-- State threaded through the `permutedbl` loop. -/
structure DblSt where
  part : PartState
  Pa : BSPMat
  Pb : BSPMat
  others : Nat
deriving Repr

/-- One iteration of the doubled-cell loop: move the first two entries
of the doubled destination cell into `Pa` and `Pb` respectively. -/
def dblStep (acc : DblSt) (kv : (Nat × Nat) × Bool) : Option DblSt := do
  let x := kv.1
  let cell ← aget acc.part.pd x.2
  let hd ← cell.head?
  let v := hd.2
  let Pa := acc.Pa.insert v
  let part ← acc.part.delete v
  let cell ← aget part.pd x.2
  let hd ← cell.head?
  let v := hd.2
  let Pb := acc.Pb.insert v
  let part ← part.delete v
  pure (⟨part, Pa, Pb, acc.others - 2⟩ : DblSt)

/-- `BSPMat.permutedbl`: split every doubled cell, one entry to `Pa`, the
other to `Pb`.  Returns the new state together with the starting column
(`none` when the loop ran and `pd` is exhausted) and the remaining entry
count.  Python's `others` may go negative; it is only ever used as a
`range` bound, which truncated `Nat` subtraction reproduces. -/
def BSPMat.permutedbl (part : PartState) (size : Nat) (Pa Pb : BSPMat) :
    Option (PartState × BSPMat × BSPMat × Option Nat × Nat) := do
  if part.dbl.isEmpty then
    pure (part, Pa, Pb, some 0, size - 1)
  else
    let r ← part.dbl.foldlM dblStep (⟨part, Pa, Pb, size - 1⟩ : DblSt)
    if r.part.pd.isEmpty then
      pure (r.part, r.Pa, r.Pb, none, r.others)
    else do
      let hd ← r.part.pd.head?
      pure (r.part, r.Pa, r.Pb, some hd.1, r.others)

/-- State threaded through the chasing loop of `BSPMat.permutation`. -/
structure ChaseSt where
  part : PartState
  Pa : BSPMat
  Pb : BSPMat
  pos : Nat
  refidx : Nat
deriving Repr

/-- One iteration of the chasing loop: re-seed `pos` from the first key of
the current lookup dict if the cycle closed (`newpermute`), flip the
side, move the first entry of the current cell into the current
sub-permutation, and step to its counterpart cell. -/
def chaseStep (c : ChaseSt) : Option ChaseSt := do
  let refl := if c.refidx = 0 then c.part.pd else c.part.ps
  let pos ← if (aget refl c.pos).isSome then some c.pos else (refl.head?).map (·.1)
  let refidx := (c.refidx + 1) % 2
  let cell ← aget refl pos
  let hd ← cell.head?
  let v := hd.2
  let (Pa, Pb) := if c.refidx = 0 then (c.Pa, c.Pb.insert v) else (c.Pa.insert v, c.Pb)
  let pos := (if refidx = 1 then v.src else v.dst) / 2
  let part ← c.part.delete v
  pure ⟨part, Pa, Pb, pos, refidx⟩

/-- The switch-configuration table: dict from (stage, group offset) to the
pair of crossing sets (`in`, `out`). -/
abbrev SwCfg := List ((Nat × Nat) × (List Nat × List Nat))

/-- The comprehension `[int(o / 2) for o in l if o & 1]` over optional ids;
`none` models the TypeError raised when an id is `None`. -/
def oddHalves : List (Option Nat) → Option (List Nat)
  | [] => some []
  | o :: t => do
    let v ← o
    let rest ← oddHalves t
    if v % 2 = 1 then pure (v / 2 :: rest) else pure rest

/-- The body of `BSPMat.permutation` before the recursive calls:
partition, split the doubled cells, chase the remaining cycle edges
alternating `Pa`/`Pb`, and derive the crossing sets of this
(stage, offset) from the odd original ids of `Pa`.  Returns the
one-entry table together with the two halves. -/
def BSPMat.permstep (m : BSPMat) (stage offset : Nat) :
    Option (SwCfg × BSPMat × BSPMat) := do
  let part ← m.partition
  let Pa0 : BSPMat := ⟨[], [], 0⟩
  let Pb0 : BSPMat := ⟨[], [], 0⟩
  let (part, Pa, Pb, startcol, othercols) ← BSPMat.permutedbl part m.size Pa0 Pb0
  let (Pa, Pb) ← (match startcol with
    | none => pure (Pa, Pb)
    | some sc => do
      let cell ← aget part.pd sc
      let hd ← cell.head?
      let v := hd.2
      let Pa := Pa.insert v
      let pos := v.dst / 2
      let part ← part.delete v
      let fin ← (List.range othercols).foldlM (fun c _ => chaseStep c)
        (⟨part, Pa, Pb, pos, 0⟩ : ChaseSt)
      pure (fin.Pa, fin.Pb))
  let Pa := { Pa with size := Pa.d.length }
  let Pb := { Pb with size := Pb.d.length }
  let isw0 ← oddHalves (Pa.d.map (fun kv => kv.2.os))
  let osw0 ← oddHalves (Pa.d.map (fun kv => kv.2.od))
  pure ([((stage, offset), (isw0.dedup, osw0.dedup))], Pa, Pb)

/-- `BSPMat.permutation` as structural recursion on the stage index: run
the body, then recurse on both halves while the decremented stage index
stays non-negative, merging the sub-tables into this stage's table with
dict update. -/
def permutationAux : Nat → BSPMat → Nat → Option SwCfg
  | 0, m, offset => do
    let (base, _, _) ← m.permstep 0 offset
    pure base
  | s + 1, m, offset => do
    let (base, Pa, Pb) ← m.permstep (s + 1) offset
    let ca ← permutationAux s Pa (offset * 2)
    let cb ← permutationAux s Pb (offset * 2 + 1)
    pure (cb.foldl (fun acc kv => aset acc kv.1 kv.2)
      (ca.foldl (fun acc kv => aset acc kv.1 kv.2) base))

/-- `BSPMat.permutation stage offset` of mcenoc-route.py. -/
def BSPMat.permutation (m : BSPMat) (stage offset : Nat) : Option SwCfg :=
  permutationAux stage m offset

/-- `BSRoute.gen` up to the decomposition: build the matrix from the route
and run `permutation` from the top stage `log2(nports) - 1`.  (For
`nports = 1` Python calls `permutation(-1)`, which dies inside
`partition` exactly as the `stage = 0` call does here, before the stage
index is ever consulted.) -/
def genSwconfig (nports : Nat) (src dst : List Nat) : Option SwCfg :=
  (BSPMat.ofList (src.zip dst)).permutation (log2floor nports - 1) 0

/-! ## The route-bit extractor `BSRoute.routebits` -/

/-- The inter-stage wiring formula of `routebits`: for a block size `step`,
`port % step` is doubled and wrapped inside its block
(`pmap`, `wrapcount`, `pmod`, `blockoff` of the source). -/
def shuffleMap (stepsz p : Nat) : Nat :=
  let pmap := (p % stepsz) * 2
  let wrapcount := pmap / stepsz
  let pmod := pmap % stepsz + wrapcount
  pmod + p / stepsz * stepsz

/-- `nstages` of `routebits`: `int(math.log(nports, 2) - 1)`, as an integer
because it is `-1` when `nports = 1`. -/
def nstagesI (nports : Nat) : Int := (log2floor nports : Int) - 1

/-- The stage sequence `list(range(nstages, 0, -1)) + list(range(nstages + 1))`. -/
def stagesList (nports : Nat) : List Nat :=
  let n := (nstagesI nports).toNat
  ((List.range n).map (fun j => n - j)) ++ List.range ((nstagesI nports) + 1).toNat

/-- `linkstages = stages[1 : nstages + 1]; linkstages += reversed(linkstages)`. -/
def linkstagesList (nports : Nat) : List Nat :=
  let ls := ((stagesList nports).drop 1).take (nstagesI nports).toNat
  ls ++ ls.reverse

/-- The side sequence: `nstages + 1` times `'in'` (here `true`) followed by
`nstages` times `'out'` (here `false`). -/
def sidesList (nports : Nat) : List Bool :=
  List.replicate ((nstagesI nports) + 1).toNat true ++
    List.replicate (nstagesI nports).toNat false

/-- The mutable state of the `routebits` walk: `rbits` holds, per original
port, the bits emitted so far, and `inputs` maps each current wire
position to the original port whose token occupies it. -/
structure SimState where
  rbits : List (List Nat)
  inputs : List Nat
deriving DecidableEq, Repr

/-- One switch column: for every switch, look up its (stage, group) crossing
set on the active side and either swap the pair (lower token records bit 1,
upper token bit 0) or pass straight (lower bit 0, upper bit 1).  `newinputs`
starts as the all-`False` dict, modelled by a placeholder list that every
iteration overwrites at its two positions. -/
def switchPhase (nports : Nat) (cfg : SwCfg) (st : Nat) (sideIn : Bool)
    (s : SimState) : Option SimState := do
  let r ← (List.range (nports / 2)).foldlM
    (fun (acc : List (List Nat) × List Nat) sw => do
      let md := 2 ^ st
      let relsw := sw % md
      let group := sw / md
      let c ← aget cfg (st, group)
      let cset := if sideIn then c.1 else c.2
      let cross := relsw ∈ cset
      let p0 := 2 * sw
      let p1 := 2 * sw + 1
      let t0 := s.inputs.getD p0 0
      let t1 := s.inputs.getD p1 0
      if cross then
        let rb0 := acc.1.set t0 (acc.1.getD t0 [] ++ [1])
        let rb1 := rb0.set t1 (rb0.getD t1 [] ++ [0])
        pure (rb1, (acc.2.set (p0 + 1) t0).set (p1 - 1) t1)
      else
        let rb0 := acc.1.set t0 (acc.1.getD t0 [] ++ [0])
        let rb1 := rb0.set t1 (rb0.getD t1 [] ++ [1])
        pure (rb1, (acc.2.set p0 t0).set p1 t1))
    (s.rbits, List.replicate nports 0)
  pure ⟨r.1, r.2⟩

/-- The inter-stage wiring pass: with `fport = shuffleMap stepsz p`, the
`'in'` half swaps the roles of `p` and `fport` before assigning
`newinputs[fport] = inputs[p]`. -/
def linkPhase (nports stepsz : Nat) (sideIn : Bool) (inputs : List Nat) : List Nat :=
  (List.range nports).foldl (fun acc p =>
    let fport := shuffleMap stepsz p
    if sideIn then acc.set p (inputs.getD fport 0)
    else acc.set fport (inputs.getD p 0))
    (List.replicate nports 0)

/-- One iteration of the stage loop of `routebits`: a switch column, then —
except after the last stage — the inter-stage wiring. -/
def rbStep (nports : Nat) (cfg : SwCfg) (st : SimState) (ist : Nat × Nat) :
    Option SimState := do
  let stages := stagesList nports
  let linkst := linkstagesList nports
  let sides := sidesList nports
  let i := ist.1
  let sideIn := sides.getD i true
  let st1 ← switchPhase nports cfg ist.2 sideIn st
  if i + 1 < stages.length then
    let pstep := 2 ^ (linkst.getD i 0 + 2)
    let stepsz := if pstep > nports then nports else pstep
    pure ⟨st1.rbits, linkPhase nports stepsz sideIn st1.inputs⟩
  else
    pure st1

/-- The full `routebits` walk, keeping the final `inputs` map as well as the
emitted bits. -/
def routebitsFull (nports : Nat) (cfg : SwCfg) : Option SimState :=
  (stagesList nports).enum.foldlM (rbStep nports cfg)
    ⟨List.replicate nports [], List.range nports⟩

/-- `BSRoute.routebits`: the per-port bit sequences. -/
def routebits (nports : Nat) (cfg : SwCfg) : Option (List (List Nat)) :=
  (routebitsFull nports cfg).map (·.rbits)

/-! ## Replaying a route header

Replaying a header through the network: a token sits on a wire position,
each switch column sends it to the switch output selected by the next
header bit (position `2*(pos/2) + bit`), and between columns it follows
the same fixed wiring that `routebits` walks.  On the `'in'` half the
wiring moves the token at position `shuffleMap stepsz p` to position `p`,
on the `'out'` half from `p` to `shuffleMap stepsz p`. -/

/-- Move one token across one inter-stage wiring pass. -/
def linkPos (nports stepsz : Nat) (sideIn : Bool) (pos : Nat) : Nat :=
  if sideIn then
    ((List.range nports).find? (fun p => shuffleMap stepsz p = pos)).getD pos
  else shuffleMap stepsz pos

/-- Replay a header bit sequence from a starting port; the result is the
wire position the token ends on. -/
def replay (nports start : Nat) (bits : List Nat) : Nat :=
  let stages := stagesList nports
  let linkst := linkstagesList nports
  let sides := sidesList nports
  stages.enum.foldl (fun pos ist =>
    let i := ist.1
    let pos := 2 * (pos / 2) + bits.getD i 0
    if i + 1 < stages.length then
      let pstep := 2 ^ (linkst.getD i 0 + 2)
      let stepsz := if pstep > nports then nports else pstep
      linkPos nports stepsz (sides.getD i true) pos
    else pos) start

/-! ## Input validation (`dupecheck`, `rangecheck`) -/

/-- The duplicate collector of `dupecheck`: walk the list keeping the `seen`
and `dupes` sets; an element already seen joins `dupes`. -/
def dupesGo (seen dupes : List Int) : List Int → List Int
  | [] => dupes
  | x :: t =>
    if x ∈ seen then dupesGo seen (if x ∈ dupes then dupes else dupes ++ [x]) t
    else dupesGo (seen ++ [x]) dupes t

/-- The set of duplicated values computed by `BSRoute.dupecheck`. -/
def dupes (l : List Int) : List Int := dupesGo [] [] l

/-- `BSRoute.dupecheck` raises exactly when the duplicate set is non-empty. -/
def dupecheckRaises (l : List Int) : Bool := !(dupes l).isEmpty

/-- Result of a validation step: passed, raised naming a value, or crashed
before raising (Python `max`/`min` on an empty list). -/
inductive CheckResult where
  | ok : CheckResult
  | err : Int → CheckResult
  | crash : CheckResult
deriving DecidableEq, Repr

/-- `BSRoute.rangecheck`: raise naming `max(l)` when it reaches `nports`,
else raise naming `min(l)` when negative. -/
def rangecheck (nports : Int) (l : List Int) : CheckResult :=
  match l.max?, l.min? with
  | some mx, some mn =>
      if mx ≥ nports then .err mx
      else if mn < 0 then .err mn
      else .ok
  | _, _ => .crash

/-- Outcome of the `BSRoute.__init__` validation sequence. -/
inductive ValidateResult where
  | ok : ValidateResult
  | dupErr : List Int → ValidateResult
  | rangeErr : Int → ValidateResult
  | crash : ValidateResult
deriving DecidableEq, Repr

/-- The validation sequence of `BSRoute.__init__`: duplicate check on the
sources, then the destinations, then range checks on both; the first
failure wins.  Nothing here ever consults the lengths of the lists. -/
def validate (nports : Int) (src dst : List Int) : ValidateResult :=
  if dupecheckRaises src then .dupErr (dupes src)
  else if dupecheckRaises dst then .dupErr (dupes dst)
  else match rangecheck nports src with
    | .ok =>
      (match rangecheck nports dst with
        | .ok => .ok
        | .err v => .rangeErr v
        | .crash => .crash)
    | .err v => .rangeErr v
    | .crash => .crash

/-! ## The banyan-sroute.py generator `BSRoute.gen` -/

/-- Stable insertion step for sorting the route pairs by destination. -/
def sinsert (x : Nat × Nat) : List (Nat × Nat) → List (Nat × Nat)
  | [] => [x]
  | y :: t => if x.2 ≤ y.2 then x :: y :: t else y :: sinsert x t

/-- Python `sorted(routes, key = lambda x: x[1])`: a stable sort on the
destination component (insertion sort is extensionally Python's stable
sort). -/
def sortByDst (l : List (Nat × Nat)) : List (Nat × Nat) := l.foldr sinsert []

/-- The group-offset advance of banyan-sroute.py: add the skip, and when the
sum reaches `nsw` wrap as `(sw + 1) % nsw`. -/
def swAdvance (nsw swskip sw : Nat) : Nat :=
  if sw + swskip ≥ nsw then (sw + swskip + 1) % nsw else sw + swskip

/-- The loop body of `BSRoute.gen` of banyan-sroute.py: reset the group
offset at each block boundary, emit the header of index `i`, advance the
offset. -/
def bsGenStep (nsw swskip hbits : Nat) (acc : List Nat × Nat) (ir : Nat × Nat) :
    List Nat × Nat :=
  let i := ir.1
  let sw := if i % nsw = 0 then 0 else acc.2
  (acc.1 ++ [(sw <<< (hbits + 1)) ||| i], swAdvance nsw swskip sw)

/-- `BSRoute.gen` of banyan-sroute.py: sort the pairs by destination and
emit, for the i-th entry, `(sw <<< (hbits + 1)) ||| i`, resetting `sw`
to 0 at each block boundary and advancing it by `swAdvance` after each
entry. -/
def bsGen (nports mbits rbits : Nat) (src dst : List Nat) : List Nat :=
  let routesort := (sortByDst (src.zip dst)).map (·.1)
  let hbits := (rbits - 1) / 2
  let nsw := nports / 2 ^ mbits
  let swskip := nsw / 2 ^ mbits
  (routesort.enum.foldl (bsGenStep nsw swskip hbits) ([], 0)).1

/-- Modelled from the spec: the loop body with the group offset advanced
by the spec's words, a fixed skip distance wrapped modulo the block
size. -/
def bsGenSpecStep (nsw swskip hbits : Nat) (acc : List Nat × Nat) (ir : Nat × Nat) :
    List Nat × Nat :=
  let i := ir.1
  let sw := if i % nsw = 0 then 0 else acc.2
  (acc.1 ++ [(sw <<< (hbits + 1)) ||| i], (sw + swskip) % nsw)

/-- Modelled from the spec: the same generator with the group offset
advanced by the spec's words, a fixed skip distance wrapped modulo the
block size. -/
def bsGenSpec (nports mbits rbits : Nat) (src dst : List Nat) : List Nat :=
  let routesort := (sortByDst (src.zip dst)).map (·.1)
  let hbits := (rbits - 1) / 2
  let nsw := nports / 2 ^ mbits
  let swskip := nsw / 2 ^ mbits
  (routesort.enum.foldl (bsGenSpecStep nsw swskip hbits) ([], 0)).1

/-- The header bit length computed in `BSRoute.__init__`:
`self.rbits = self.stages * self.nbits * 2 + self.mbits`. -/
def rbitsFormula (stages nbits mbits : Nat) : Nat := stages * nbits * 2 + mbits

/-- The switch-configuration table that the decomposer produces for the
identity permutation on 8 ports. -/
def identityCfg8 : SwCfg :=
  [((2, 0), ([], [])), ((1, 0), ([], [])), ((0, 0), ([], [])), ((0, 1), ([], [])),
   ((1, 1), ([], [])), ((0, 2), ([], [])), ((0, 3), ([], []))]

/-- The route headers produced for the identity permutation on 8 ports. -/
def identityRb8 : List (List Nat) :=
  [[0, 0, 0, 0, 0], [1, 0, 0, 0, 1], [0, 1, 0, 1, 0], [1, 1, 0, 1, 1],
   [0, 0, 1, 0, 0], [1, 0, 1, 0, 1], [0, 1, 1, 1, 0], [1, 1, 1, 1, 1]]

/-- The closed form of the banyan group offset: the advance iterated
`i % nsw` times from 0, as dictated by the reset at each block boundary. -/
def groupAt (nsw swskip i : Nat) : Nat := (swAdvance nsw swskip)^[i % nsw] 0

/-- Current-level id bound on an entry. -/
def EntryB (n : Nat) (e : Entry) : Prop := e.src < n ∧ e.dst < n

/-- Id bound on a sub-permutation entry: current ids below `n`, original
(parent-level) ids below `2 * n`. -/
def EntryQ (n : Nat) (e : Entry) : Prop :=
  e.src < n ∧ e.dst < n ∧
    (∀ v, e.os = some v → v < 2 * n) ∧ (∀ v, e.od = some v → v < 2 * n)

/-- A predicate holding for every entry stored in a family of cells. -/
def CellsP (P : Entry → Prop) (cs : Cells) : Prop := ∀ c ∈ cs, ∀ kv ∈ c.2, P kv.2

/-- A predicate holding for every entry of both partition dicts. -/
def PartP (P : Entry → Prop) (st : PartState) : Prop := CellsP P st.ps ∧ CellsP P st.pd

/-- A predicate holding for every entry of a matrix's destination dict. -/
def MatP (P : Entry → Prop) (m : BSPMat) : Prop := ∀ kv ∈ m.d, P kv.2

/-- The inverse of the inter-stage wiring map `shuffleMap` on each block
of `stepsz` ports (for even positive `stepsz`). -/
def shuffleInv (stepsz q : Nat) : Nat :=
  q % stepsz / 2 + q % stepsz % 2 * (stepsz / 2) + q / stepsz * stepsz

/-! ## Exact bookkeeping for the looping decomposition

The predicates below describe the decomposer's state precisely enough to
show that `BSPMat.permutation` succeeds on every valid permutation and
splits it into two valid half-permutations: per-cell counts of the
entries already moved to `Pa` / `Pb` and of the entries still held by
the partition dicts. -/

/-- Entry `e` is still listed in the source partition dict, in the cell
of its halved source, keyed by its source. -/
def psHas (part : PartState) (e : Entry) : Prop :=
  ∃ cell, aget part.ps (e.src / 2) = some cell ∧ aget cell e.src = some e

/-- Entry `e` is still listed in the destination partition dict. -/
def pdHas (part : PartState) (e : Entry) : Prop :=
  ∃ cell, aget part.pd (e.dst / 2) = some cell ∧ aget cell e.dst = some e

/-- Number of entries a partition dict still holds in cell `c`. -/
def rCount (P : Cells) (c : Nat) : Nat := ((aget P c).getD []).length

/-- Number of entries of `m.d` whose (halved) source is `c`. -/
def srcCount (m : BSPMat) (c : Nat) : Nat :=
  (m.d.map (fun kv => kv.2.src)).count c

/-- Number of entries of `m.d` whose (halved) destination is `c`. -/
def dstCount (m : BSPMat) (c : Nat) : Nat :=
  (m.d.map (fun kv => kv.2.dst)).count c

/-- Total number of entries a partition dict holds in cells `0 … h-1`. -/
def sumR (P : Cells) (h : Nat) : Nat :=
  ((List.range h).map (fun c => rCount P c)).sum

/-- Structural soundness of a partition state over `2*h` ids: distinct
cell keys, non-empty cells keyed by halved id holding entries keyed by
their full id, and the same entries listed on both sides. -/
structure PartGood (h : Nat) (part : PartState) : Prop where
  psK : (part.ps.map (fun c => c.1)).Nodup
  pdK : (part.pd.map (fun c => c.1)).Nodup
  psC : ∀ ccell ∈ part.ps, ccell.2 ≠ [] ∧
    ∀ ke ∈ ccell.2, ke.1 = ke.2.src ∧ ke.2.src / 2 = ccell.1 ∧
      ke.2.src < 2 * h ∧ ke.2.dst < 2 * h
  pdC : ∀ ccell ∈ part.pd, ccell.2 ≠ [] ∧
    ∀ ke ∈ ccell.2, ke.1 = ke.2.dst ∧ ke.2.dst / 2 = ccell.1 ∧
      ke.2.src < 2 * h ∧ ke.2.dst < 2 * h
  psN : ∀ ccell ∈ part.ps, (ccell.2.map (fun ke => ke.1)).Nodup
  pdN : ∀ ccell ∈ part.pd, (ccell.2.map (fun ke => ke.1)).Nodup
  mirSD : ∀ e, psHas part e → pdHas part e
  mirDS : ∀ e, pdHas part e → psHas part e

/-- Soundness of an under-construction half-permutation: its dict is
keyed by destination, ids are below `h` and the original parent ids are
recorded. -/
def PaGood (h : Nat) (m : BSPMat) : Prop :=
  ∀ kv ∈ m.d, kv.1 = kv.2.dst ∧ kv.2.src < h ∧ kv.2.dst < h ∧
    kv.2.os.isSome = true ∧ kv.2.od.isSome = true

/-- A source-side cell is either untouched (both entries remaining) or
fully split (one entry in each half). -/
def fdS (Pa Pb : BSPMat) (ps : Cells) (c : Nat) : Prop :=
  (srcCount Pa c = 0 ∧ srcCount Pb c = 0 ∧ rCount ps c = 2) ∨
  (srcCount Pa c = 1 ∧ srcCount Pb c = 1 ∧ rCount ps c = 0)

/-- A destination-side cell is either untouched or fully split. -/
def fdD (Pa Pb : BSPMat) (pd : Cells) (c : Nat) : Prop :=
  (dstCount Pa c = 0 ∧ dstCount Pb c = 0 ∧ rCount pd c = 2) ∨
  (dstCount Pa c = 1 ∧ dstCount Pb c = 1 ∧ rCount pd c = 0)

/-- The destination cell at the chase position is half consumed, its
taken entry having gone to `Pa`. -/
def threadD (st : ChaseSt) : Prop :=
  dstCount st.Pa st.pos = 1 ∧ dstCount st.Pb st.pos = 0 ∧
    rCount st.part.pd st.pos = 1

/-- The source cell at the chase position is half consumed, its taken
entry having gone to `Pb`. -/
def threadS (st : ChaseSt) : Prop :=
  srcCount st.Pa st.pos = 0 ∧ srcCount st.Pb st.pos = 1 ∧
    rCount st.part.ps st.pos = 1

/-- A half-consumed source cell left dangling at a cycle start: its
consumed entry went to `Pa`. -/
def dglS (Pa Pb : BSPMat) (ps : Cells) (w : Nat) : Prop :=
  srcCount Pa w = 1 ∧ srcCount Pb w = 0 ∧ rCount ps w = 1

/-- A half-consumed destination cell left dangling at a cycle start:
its consumed entry went to `Pb`. -/
def dglD (Pa Pb : BSPMat) (pd : Cells) (w : Nat) : Prop :=
  dstCount Pa w = 0 ∧ dstCount Pb w = 1 ∧ rCount pd w = 1

/-- Mid-cycle shape of the chase state: the cell at the position is the
half-consumed thread cell matching the side about to pick, exactly one
dangling cell (on either side) marks where the current cycle started,
and every other cell is untouched or fully split. -/
def chaseOpen (h : Nat) (st : ChaseSt) : Prop :=
  st.pos < h ∧
  if st.refidx = 0 then
    threadD st ∧
    ((∃ w, w < h ∧ dglS st.Pa st.Pb st.part.ps w ∧
        (∀ c, c < h → c ≠ w → fdS st.Pa st.Pb st.part.ps c) ∧
        (∀ c, c < h → c ≠ st.pos → fdD st.Pa st.Pb st.part.pd c)) ∨
     (∃ w, w < h ∧ w ≠ st.pos ∧ dglD st.Pa st.Pb st.part.pd w ∧
        (∀ c, c < h → fdS st.Pa st.Pb st.part.ps c) ∧
        (∀ c, c < h → c ≠ st.pos → c ≠ w → fdD st.Pa st.Pb st.part.pd c)))
  else
    threadS st ∧
    ((∃ w, w < h ∧ w ≠ st.pos ∧ dglS st.Pa st.Pb st.part.ps w ∧
        (∀ c, c < h → c ≠ st.pos → c ≠ w → fdS st.Pa st.Pb st.part.ps c) ∧
        (∀ c, c < h → fdD st.Pa st.Pb st.part.pd c)) ∨
     (∃ w, w < h ∧ dglD st.Pa st.Pb st.part.pd w ∧
        (∀ c, c < h → c ≠ st.pos → fdS st.Pa st.Pb st.part.ps c) ∧
        (∀ c, c < h → c ≠ w → fdD st.Pa st.Pb st.part.pd c)))

/-- Between-cycles shape of the chase state: every cell is untouched or
fully split. -/
def chaseClosed (h : Nat) (st : ChaseSt) : Prop :=
  (∀ c, c < h → fdS st.Pa st.Pb st.part.ps c) ∧
  (∀ c, c < h → fdD st.Pa st.Pb st.part.pd c)

/-- Full chase-loop invariant with `rem` entries left on each side. -/
def ChaseInv (h rem : Nat) (st : ChaseSt) : Prop :=
  PartGood h st.part ∧ PaGood h st.Pa ∧ PaGood h st.Pb ∧
  (st.refidx = 0 ∨ st.refidx = 1) ∧
  sumR st.part.ps h = rem ∧ sumR st.part.pd h = rem ∧
  (chaseOpen h st ∨ chaseClosed h st)

/-- A valid permutation matrix at level `n`: `2^n` entries keyed by
destination whose sources and destinations each run over all of
`0 … 2^n - 1`. -/
def MatValid (n : Nat) (m : BSPMat) : Prop :=
  m.size = 2 ^ n ∧
  (∀ kv ∈ m.d, kv.1 = kv.2.dst) ∧
  List.Perm (m.d.map (fun kv => kv.2.src)) (List.range (2 ^ n)) ∧
  List.Perm (m.d.map (fun kv => kv.2.dst)) (List.range (2 ^ n))

end MCENoC

namespace MCENoC

/-! ### Characterisation of the duplicate collector -/

theorem mem_dupesGo (x : Int) :
    ∀ (t seen dp : List Int),
      (x ∈ dupesGo seen dp t ↔ x ∈ dp ∨ (x ∈ t ∧ x ∈ seen) ∨ 2 ≤ t.count x)
  | [], seen, dp => by simp [dupesGo]
  | a :: t, seen, dp => by
    rw [dupesGo]
    by_cases ha : a ∈ seen
    · rw [if_pos ha, mem_dupesGo x t]
      by_cases hx : x = a
      · subst hx
        by_cases hd : x ∈ dp <;>
          simp [hd, ha, List.count_cons, List.mem_append]
      · by_cases hd : a ∈ dp <;>
          simp [hd, List.count_cons, hx, List.mem_append, List.mem_cons]
    · rw [if_neg ha, mem_dupesGo x t]
      by_cases hx : x = a
      · subst hx
        have hc : (0 < t.count x) ↔ x ∈ t := List.count_pos_iff
        have hcc : (x :: t).count x = t.count x + 1 := by simp [List.count_cons]
        constructor
        · rintro (hdp | ⟨hxt, -⟩ | hcnt)
          · exact Or.inl hdp
          · refine Or.inr (Or.inr ?_)
            rw [hcc]
            have := hc.mpr hxt
            omega
          · refine Or.inr (Or.inr ?_)
            rw [hcc]
            omega
        · rintro (hdp | ⟨-, hseen⟩ | hcnt)
          · exact Or.inl hdp
          · exact absurd hseen ha
          · rw [hcc] at hcnt
            by_cases h2 : 2 ≤ t.count x
            · exact Or.inr (Or.inr h2)
            · have hxt : x ∈ t := hc.mp (by omega)
              exact Or.inr (Or.inl ⟨hxt,
                List.mem_append.2 (Or.inr (List.mem_singleton.2 rfl))⟩)
      · simp [List.count_cons, hx, List.mem_append, List.mem_cons]

theorem mem_dupes_iff (l : List Int) (x : Int) : x ∈ dupes l ↔ 2 ≤ l.count x := by
  simpa [dupes] using mem_dupesGo x l [] []

theorem dupecheckRaises_iff (l : List Int) :
    dupecheckRaises l = true ↔ ∃ x, 2 ≤ l.count x := by
  constructor
  · intro hr
    rcases h : dupes l with _ | ⟨a, t⟩
    · rw [dupecheckRaises, h] at hr
      simp at hr
    · exact ⟨a, (mem_dupes_iff l a).1 (h ▸ List.mem_cons_self a t)⟩
  · rintro ⟨x, hx⟩
    have hm := (mem_dupes_iff l x).2 hx
    rw [dupecheckRaises]
    rcases h : dupes l with _ | ⟨a, t⟩
    · rw [h] at hm
      simp at hm
    · simp

/-! ### Characterisation of the range check -/

theorem rangecheck_eq_of_some (nports : Int) (l : List Int) (mx mn : Int)
    (hmx : l.max? = some mx) (hmn : l.min? = some mn) :
    rangecheck nports l =
      if mx ≥ nports then .err mx else if mn < 0 then .err mn else .ok := by
  unfold rangecheck
  rw [hmx, hmn]

theorem max?_isSome_of_ne_nil (l : List Int) (h : l ≠ []) : ∃ mx, l.max? = some mx := by
  rcases l with _ | ⟨a, t⟩
  · exact absurd rfl h
  · exact ⟨t.foldl max a, List.max?_cons'⟩

theorem min?_isSome_of_ne_nil (l : List Int) (h : l ≠ []) : ∃ mn, l.min? = some mn := by
  rcases l with _ | ⟨a, t⟩
  · exact absurd rfl h
  · exact ⟨t.foldl min a, List.min?_cons'⟩

theorem rangecheck_err_iff (nports : Int) (l : List Int) (h : l ≠ []) :
    (∃ v, rangecheck nports l = .err v) ↔ ∃ x ∈ l, x < 0 ∨ nports ≤ x := by
  obtain ⟨mx, hmx⟩ := max?_isSome_of_ne_nil l h
  obtain ⟨mn, hmn⟩ := min?_isSome_of_ne_nil l h
  have hmxm : mx ∈ l := List.max?_mem (fun a b => max_choice a b) hmx
  have hmxle : ∀ b ∈ l, b ≤ mx :=
    (List.max?_le_iff (fun a b c => max_le_iff) hmx).1 le_rfl
  have hmnm : mn ∈ l := List.min?_mem (fun a b => min_choice a b) hmn
  have hmnle : ∀ b ∈ l, mn ≤ b :=
    (List.le_min?_iff (fun a b c => le_min_iff) hmn).1 le_rfl
  rw [rangecheck_eq_of_some nports l mx mn hmx hmn]
  constructor
  · rintro ⟨v, hv⟩
    by_cases h1 : mx ≥ nports
    · exact ⟨mx, hmxm, Or.inr h1⟩
    · rw [if_neg h1] at hv
      by_cases h2 : mn < 0
      · exact ⟨mn, hmnm, Or.inl h2⟩
      · rw [if_neg h2] at hv
        exact absurd hv (by simp)
  · rintro ⟨x, hxl, hx | hx⟩
    · by_cases h1 : mx ≥ nports
      · exact ⟨mx, if_pos h1⟩
      · refine ⟨mn, ?_⟩
        rw [if_neg h1, if_pos (lt_of_le_of_lt (hmnle x hxl) hx)]
    · exact ⟨mx, if_pos (le_trans hx (hmxle x hxl))⟩

theorem rangecheck_err_offending (nports : Int) (l : List Int) (v : Int)
    (hv : rangecheck nports l = .err v) : v ∈ l ∧ (v < 0 ∨ nports ≤ v) := by
  rcases h : l.max? with _ | mx
  · rw [rangecheck, h] at hv
    rcases h2 : l.min? with _ | mn <;> rw [h2] at hv <;> exact absurd hv (by simp)
  rcases h2 : l.min? with _ | mn
  · rw [rangecheck, h, h2] at hv
    exact absurd hv (by simp)
  have hmxm : mx ∈ l := List.max?_mem (fun a b => max_choice a b) h
  have hmnm : mn ∈ l := List.min?_mem (fun a b => min_choice a b) h2
  rw [rangecheck_eq_of_some nports l mx mn h h2] at hv
  by_cases h1 : mx ≥ nports
  · rw [if_pos h1] at hv
    cases hv
    exact ⟨hmxm, Or.inr h1⟩
  · rw [if_neg h1] at hv
    by_cases h3 : mn < 0
    · rw [if_pos h3] at hv
      cases hv
      exact ⟨hmnm, Or.inl h3⟩
    · rw [if_neg h3] at hv
      exact absurd hv (by simp)

/-! ### The banyan generator in closed form -/

theorem succ_mod_eq (n m : Nat) (hm : 0 < m) :
    (n + 1) % m = if n % m + 1 = m then 0 else n % m + 1 := by
  have h1 : (n % m + 1) % m = (n + 1) % m := Nat.mod_add_mod ..
  by_cases hc : n % m + 1 = m
  · rw [if_pos hc, ← h1, hc, Nat.mod_self]
  · rw [if_neg hc, ← h1]
    exact Nat.mod_eq_of_lt (lt_of_le_of_ne (Nat.mod_lt n hm) hc)

theorem bsGenGo_spec (nsw swskip hbits : Nat) (hnsw : 0 < nsw) :
    ∀ (l : List Nat) (n : Nat) (acc : List Nat) (g : Nat),
      (n % nsw ≠ 0 → g = (swAdvance nsw swskip)^[n % nsw] 0) →
      ((l.enumFrom n).foldl (bsGenStep nsw swskip hbits) (acc, g)).1 =
        acc ++ (l.enumFrom n).map
          (fun ir => (((swAdvance nsw swskip)^[ir.1 % nsw] 0) <<< (hbits + 1)) ||| ir.1)
  | [], n, acc, g, hg => by simp
  | x :: t, n, acc, g, hg => by
    rw [List.enumFrom_cons]
    have hsw : (if n % nsw = 0 then 0 else g) = (swAdvance nsw swskip)^[n % nsw] 0 := by
      by_cases h0 : n % nsw = 0
      · simp [h0]
      · simp [h0, hg h0]
    have hnext : (n + 1) % nsw ≠ 0 →
        swAdvance nsw swskip ((swAdvance nsw swskip)^[n % nsw] 0) =
          (swAdvance nsw swskip)^[(n + 1) % nsw] 0 := by
      intro h1
      rw [succ_mod_eq n nsw hnsw]
      by_cases hc : n % nsw + 1 = nsw
      · rw [succ_mod_eq n nsw hnsw, if_pos hc] at h1
        exact absurd rfl h1
      · rw [if_neg hc, Function.iterate_succ_apply']
    have hstep : bsGenStep nsw swskip hbits (acc, g) (n, x) =
        (acc ++ [(((swAdvance nsw swskip)^[n % nsw] 0) <<< (hbits + 1)) ||| n],
         swAdvance nsw swskip ((swAdvance nsw swskip)^[n % nsw] 0)) := by
      rw [bsGenStep]
      simp only [hsw]
    rw [List.foldl_cons, hstep,
      bsGenGo_spec nsw swskip hbits hnsw t (n + 1) _ _ hnext,
      List.map_cons]
    simp [List.append_assoc]

/-! ### Generic facts about the dict model and Option folds -/

theorem head?_mem {α : Type} {l : List α} {a : α} (h : l.head? = some a) : a ∈ l := by
  cases l with
  | nil => simp at h
  | cons x t =>
    simp only [List.head?_cons, Option.some.injEq] at h
    exact h ▸ List.mem_cons_self x t

theorem aget_mem {κ α : Type} [DecidableEq κ] :
    ∀ (l : List (κ × α)) (k : κ) (v : α), aget l k = some v → (k, v) ∈ l
  | [], k, v, h => by simp [aget] at h
  | (k', v') :: t, k, v, h => by
    rw [aget] at h
    by_cases hk : k' = k
    · rw [if_pos hk] at h
      simp only [Option.some.injEq] at h
      subst hk
      subst h
      exact List.mem_cons_self _ _
    · rw [if_neg hk] at h
      exact List.mem_cons_of_mem _ (aget_mem t k v h)

theorem mem_aset {κ α : Type} [DecidableEq κ] :
    ∀ (l : List (κ × α)) (k : κ) (v : α) (kv : κ × α),
      kv ∈ aset l k v → kv = (k, v) ∨ kv ∈ l
  | [], k, v, kv, h => by
    rw [aset] at h
    exact Or.inl (List.mem_singleton.1 h)
  | (k', v') :: t, k, v, kv, h => by
    rw [aset] at h
    by_cases hk : k' = k
    · rw [if_pos hk] at h
      rcases List.mem_cons.1 h with h1 | h1
      · exact Or.inl h1
      · exact Or.inr (List.mem_cons_of_mem _ h1)
    · rw [if_neg hk] at h
      rcases List.mem_cons.1 h with h1 | h1
      · exact Or.inr (h1 ▸ List.mem_cons_self _ _)
      · rcases mem_aset t k v kv h1 with h2 | h2
        · exact Or.inl h2
        · exact Or.inr (List.mem_cons_of_mem _ h2)

theorem mem_adel {κ α : Type} [DecidableEq κ] :
    ∀ (l : List (κ × α)) (k : κ) (kv : κ × α), kv ∈ adel l k → kv ∈ l
  | [], k, kv, h => by simpa [adel] using h
  | (k', v') :: t, k, kv, h => by
    rw [adel] at h
    by_cases hk : k' = k
    · rw [if_pos hk] at h
      exact List.mem_cons_of_mem _ h
    · rw [if_neg hk] at h
      rcases List.mem_cons.1 h with h1 | h1
      · exact h1 ▸ List.mem_cons_self _ _
      · exact List.mem_cons_of_mem _ (mem_adel t k kv h1)

theorem foldlM_inv {α β : Type} (f : β → α → Option β) (P : β → Prop) :
    ∀ (l : List α) (b0 bf : β), l.foldlM f b0 = some bf → P b0 →
      (∀ b a b', a ∈ l → P b → f b a = some b' → P b') → P bf
  | [], b0, bf, h, h0, _ => by
    simp only [List.foldlM_nil, Option.pure_def, Option.some.injEq] at h
    exact h ▸ h0
  | a :: t, b0, bf, h, h0, hstep => by
    rw [List.foldlM_cons] at h
    cases hfa : f b0 a with
    | none => rw [hfa] at h; simp at h
    | some b1 =>
      rw [hfa] at h
      simp only [Option.bind_eq_bind, Option.some_bind] at h
      exact foldlM_inv f P t b1 bf h
        (hstep b0 a b1 (List.mem_cons_self a t) h0 hfa)
        (fun b x b' hx => hstep b x b' (List.mem_cons_of_mem a hx))

theorem oddHalves_mem :
    ∀ (l : List (Option Nat)) (ys : List Nat), oddHalves l = some ys →
      ∀ y ∈ ys, ∃ v, some v ∈ l ∧ y = v / 2
  | [], ys, h, y, hy => by
    simp only [oddHalves, Option.some.injEq] at h
    subst h
    simp at hy
  | o :: t, ys, h, y, hy => by
    rw [oddHalves] at h
    cases o with
    | none => simp at h
    | some v =>
      simp only [Option.bind_eq_bind, Option.some_bind] at h
      cases ht : oddHalves t with
      | none => rw [ht] at h; simp at h
      | some rest =>
        rw [ht] at h
        simp only [Option.some_bind] at h
        have hmem : ∀ z ∈ rest, ∃ w, some w ∈ some v :: t ∧ z = w / 2 := by
          intro z hz
          obtain ⟨w, hw, hz2⟩ := oddHalves_mem t rest ht z hz
          exact ⟨w, List.mem_cons_of_mem _ hw, hz2⟩
        by_cases hv : v % 2 = 1
        · rw [if_pos hv] at h
          simp only [pure, Option.some.injEq] at h
          subst h
          rcases List.mem_cons.1 hy with h1 | h1
          · exact ⟨v, List.mem_cons_self _ _, h1⟩
          · exact hmem y h1
        · rw [if_neg hv] at h
          simp only [pure, Option.some.injEq] at h
          subst h
          exact hmem y hy

theorem mem_foldl_aset {κ α : Type} [DecidableEq κ] :
    ∀ (l acc : List (κ × α)) (kv : κ × α),
      kv ∈ l.foldl (fun a e => aset a e.1 e.2) acc → kv ∈ l ∨ kv ∈ acc
  | [], acc, kv, h => Or.inr h
  | e :: t, acc, kv, h => by
    rw [List.foldl_cons] at h
    rcases mem_foldl_aset t (aset acc e.1 e.2) kv h with h1 | h1
    · exact Or.inl (List.mem_cons_of_mem _ h1)
    · rcases mem_aset acc e.1 e.2 kv h1 with h2 | h2
      · left
        rw [h2]
        exact List.mem_cons_self _ _
      · exact Or.inr h2

theorem length_le_of_nodup_lt (l : List Nat) (n : Nat) (hnd : l.Nodup)
    (hb : ∀ x ∈ l, x < n) : l.length ≤ n := by
  have h1 : l.toFinset ⊆ Finset.range n := fun x hx =>
    Finset.mem_range.2 (hb x (List.mem_toFinset.1 hx))
  have h2 := Finset.card_le_card h1
  rwa [List.toFinset_card_of_nodup hnd, Finset.card_range] at h2

/-! ### Propagation of id bounds through the decomposition -/

theorem bind_some_inv {α β : Type} {x : Option α} {f : α → Option β} {b : β}
    (h : x >>= f = some b) : ∃ a, x = some a ∧ f a = some b := by
  cases x with
  | none => simp at h
  | some a => exact ⟨a, rfl, by simpa using h⟩

theorem childQ (n : Nat) (x : Entry) (hx : EntryB (2 * n) x) :
    EntryQ n (⟨x.src / 2, x.dst / 2, some x.src, some x.dst⟩ : Entry) := by
  obtain ⟨h1, h2⟩ := hx
  refine ⟨Nat.div_lt_of_lt_mul h1, Nat.div_lt_of_lt_mul h2, ?_, ?_⟩
  · intro v hv
    simp only [Option.some.injEq] at hv
    exact hv ▸ h1
  · intro v hv
    simp only [Option.some.injEq] at hv
    exact hv ▸ h2

theorem insert_MatP (P : Entry → Prop) (m : BSPMat) (x : Entry)
    (hm : MatP P m) (hx : P ⟨x.src / 2, x.dst / 2, some x.src, some x.dst⟩) :
    MatP P (m.insert x) := by
  intro kv hkv
  simp only [BSPMat.insert] at hkv
  rcases mem_aset m.d (x.dst / 2) _ kv hkv with h1 | h1
  · rw [h1]
    exact hx
  · exact hm kv h1

theorem delete_PartP (P : Entry → Prop) (st st' : PartState) (x : Entry)
    (h : st.delete x = some st') (hst : PartP P st) : PartP P st' := by
  unfold PartState.delete at h
  obtain ⟨cs, h1, h⟩ := bind_some_inv h
  obtain ⟨u1, h2, h⟩ := bind_some_inv h
  obtain ⟨cd, h3, h⟩ := bind_some_inv h
  obtain ⟨u2, h4, h⟩ := bind_some_inv h
  simp only [Option.pure_def, Option.some.injEq] at h
  subst h
  have hcs : ∀ kv ∈ cs, P kv.2 := hst.1 (x.src / 2, cs) (aget_mem _ _ _ h1)
  have hcd : ∀ kv ∈ cd, P kv.2 := hst.2 (x.dst / 2, cd) (aget_mem _ _ _ h3)
  constructor
  · intro c hc kv hkv
    by_cases he : (adel cs x.src).isEmpty
    · rw [if_pos he] at hc
      exact hst.1 c (mem_adel _ _ _ hc) kv hkv
    · rw [if_neg he] at hc
      rcases mem_aset _ _ _ c hc with h5 | h5
      · subst h5
        exact hcs kv (mem_adel _ _ _ hkv)
      · exact hst.1 c h5 kv hkv
  · intro c hc kv hkv
    by_cases he : (adel cd x.dst).isEmpty
    · rw [if_pos he] at hc
      exact hst.2 c (mem_adel _ _ _ hc) kv hkv
    · rw [if_neg he] at hc
      rcases mem_aset _ _ _ c hc with h5 | h5
      · subst h5
        exact hcd kv (mem_adel _ _ _ hkv)
      · exact hst.2 c h5 kv hkv

theorem partition_PartP (P : Entry → Prop) (m : BSPMat) (st : PartState)
    (h : m.partition = some st) (hm : MatP P m) : PartP P st := by
  unfold BSPMat.partition at h
  obtain ⟨acc, h1, h2⟩ := bind_some_inv h
  simp only [Option.pure_def, Option.some.injEq] at h2
  subst h2
  refine foldlM_inv _ (fun a => PartP P a.1) m.d _ acc h1 ?_ ?_
  · constructor <;>
    · intro c hc kv hkv
      rcases List.mem_map.1 hc with ⟨i, -, hi⟩
      rw [← hi] at hkv
      simp at hkv
  · intro b a b' ha hb hf
    obtain ⟨cs, hf1, hf⟩ := bind_some_inv hf
    obtain ⟨cd, hf2, hf⟩ := bind_some_inv hf
    have hPa : P a.2 := hm a ha
    have hcs : ∀ kv ∈ cs, P kv.2 := hb.1 _ (aget_mem _ _ _ hf1)
    have hcd : ∀ kv ∈ cd, P kv.2 := hb.2 _ (aget_mem _ _ _ hf2)
    have hps : CellsP P (aset b.1.ps (a.2.src / 2) (aset cs a.2.src a.2)) := by
      intro c hc kv hkv
      rcases mem_aset _ _ _ c hc with h5 | h5
      · subst h5
        rcases mem_aset _ _ _ kv hkv with h6 | h6
        · rw [h6]
          exact hPa
        · exact hcs kv h6
      · exact hb.1 c h5 kv hkv
    have hpd : CellsP P (aset b.1.pd (a.2.dst / 2) (aset cd a.2.dst a.2)) := by
      intro c hc kv hkv
      rcases mem_aset _ _ _ c hc with h5 | h5
      · subst h5
        rcases mem_aset _ _ _ kv hkv with h6 | h6
        · rw [h6]
          exact hPa
        · exact hcd kv h6
      · exact hb.2 c h5 kv hkv
    by_cases hseen : (a.2.src / 2, a.2.dst / 2) ∈ b.2
    · rw [if_pos hseen] at hf
      simp only [Option.pure_def, Option.some.injEq] at hf
      rw [← hf]
      exact ⟨hps, hpd⟩
    · rw [if_neg hseen] at hf
      simp only [Option.pure_def, Option.some.injEq] at hf
      rw [← hf]
      exact ⟨hps, hpd⟩

theorem chaseStep_inv (n : Nat) (c c' : ChaseSt) (h : chaseStep c = some c')
    (h1 : PartP (EntryB (2 * n)) c.part) (h2 : MatP (EntryQ n) c.Pa)
    (h3 : MatP (EntryQ n) c.Pb) :
    PartP (EntryB (2 * n)) c'.part ∧ MatP (EntryQ n) c'.Pa ∧ MatP (EntryQ n) c'.Pb := by
  unfold chaseStep at h
  dsimp only at h
  by_cases hck : (aget (if c.refidx = 0 then c.part.pd else c.part.ps) c.pos).isSome = true
  all_goals first
    | rw [if_pos hck] at h
    | rw [if_neg hck] at h
  all_goals (
    obtain ⟨pos, hp, h⟩ := bind_some_inv h
    obtain ⟨cell, hc, h⟩ := bind_some_inv h
    obtain ⟨hd, hh, h⟩ := bind_some_inv h
    obtain ⟨part, hdel, h⟩ := bind_some_inv h
    simp only [Option.pure_def, Option.some.injEq] at h
    have hcell : ∀ kv ∈ cell, EntryB (2 * n) kv.2 := by
      by_cases hr : c.refidx = 0
      · rw [if_pos hr] at hc
        exact h1.2 _ (aget_mem _ _ _ hc)
      · rw [if_neg hr] at hc
        exact h1.1 _ (aget_mem _ _ _ hc)
    have hv : EntryB (2 * n) hd.2 := hcell hd (head?_mem hh)
    have hpt : PartP (EntryB (2 * n)) part := delete_PartP _ c.part part _ hdel h1
    rw [← h]
    by_cases hr : c.refidx = 0
    · simp only [hr, reduceIte]
      exact ⟨hpt, h2, insert_MatP _ c.Pb hd.2 h3 (childQ n hd.2 hv)⟩
    · rw [if_neg hr]
      exact ⟨hpt, insert_MatP _ c.Pa hd.2 h2 (childQ n hd.2 hv), h3⟩)

theorem permutedbl_inv (n : Nat) (part : PartState) (size : Nat) (Pa Pb : BSPMat)
    (out : PartState × BSPMat × BSPMat × Option Nat × Nat)
    (h : BSPMat.permutedbl part size Pa Pb = some out)
    (hp : PartP (EntryB (2 * n)) part)
    (ha : MatP (EntryQ n) Pa) (hb : MatP (EntryQ n) Pb) :
    PartP (EntryB (2 * n)) out.1 ∧ MatP (EntryQ n) out.2.1 ∧ MatP (EntryQ n) out.2.2.1 := by
  unfold BSPMat.permutedbl at h
  by_cases hd : part.dbl.isEmpty
  · rw [if_pos hd] at h
    simp only [Option.pure_def, Option.some.injEq] at h
    rw [← h]
    exact ⟨hp, ha, hb⟩
  · rw [if_neg hd] at h
    obtain ⟨r, hr, h⟩ := bind_some_inv h
    have hinv : PartP (EntryB (2 * n)) r.part ∧ MatP (EntryQ n) r.Pa ∧
        MatP (EntryQ n) r.Pb := by
      refine foldlM_inv _
        (fun s : DblSt => PartP (EntryB (2 * n)) s.part ∧ MatP (EntryQ n) s.Pa ∧
          MatP (EntryQ n) s.Pb) part.dbl _ r hr ⟨hp, ha, hb⟩ ?_
      intro b a b' _ hbP hf
      obtain ⟨cell, hc1, hf⟩ := bind_some_inv hf
      obtain ⟨hd1, hh1, hf⟩ := bind_some_inv hf
      obtain ⟨p1, hdel1, hf⟩ := bind_some_inv hf
      obtain ⟨cell2, hc2, hf⟩ := bind_some_inv hf
      obtain ⟨hd2, hh2, hf⟩ := bind_some_inv hf
      obtain ⟨p2, hdel2, hf⟩ := bind_some_inv hf
      simp only [Option.pure_def, Option.some.injEq] at hf
      rw [← hf]
      have hv1 : EntryB (2 * n) hd1.2 :=
        hbP.1.2 _ (aget_mem _ _ _ hc1) hd1 (head?_mem hh1)
      have hp1 : PartP (EntryB (2 * n)) p1 := delete_PartP _ b.part p1 _ hdel1 hbP.1
      have hv2 : EntryB (2 * n) hd2.2 :=
        hp1.2 _ (aget_mem _ _ _ hc2) hd2 (head?_mem hh2)
      have hp2 : PartP (EntryB (2 * n)) p2 := delete_PartP _ p1 p2 _ hdel2 hp1
      exact ⟨hp2, insert_MatP _ b.Pa hd1.2 hbP.2.1 (childQ n hd1.2 hv1),
        insert_MatP _ b.Pb hd2.2 hbP.2.2 (childQ n hd2.2 hv2)⟩
    by_cases he : r.part.pd.isEmpty
    · rw [if_pos he] at h
      simp only [Option.pure_def, Option.some.injEq] at h
      rw [← h]
      exact hinv
    · rw [if_neg he] at h
      obtain ⟨hd3, hh3, h⟩ := bind_some_inv h
      simp only [Option.pure_def, Option.some.injEq] at h
      rw [← h]
      exact hinv

theorem oddHalves_bound (n : Nat) (m : BSPMat) (hm : MatP (EntryQ n) m)
    (pick : Entry → Option Nat)
    (hpick : ∀ e, EntryQ n e → ∀ v, pick e = some v → v < 2 * n)
    (ys : List Nat) (h : oddHalves (m.d.map (fun kv => pick kv.2)) = some ys) :
    ∀ y ∈ ys, y < n := by
  intro y hy
  obtain ⟨v, hv, hy2⟩ := oddHalves_mem _ ys h y hy
  rcases List.mem_map.1 hv with ⟨kv, hkv, hkv2⟩
  have := hpick kv.2 (hm kv hkv) v hkv2
  exact hy2 ▸ Nat.div_lt_of_lt_mul this

theorem permstep_inv (m : BSPMat) (stage offset : Nat)
    (base : SwCfg) (Pa Pb : BSPMat)
    (h : m.permstep stage offset = some (base, Pa, Pb))
    (hm : MatP (EntryB (2 ^ (stage + 1))) m) :
    (∃ isw osw, base = [((stage, offset), (isw, osw))] ∧
      isw.Nodup ∧ osw.Nodup ∧
      (∀ v ∈ isw, v < 2 ^ stage) ∧ (∀ v ∈ osw, v < 2 ^ stage)) ∧
    MatP (EntryQ (2 ^ stage)) Pa ∧ MatP (EntryQ (2 ^ stage)) Pb := by
  have hm2 : MatP (EntryB (2 * 2 ^ stage)) m := by
    intro kv hkv
    have h0 := hm kv hkv
    have he : 2 ^ (stage + 1) = 2 * 2 ^ stage := Nat.pow_succ'
    exact he ▸ h0
  unfold BSPMat.permstep at h
  obtain ⟨part1, hpart, h⟩ := bind_some_inv h
  obtain ⟨quint, hdbl, h⟩ := bind_some_inv h
  obtain ⟨p1, pA, pB, sc, oc⟩ := quint
  have hP1 : PartP (EntryB (2 * 2 ^ stage)) part1 :=
    partition_PartP _ m part1 hpart hm2
  have hempty : MatP (EntryQ (2 ^ stage)) (⟨[], [], 0⟩ : BSPMat) := by
    intro kv hkv
    simp at hkv
  have hdblInv := permutedbl_inv (2 ^ stage) part1 m.size _ _ (p1, pA, pB, sc, oc)
    hdbl hP1 hempty hempty
  obtain ⟨hp1, hpA, hpB⟩ := hdblInv
  obtain ⟨pab, hchase, h⟩ := bind_some_inv h
  obtain ⟨Pa2, Pb2⟩ := pab
  have hPab : MatP (EntryQ (2 ^ stage)) Pa2 ∧ MatP (EntryQ (2 ^ stage)) Pb2 := by
    cases sc with
    | none =>
      simp only [Option.pure_def, Option.some.injEq, Prod.mk.injEq] at hchase
      exact ⟨hchase.1 ▸ hpA, hchase.2 ▸ hpB⟩
    | some sc' =>
      obtain ⟨cell, hc1, hchase⟩ := bind_some_inv hchase
      obtain ⟨hd1, hh1, hchase⟩ := bind_some_inv hchase
      obtain ⟨pd1, hdel1, hchase⟩ := bind_some_inv hchase
      obtain ⟨fin, hfold, hchase⟩ := bind_some_inv hchase
      simp only [Option.pure_def, Option.some.injEq, Prod.mk.injEq] at hchase
      have hv1 : EntryB (2 * 2 ^ stage) hd1.2 :=
        hp1.2 _ (aget_mem _ _ _ hc1) hd1 (head?_mem hh1)
      have hpd1 : PartP (EntryB (2 * 2 ^ stage)) pd1 :=
        delete_PartP _ p1 pd1 _ hdel1 hp1
      have hfin := foldlM_inv _
        (fun s : ChaseSt => PartP (EntryB (2 * 2 ^ stage)) s.part ∧
          MatP (EntryQ (2 ^ stage)) s.Pa ∧ MatP (EntryQ (2 ^ stage)) s.Pb)
        (List.range oc) _ fin hfold
        ⟨hpd1, insert_MatP _ pA hd1.2 hpA (childQ _ hd1.2 hv1), hpB⟩
        (fun b a b' _ hb hf => chaseStep_inv (2 ^ stage) b b' hf hb.1 hb.2.1 hb.2.2)
      exact ⟨hchase.1 ▸ hfin.2.1, hchase.2 ▸ hfin.2.2⟩
  obtain ⟨isw0, hisw, h⟩ := bind_some_inv h
  obtain ⟨osw0, hosw, h⟩ := bind_some_inv h
  simp only [Option.pure_def, Option.some.injEq, Prod.mk.injEq] at h
  obtain ⟨hbase, hPaeq, hPbeq⟩ := h
  have hPa3 : MatP (EntryQ (2 ^ stage)) { Pa2 with size := Pa2.d.length } :=
    fun kv hkv => hPab.1 kv hkv
  have hPb3 : MatP (EntryQ (2 ^ stage)) { Pb2 with size := Pb2.d.length } :=
    fun kv hkv => hPab.2 kv hkv
  have hiswB : ∀ y ∈ isw0, y < 2 ^ stage :=
    oddHalves_bound (2 ^ stage) _ hPa3 Entry.os
      (fun e he v hv => he.2.2.1 v hv) isw0 hisw
  have hoswB : ∀ y ∈ osw0, y < 2 ^ stage :=
    oddHalves_bound (2 ^ stage) _ hPa3 Entry.od
      (fun e he v hv => he.2.2.2 v hv) osw0 hosw
  refine ⟨⟨isw0.dedup, osw0.dedup, hbase.symm, List.nodup_dedup _, List.nodup_dedup _,
    ?_, ?_⟩, ?_, ?_⟩
  · intro v hv
    exact hiswB v (List.mem_dedup.1 hv)
  · intro v hv
    exact hoswB v (List.mem_dedup.1 hv)
  · exact fun kv hkv => hPa3 kv (hPaeq ▸ hkv)
  · exact fun kv hkv => hPb3 kv (hPbeq ▸ hkv)

theorem mem_foldl_aset_fn {κ α β : Type} [DecidableEq κ] (key : β → κ) (val : β → α) :
    ∀ (l : List β) (acc : List (κ × α)) (kv : κ × α),
      kv ∈ l.foldl (fun a e => aset a (key e) (val e)) acc →
      (∃ e ∈ l, kv = (key e, val e)) ∨ kv ∈ acc
  | [], acc, kv, h => Or.inr h
  | e :: t, acc, kv, h => by
    rw [List.foldl_cons] at h
    rcases mem_foldl_aset_fn key val t _ kv h with h1 | h1
    · obtain ⟨e2, he2, hkv⟩ := h1
      exact Or.inl ⟨e2, List.mem_cons_of_mem _ he2, hkv⟩
    · rcases mem_aset acc (key e) (val e) kv h1 with h2 | h2
      · exact Or.inl ⟨e, List.mem_cons_self _ _, h2⟩
      · exact Or.inr h2

theorem permutationAux_bound :
    ∀ (stage : Nat) (m : BSPMat) (offset : Nat) (tbl : SwCfg),
      permutationAux stage m offset = some tbl →
      MatP (EntryB (2 ^ (stage + 1))) m →
      ∀ e ∈ tbl, (∀ v ∈ e.2.1, v < 2 ^ e.1.1) ∧ (∀ v ∈ e.2.2, v < 2 ^ e.1.1) ∧
        e.2.1.Nodup ∧ e.2.2.Nodup
  | 0, m, offset, tbl, h, hm => by
    unfold permutationAux at h
    obtain ⟨trip, h1, h2⟩ := bind_some_inv h
    obtain ⟨base, Pa, Pb⟩ := trip
    simp only [Option.pure_def, Option.some.injEq] at h2
    obtain ⟨⟨isw, osw, hbase, hnd1, hnd2, hb1, hb2⟩, -, -⟩ :=
      permstep_inv m 0 offset base Pa Pb h1 hm
    subst h2
    subst hbase
    intro e he
    obtain rfl := List.mem_singleton.1 he
    exact ⟨hb1, hb2, hnd1, hnd2⟩
  | s + 1, m, offset, tbl, h, hm => by
    unfold permutationAux at h
    obtain ⟨trip, h1, h2⟩ := bind_some_inv h
    obtain ⟨base, Pa, Pb⟩ := trip
    obtain ⟨⟨isw, osw, hbase, hnd1, hnd2, hb1, hb2⟩, hPa, hPb⟩ :=
      permstep_inv m (s + 1) offset base Pa Pb h1 hm
    obtain ⟨ca, hca, h2⟩ := bind_some_inv h2
    obtain ⟨cb, hcb, h2⟩ := bind_some_inv h2
    simp only [Option.pure_def, Option.some.injEq] at h2
    have hmA : MatP (EntryB (2 ^ (s + 1))) Pa := fun kv hkv =>
      ⟨(hPa kv hkv).1, (hPa kv hkv).2.1⟩
    have hmB : MatP (EntryB (2 ^ (s + 1))) Pb := fun kv hkv =>
      ⟨(hPb kv hkv).1, (hPb kv hkv).2.1⟩
    have ihA := permutationAux_bound s Pa (offset * 2) ca hca hmA
    have ihB := permutationAux_bound s Pb (offset * 2 + 1) cb hcb hmB
    rw [← h2]
    intro e he
    rcases mem_foldl_aset cb _ e he with h3 | h3
    · exact ihB e h3
    · rcases mem_foldl_aset ca _ e h3 with h4 | h4
      · exact ihA e h4
      · rw [hbase] at h4
        obtain rfl := List.mem_singleton.1 h4
        exact ⟨hb1, hb2, hnd1, hnd2⟩

theorem log2floorAux_eq : ∀ (fuel n : Nat), n ≤ fuel → log2floorAux fuel n = Nat.log2 n
  | 0, n, h => by
    have hn : n = 0 := Nat.le_zero.1 h
    subst hn
    rw [log2floorAux, Nat.log2]
    simp
  | fuel + 1, n, h => by
    rw [log2floorAux]
    by_cases h2 : 2 ≤ n
    · rw [if_pos h2, log2floorAux_eq fuel (n / 2) (by omega)]
      conv_rhs => rw [Nat.log2]
      rw [if_pos h2]
    · rw [if_neg h2, Nat.log2, if_neg h2]

theorem log2floor_two_pow (k : Nat) : log2floor (2 ^ k) = k := by
  rw [log2floor, log2floorAux_eq _ _ le_rfl, Nat.log2_two_pow]

theorem ofList_entry_mem (l : List (Nat × Nat)) (kv : Nat × Entry)
    (h : kv ∈ (BSPMat.ofList l).d) :
    ∃ ab ∈ l, kv.2 = (⟨ab.1, ab.2, none, none⟩ : Entry) := by
  simp only [BSPMat.ofList] at h
  rcases mem_foldl_aset_fn (fun kv2 : Nat × Entry => kv2.2.dst)
      (fun kv2 => kv2.2) _ _ _ h with h1 | h1
  · obtain ⟨e2, he2, hkv⟩ := h1
    rcases mem_foldl_aset_fn (fun ab : Nat × Nat => ab.1)
        (fun ab => (⟨ab.1, ab.2, none, none⟩ : Entry)) _ _ _ he2 with h2 | h2
    · obtain ⟨ab, hab, he⟩ := h2
      refine ⟨ab, hab, ?_⟩
      rw [hkv, he]
    · simp at h2
  · simp at h1

/-! ### Generic list update and fold lemmas for the simulation -/

theorem getD_set_self {α : Type} (l : List α) (i : Nat) (a d : α) (h : i < l.length) :
    (l.set i a).getD i d = a := by
  simp [List.getD_eq_getElem?_getD, List.getElem?_set_self h]

theorem getD_set_ne {α : Type} (l : List α) (i j : Nat) (a d : α) (h : i ≠ j) :
    (l.set i a).getD j d = l.getD j d := by
  simp [List.getD_eq_getElem?_getD, List.getElem?_set_ne h]

theorem take_set_pair {α : Type} :
    ∀ (l : List α) (m : Nat) (x y : α), m + 2 ≤ l.length →
      ((l.set m x).set (m + 1) y).take (m + 2) = l.take m ++ [x, y]
  | [], m, x, y, h => by simp at h
  | a :: t, 0, x, y, h => by
    cases t with
    | nil => simp at h
    | cons b t2 => simp [List.set]
  | a :: t, m + 1, x, y, h => by
    simp only [List.length_cons] at h
    show (a :: (t.set m x).set (m + 1) y).take (m + 3) = (a :: t.take m) ++ [x, y]
    rw [List.take_succ_cons, take_set_pair t m x y (by omega)]
    rfl

theorem take_set_pair' {α : Type} :
    ∀ (l : List α) (m : Nat) (x y : α), m + 2 ≤ l.length →
      ((l.set (m + 1) x).set m y).take (m + 2) = l.take m ++ [y, x]
  | [], m, x, y, h => by simp at h
  | a :: t, 0, x, y, h => by
    cases t with
    | nil => simp at h
    | cons b t2 => simp [List.set]
  | a :: t, m + 1, x, y, h => by
    simp only [List.length_cons] at h
    show (a :: (t.set (m + 1) x).set m y).take (m + 3) = (a :: t.take m) ++ [y, x]
    rw [List.take_succ_cons, take_set_pair' t m x y (by omega)]
    rfl

theorem count_singleton_ite (t x : Nat) :
    List.count t [x] = if t = x then 1 else 0 := by
  by_cases h : t = x
  · subst h
    simp
  · simp [List.count_cons, h, Ne.symm h]

theorem take_count_pair (l : List Nat) (m t : Nat) (h : m + 2 ≤ l.length) :
    (l.take (m + 2)).count t = (l.take m).count t +
      ((if t = l.getD m 0 then 1 else 0) + (if t = l.getD (m + 1) 0 then 1 else 0)) := by
  have hm : m < l.length := by omega
  have hm1 : m + 1 < l.length := by omega
  have e1 : l.take (m + 2) = l.take (m + 1) ++ [l.getD (m + 1) 0] := by
    rw [List.take_succ, List.getElem?_eq_getElem hm1,
      List.getD_eq_getElem?_getD, List.getElem?_eq_getElem hm1]
    rfl
  have e2 : l.take (m + 1) = l.take m ++ [l.getD m 0] := by
    rw [List.take_succ, List.getElem?_eq_getElem hm,
      List.getD_eq_getElem?_getD, List.getElem?_eq_getElem hm]
    rfl
  rw [e1, e2, List.count_append, List.count_append,
    count_singleton_ite, count_singleton_ite]
  omega

theorem foldlM_range_inv {β : Type} (f : β → Nat → Option β) (P : Nat → β → Prop) :
    ∀ (m : Nat) (b0 bf : β), (List.range m).foldlM f b0 = some bf → P 0 b0 →
      (∀ i b b', i < m → P i b → f b i = some b' → P (i + 1) b') → P m bf
  | 0, b0, bf, h, h0, _ => by
    simp only [List.range_zero, List.foldlM_nil, Option.pure_def, Option.some.injEq] at h
    exact h ▸ h0
  | m + 1, b0, bf, h, h0, hstep => by
    rw [List.range_succ, List.foldlM_append] at h
    obtain ⟨b1, h1, h2⟩ := bind_some_inv h
    have hb1 : P m b1 := foldlM_range_inv f P m b0 b1 h1 h0
      (fun i b b' hi => hstep i b b' (by omega))
    simp only [List.foldlM_cons, List.foldlM_nil] at h2
    obtain ⟨b2, h3, h4⟩ := bind_some_inv h2
    simp only [Option.pure_def, Option.some.injEq] at h4
    exact h4 ▸ hstep m b1 b2 (by omega) hb1 h3

theorem foldlM_enumFrom_inv {α β : Type} (f : β → Nat × α → Option β) (P : Nat → β → Prop) :
    ∀ (l : List α) (n : Nat) (b0 bf : β),
      (l.enumFrom n).foldlM f b0 = some bf → P n b0 →
      (∀ i a b b', P i b → f b (i, a) = some b' → P (i + 1) b') →
      P (n + l.length) bf
  | [], n, b0, bf, h, h0, _ => by
    simp only [List.enumFrom_nil, List.foldlM_nil, Option.pure_def, Option.some.injEq] at h
    simpa using h ▸ h0
  | a :: t, n, b0, bf, h, h0, hstep => by
    rw [List.enumFrom_cons, List.foldlM_cons] at h
    obtain ⟨b1, h1, h2⟩ := bind_some_inv h
    have := foldlM_enumFrom_inv f P t (n + 1) b1 bf h2
      (hstep n a b0 b1 h0 h1) hstep
    simpa [Nat.add_assoc, Nat.add_comm 1] using this

theorem foldl_set_length {α : Type} (σ : Nat → Nat) (f : Nat → α) :
    ∀ (ps : List Nat) (init : List α),
      (ps.foldl (fun acc p => acc.set (σ p) (f p)) init).length = init.length
  | [], init => rfl
  | p :: t, init => by
    rw [List.foldl_cons, foldl_set_length σ f t]
    simp

theorem foldl_set_inj_getD {α : Type} (σ : Nat → Nat) (f : Nat → α) (d : α)
    (hinj : ∀ p q, σ p = σ q → p = q) :
    ∀ (m : Nat) (init : List α),
      (∀ p, p < m → σ p < init.length →
        (((List.range m).foldl (fun acc p2 => acc.set (σ p2) (f p2)) init).getD (σ p) d)
          = f p) ∧
      (∀ q, (∀ p, p < m → σ p ≠ q) →
        (((List.range m).foldl (fun acc p2 => acc.set (σ p2) (f p2)) init).getD q d)
          = init.getD q d)
  | 0, init => by simp
  | m + 1, init => by
    rw [List.range_succ, List.foldl_append, List.foldl_cons, List.foldl_nil]
    obtain ⟨ih1, ih2⟩ := foldl_set_inj_getD σ f d hinj m init
    have hlen : ((List.range m).foldl (fun acc p2 => acc.set (σ p2) (f p2)) init).length
        = init.length := foldl_set_length _ _ _ _
    constructor
    · intro p hp hplt
      by_cases hpm : p = m
      · subst hpm
        rw [getD_set_self _ _ _ _ (hlen ▸ hplt)]
      · have hne : σ m ≠ σ p := fun he => hpm (hinj _ _ he.symm)
        rw [getD_set_ne _ _ _ _ _ hne]
        exact ih1 p (by omega) hplt
    · intro q hq
      have hne : σ m ≠ q := hq m (by omega)
      rw [getD_set_ne _ _ _ _ _ hne]
      exact ih2 q (fun p hp => hq p (by omega))

theorem self_eq_map_getD (l : List Nat) :
    l = (List.range l.length).map (fun q => l.getD q 0) := by
  apply List.ext_getElem
  · simp
  · intro n h1 h2
    simp only [List.getElem_map, List.getElem_range]
    rw [List.getD_eq_getElem?_getD, List.getElem?_eq_getElem h1]
    rfl

theorem perm_of_reindex (ins : List Nat) (σ : Nat → Nat) (n : Nat)
    (hlen : ins.length = n) (hb : ∀ q, q < n → σ q < n)
    (hinj : ∀ p q, σ p = σ q → p = q) :
    List.Perm ((List.range n).map (fun q => ins.getD (σ q) 0)) ins := by
  have hsig : List.Perm ((List.range n).map σ) (List.range n) := by
    have hnd : ((List.range n).map σ).Nodup :=
      (List.nodup_range n).map_on (fun x _ y _ he => hinj x y he)
    have hsub : (List.range n).map σ ⊆ List.range n := by
      intro q hq
      rcases List.mem_map.1 hq with ⟨p, hp, hq2⟩
      exact List.mem_range.2 (hq2 ▸ hb p (List.mem_range.1 hp))
    exact (List.subperm_of_subset hnd hsub).perm_of_length_le (by simp)
  have h1 : (List.range n).map (fun q => ins.getD (σ q) 0) =
      ((List.range n).map σ).map (fun q => ins.getD q 0) := by
    rw [List.map_map]
    rfl
  rw [h1]
  have h2 := hsig.map (fun q => ins.getD q 0)
  have h3 : (List.range n).map (fun q => ins.getD q 0) = ins := by
    rw [← hlen]
    exact (self_eq_map_getD ins).symm
  rw [h3] at h2
  exact h2

/-! ### The inter-stage wiring is a bijection -/

theorem shuffleMap_eq (s p : Nat) (hs : 0 < s) (hse : s % 2 = 0) :
    shuffleMap s p = (if p % s < s / 2 then 2 * (p % s)
      else 2 * (p % s - s / 2) + 1) + p / s * s := by
  have hdef : shuffleMap s p =
      (p % s * 2) % s + (p % s * 2) / s + p / s * s := rfl
  have hr : p % s < s := Nat.mod_lt _ hs
  rw [hdef]
  by_cases hlt : p % s < s / 2
  · rw [if_pos hlt]
    have h1 : p % s * 2 < s := by omega
    rw [Nat.mod_eq_of_lt h1, Nat.div_eq_of_lt h1]
    omega
  · rw [if_neg hlt]
    have h1 : s ≤ p % s * 2 := by omega
    have h3 : p % s * 2 % s = p % s * 2 - s := by
      rw [Nat.mod_eq_sub_mod h1, Nat.mod_eq_of_lt (by omega)]
    have h4 : p % s * 2 / s = 1 := Nat.div_eq_of_lt_le (by omega) (by omega)
    rw [h3, h4]
    omega

theorem shuffleInv_block_lt (s q : Nat) (hs : 0 < s) (hse : s % 2 = 0) :
    q % s / 2 + q % s % 2 * (s / 2) < s := by
  have hr : q % s < s := Nat.mod_lt _ hs
  by_cases hp : q % s % 2 = 0
  · rw [hp, Nat.zero_mul]
    omega
  · have hp1 : q % s % 2 = 1 := by omega
    rw [hp1, Nat.one_mul]
    omega

theorem shuffleMap_block_lt (s p : Nat) (hs : 0 < s) (hse : s % 2 = 0) :
    (if p % s < s / 2 then 2 * (p % s) else 2 * (p % s - s / 2) + 1) < s := by
  have hr : p % s < s := Nat.mod_lt _ hs
  by_cases hlt : p % s < s / 2
  · rw [if_pos hlt]
    omega
  · rw [if_neg hlt]
    omega

theorem block_decomp (a b s : Nat) (hs : 0 < s) (ha : a < s) :
    (a + b * s) % s = a ∧ (a + b * s) / s = b := by
  constructor
  · rw [Nat.add_mul_mod_self_right, Nat.mod_eq_of_lt ha]
  · rw [Nat.add_mul_div_right _ _ hs, Nat.div_eq_of_lt ha]
    omega

theorem shuffleMap_shuffleInv (s q : Nat) (hs : 0 < s) (hse : s % 2 = 0) :
    shuffleMap s (shuffleInv s q) = q := by
  have hblk : q % s / 2 + q % s % 2 * (s / 2) < s := shuffleInv_block_lt s q hs hse
  have hdec := block_decomp (q % s / 2 + q % s % 2 * (s / 2)) (q / s) s hs hblk
  have hinv : shuffleInv s q = q % s / 2 + q % s % 2 * (s / 2) + q / s * s := rfl
  rw [shuffleMap_eq s _ hs hse, hinv, hdec.1, hdec.2]
  have hq : q / s * s + q % s = q := Nat.div_add_mod' q s
  have hr : q % s < s := Nat.mod_lt _ hs
  by_cases hpar : q % s % 2 = 0
  · rw [hpar, Nat.zero_mul, Nat.add_zero]
    have hcond : q % s / 2 < s / 2 := by omega
    rw [if_pos hcond]
    omega
  · have hpar1 : q % s % 2 = 1 := by omega
    rw [hpar1, Nat.one_mul]
    have hcond : ¬ (q % s / 2 + s / 2 < s / 2) := by omega
    rw [if_neg hcond]
    omega

theorem shuffleInv_shuffleMap (s p : Nat) (hs : 0 < s) (hse : s % 2 = 0) :
    shuffleInv s (shuffleMap s p) = p := by
  have hblk := shuffleMap_block_lt s p hs hse
  have hdec := block_decomp
    (if p % s < s / 2 then 2 * (p % s) else 2 * (p % s - s / 2) + 1) (p / s) s hs hblk
  have hinv : shuffleInv s (shuffleMap s p) =
      shuffleMap s p % s / 2 + shuffleMap s p % s % 2 * (s / 2) +
        shuffleMap s p / s * s := rfl
  rw [hinv, shuffleMap_eq s p hs hse, hdec.1, hdec.2]
  have hp : p / s * s + p % s = p := Nat.div_add_mod' p s
  have hr : p % s < s := Nat.mod_lt _ hs
  by_cases hlt : p % s < s / 2
  · rw [if_pos hlt]
    have h1 : 2 * (p % s) / 2 = p % s := by omega
    have h2 : 2 * (p % s) % 2 = 0 := by omega
    rw [h1, h2, Nat.zero_mul]
    omega
  · rw [if_neg hlt]
    have h1 : (2 * (p % s - s / 2) + 1) / 2 = p % s - s / 2 := by omega
    have h2 : (2 * (p % s - s / 2) + 1) % 2 = 1 := by omega
    rw [h1, h2, Nat.one_mul]
    omega

theorem shuffleMap_inj (s : Nat) (hs : 0 < s) (hse : s % 2 = 0) :
    ∀ p q, shuffleMap s p = shuffleMap s q → p = q := by
  intro p q h
  have h1 := shuffleInv_shuffleMap s p hs hse
  have h2 := shuffleInv_shuffleMap s q hs hse
  rw [← h1, ← h2, h]

theorem shuffleInv_inj (s : Nat) (hs : 0 < s) (hse : s % 2 = 0) :
    ∀ p q, shuffleInv s p = shuffleInv s q → p = q := by
  intro p q h
  have h1 := shuffleMap_shuffleInv s p hs hse
  have h2 := shuffleMap_shuffleInv s q hs hse
  rw [← h1, ← h2, h]

theorem shuffleMap_lt (s p n : Nat) (hs : 0 < s) (hse : s % 2 = 0) (hdvd : s ∣ n)
    (hp : p < n) : shuffleMap s p < n := by
  obtain ⟨c, rfl⟩ := hdvd
  rw [shuffleMap_eq s p hs hse]
  have hblk := shuffleMap_block_lt s p hs hse
  have hd : p / s < c := by
    rw [Nat.div_lt_iff_lt_mul hs]
    calc p < s * c := hp
    _ = c * s := Nat.mul_comm s c
  have h5 : p / s * s + s ≤ c * s := by
    have h6 : (p / s + 1) * s ≤ c * s := Nat.mul_le_mul_right s hd
    calc p / s * s + s = (p / s + 1) * s := by rw [Nat.add_mul, Nat.one_mul]
    _ ≤ c * s := h6
  have h7 : s * c = c * s := Nat.mul_comm s c
  revert hblk
  generalize (if p % s < s / 2 then 2 * (p % s) else 2 * (p % s - s / 2) + 1) = blk
  intro hblk
  omega

theorem shuffleInv_lt (s q n : Nat) (hs : 0 < s) (hse : s % 2 = 0) (hdvd : s ∣ n)
    (hq : q < n) : shuffleInv s q < n := by
  obtain ⟨c, rfl⟩ := hdvd
  have hr : q % s < s := Nat.mod_lt _ hs
  have hinv : shuffleInv s q = q % s / 2 + q % s % 2 * (s / 2) + q / s * s := rfl
  rw [hinv]
  have hd : q / s < c := by
    rw [Nat.div_lt_iff_lt_mul hs]
    calc q < s * c := hq
    _ = c * s := Nat.mul_comm s c
  have h5 : q / s * s + s ≤ c * s := by
    have h6 : (q / s + 1) * s ≤ c * s := Nat.mul_le_mul_right s hd
    calc q / s * s + s = (q / s + 1) * s := by rw [Nat.add_mul, Nat.one_mul]
    _ ≤ c * s := h6
  have h7 : s * c = c * s := Nat.mul_comm s c
  by_cases hp : q % s % 2 = 0
  · rw [hp, Nat.zero_mul]
    omega
  · have hp1 : q % s % 2 = 1 := by omega
    rw [hp1, Nat.one_mul]
    omega

/-! ### The link phase permutes the tokens -/

theorem getElem_eq_getD (l : List Nat) (n : Nat) (h : n < l.length) :
    l[n] = l.getD n 0 := by
  rw [List.getD_eq_getElem?_getD, List.getElem?_eq_getElem h]
  rfl

theorem linkPhase_in_eq (nports s : Nat) (ins : List Nat) :
    linkPhase nports s true ins =
      (List.range nports).map (fun q => ins.getD (shuffleMap s q) 0) := by
  rw [linkPhase]
  simp only [if_true]
  apply List.ext_getElem
  · rw [foldl_set_length (fun p => p) (fun p => ins.getD (shuffleMap s p) 0)]
    simp
  · intro n h1 h2
    have hlen : ((List.range nports).foldl
        (fun acc p => acc.set p (ins.getD (shuffleMap s p) 0))
        (List.replicate nports 0)).length = nports := by
      rw [foldl_set_length (fun p => p) (fun p => ins.getD (shuffleMap s p) 0)]
      simp
    have hn : n < nports := hlen ▸ h1
    rw [getElem_eq_getD _ _ h1]
    simp only [List.getElem_map, List.getElem_range]
    exact (foldl_set_inj_getD (fun p => p) (fun p => ins.getD (shuffleMap s p) 0) 0
      (fun p q hpq => hpq) nports (List.replicate nports 0)).1 n hn
      (by simpa using hn)

theorem linkPhase_out_eq (nports s : Nat) (ins : List Nat)
    (hs : 0 < s) (hse : s % 2 = 0) (hdvd : s ∣ nports) :
    linkPhase nports s false ins =
      (List.range nports).map (fun q => ins.getD (shuffleInv s q) 0) := by
  rw [linkPhase]
  simp only [Bool.false_eq_true, if_false]
  apply List.ext_getElem
  · rw [foldl_set_length (fun p => shuffleMap s p) (fun p => ins.getD p 0)]
    simp
  · intro n h1 h2
    have hlen : ((List.range nports).foldl
        (fun acc p => acc.set (shuffleMap s p) (ins.getD p 0))
        (List.replicate nports 0)).length = nports := by
      rw [foldl_set_length (fun p => shuffleMap s p) (fun p => ins.getD p 0)]
      simp
    have hn : n < nports := hlen ▸ h1
    rw [getElem_eq_getD _ _ h1]
    simp only [List.getElem_map, List.getElem_range]
    have hitem := (foldl_set_inj_getD (fun p => shuffleMap s p)
      (fun p => ins.getD p 0) 0 (shuffleMap_inj s hs hse) nports
      (List.replicate nports 0)).1 (shuffleInv s n)
      (shuffleInv_lt s n nports hs hse hdvd hn)
      (by simpa [shuffleMap_shuffleInv s n hs hse] using hn)
    rwa [shuffleMap_shuffleInv s n hs hse] at hitem

theorem linkPhase_perm (nports s : Nat) (side : Bool) (ins : List Nat)
    (hlen : ins.length = nports) (hs : 0 < s) (hse : s % 2 = 0) (hdvd : s ∣ nports) :
    List.Perm (linkPhase nports s side ins) ins := by
  cases side
  · rw [linkPhase_out_eq nports s ins hs hse hdvd]
    exact perm_of_reindex ins _ nports hlen
      (fun q hq => shuffleInv_lt s q nports hs hse hdvd hq)
      (shuffleInv_inj s hs hse)
  · rw [linkPhase_in_eq nports s ins]
    exact perm_of_reindex ins _ nports hlen
      (fun q hq => shuffleMap_lt s q nports hs hse hdvd hq)
      (shuffleMap_inj s hs hse)

theorem linkPhase_length (nports s : Nat) (side : Bool) (ins : List Nat) :
    (linkPhase nports s side ins).length = nports := by
  rw [linkPhase]
  cases side
  · simp only [Bool.false_eq_true, if_false]
    rw [foldl_set_length (fun p => shuffleMap s p) (fun p => ins.getD p 0)]
    simp
  · simp only [if_true]
    rw [foldl_set_length (fun p => p) (fun p => ins.getD (shuffleMap s p) 0)]
    simp

/-! ### One switch column appends exactly one bit per port -/

theorem rbits_append_len (rb : List (List Nat)) (tk x : Nat) (htk : tk < rb.length) :
    ∀ t, ((rb.set tk (rb.getD tk [] ++ [x])).getD t []).length =
      (rb.getD t []).length + (if t = tk then 1 else 0) := by
  intro t
  by_cases he : t = tk
  · subst he
    rw [getD_set_self _ _ _ _ htk, if_pos rfl]
    simp
  · rw [getD_set_ne _ _ _ _ _ (fun hh => he hh.symm), if_neg he]
    omega

theorem take_two_more (l : List Nat) (m : Nat) (h : m + 2 ≤ l.length) :
    l.take (m + 2) = l.take m ++ [l.getD m 0, l.getD (m + 1) 0] := by
  have hm : m < l.length := by omega
  have hm1 : m + 1 < l.length := by omega
  have e1 : l.take (m + 2) = l.take (m + 1) ++ [l.getD (m + 1) 0] := by
    rw [List.take_succ, List.getElem?_eq_getElem hm1,
      List.getD_eq_getElem?_getD, List.getElem?_eq_getElem hm1]
    rfl
  have e2 : l.take (m + 1) = l.take m ++ [l.getD m 0] := by
    rw [List.take_succ, List.getElem?_eq_getElem hm,
      List.getD_eq_getElem?_getD, List.getElem?_eq_getElem hm]
    rfl
  rw [e1, e2, List.append_assoc]
  rfl

theorem switchPhase_spec (nports : Nat) (cfg : SwCfg) (stg : Nat) (sideIn : Bool)
    (s s1 : SimState) (h : switchPhase nports cfg stg sideIn s = some s1)
    (hev : 2 * (nports / 2) = nports)
    (hrlen : s.rbits.length = nports) (hilen : s.inputs.length = nports)
    (hperm : List.Perm s.inputs (List.range nports)) :
    s1.rbits.length = nports ∧ s1.inputs.length = nports ∧
    List.Perm s1.inputs s.inputs ∧
    (∀ t, t < nports → (s1.rbits.getD t []).length = (s.rbits.getD t []).length + 1) := by
  have htok : ∀ j, j < nports → s.inputs.getD j 0 < nports := by
    intro j hj
    have hj2 : j < s.inputs.length := by omega
    have hmem : s.inputs.getD j 0 ∈ s.inputs := by
      rw [← getElem_eq_getD _ _ hj2]
      exact List.getElem_mem hj2
    exact List.mem_range.1 (hperm.mem_iff.1 hmem)
  unfold switchPhase at h
  obtain ⟨r, hr, h⟩ := bind_some_inv h
  simp only [Option.pure_def, Option.some.injEq] at h
  have hQ := foldlM_range_inv _
    (fun sw (b : List (List Nat) × List Nat) =>
      b.1.length = nports ∧ b.2.length = nports ∧
      (∀ t, t < nports → (b.1.getD t []).length =
        (s.rbits.getD t []).length + (s.inputs.take (2 * sw)).count t) ∧
      List.Perm (b.2.take (2 * sw)) (s.inputs.take (2 * sw)))
    (nports / 2) (s.rbits, List.replicate nports 0) r hr
    ⟨hrlen, by simp, by intro t ht; simp, by simp⟩
    (by
      intro i b b' hi hb hf
      obtain ⟨c, hc, hf⟩ := bind_some_inv hf
      have h2i : 2 * i + 1 < nports := by omega
      have ht0 : s.inputs.getD (2 * i) 0 < nports := htok _ (by omega)
      have ht1 : s.inputs.getD (2 * i + 1) 0 < nports := htok _ (by omega)
      have htcnt : ∀ t, t < nports →
          (s.inputs.take (2 * (i + 1))).count t = (s.inputs.take (2 * i)).count t +
            ((if t = s.inputs.getD (2 * i) 0 then 1 else 0) +
              (if t = s.inputs.getD (2 * i + 1) 0 then 1 else 0)) := by
        intro t ht
        have := take_count_pair s.inputs (2 * i) t (by omega)
        have he2 : 2 * (i + 1) = 2 * i + 2 := by omega
        rw [he2]
        exact this
      have htk2 : s.inputs.take (2 * (i + 1)) = s.inputs.take (2 * i) ++
          [s.inputs.getD (2 * i) 0, s.inputs.getD (2 * i + 1) 0] := by
        have := take_two_more s.inputs (2 * i) (by omega)
        have he2 : 2 * (i + 1) = 2 * i + 2 := by omega
        rw [he2]
        exact this
      have hrblen : ∀ (rb : List (List Nat)) (bx by2 : Nat), rb.length = nports →
          ∀ t, t < nports →
          (((rb.set (s.inputs.getD (2 * i) 0)
              (rb.getD (s.inputs.getD (2 * i) 0) [] ++ [bx])).set
                (s.inputs.getD (2 * i + 1) 0)
              ((rb.set (s.inputs.getD (2 * i) 0)
                (rb.getD (s.inputs.getD (2 * i) 0) [] ++ [bx])).getD
                  (s.inputs.getD (2 * i + 1) 0) [] ++ [by2])).getD t []).length =
            (rb.getD t []).length +
              ((if t = s.inputs.getD (2 * i) 0 then 1 else 0) +
                (if t = s.inputs.getD (2 * i + 1) 0 then 1 else 0)) := by
        intro rb bx by2 hrb t ht
        have l1 := rbits_append_len rb (s.inputs.getD (2 * i) 0) bx (by omega)
        have l2 := rbits_append_len
          (rb.set (s.inputs.getD (2 * i) 0)
            (rb.getD (s.inputs.getD (2 * i) 0) [] ++ [bx]))
          (s.inputs.getD (2 * i + 1) 0) by2 (by rw [List.length_set, hrb]; exact ht1)
        rw [l2 t, l1 t]
        omega
      by_cases hcross : (i % 2 ^ stg) ∈ (if sideIn then c.1 else c.2)
      · rw [if_pos hcross] at hf
        simp only [Option.pure_def, Option.some.injEq] at hf
        rw [← hf]
        refine ⟨by simp [List.length_set]; omega, by simp [List.length_set]; omega, ?_, ?_⟩
        · intro t ht
          rw [hrblen b.1 1 0 hb.1 t ht, hb.2.2.1 t ht, htcnt t ht]
          omega
        · have hset : ((b.2.set (2 * i + 1) (s.inputs.getD (2 * i) 0)).set
              (2 * i + 1 - 1) (s.inputs.getD (2 * i + 1) 0)).take (2 * (i + 1)) =
              b.2.take (2 * i) ++
                [s.inputs.getD (2 * i + 1) 0, s.inputs.getD (2 * i) 0] := by
            have := take_set_pair' b.2 (2 * i) (s.inputs.getD (2 * i) 0)
              (s.inputs.getD (2 * i + 1) 0) (by omega)
            have he2 : 2 * (i + 1) = 2 * i + 2 := by omega
            rw [he2, Nat.add_sub_cancel]
            exact this
          rw [hset, htk2]
          exact (hb.2.2.2.append (List.Perm.swap _ _ _)).trans (List.Perm.refl _)
      · rw [if_neg hcross] at hf
        simp only [Option.pure_def, Option.some.injEq] at hf
        rw [← hf]
        refine ⟨by simp [List.length_set]; omega, by simp [List.length_set]; omega, ?_, ?_⟩
        · intro t ht
          rw [hrblen b.1 0 1 hb.1 t ht, hb.2.2.1 t ht, htcnt t ht]
          omega
        · have hset : ((b.2.set (2 * i) (s.inputs.getD (2 * i) 0)).set
              (2 * i + 1) (s.inputs.getD (2 * i + 1) 0)).take (2 * (i + 1)) =
              b.2.take (2 * i) ++
                [s.inputs.getD (2 * i) 0, s.inputs.getD (2 * i + 1) 0] := by
            have := take_set_pair b.2 (2 * i) (s.inputs.getD (2 * i) 0)
              (s.inputs.getD (2 * i + 1) 0) (by omega)
            have he2 : 2 * (i + 1) = 2 * i + 2 := by omega
            rw [he2]
            exact this
          rw [hset, htk2]
          exact hb.2.2.2.append (List.Perm.refl _))
  obtain ⟨hq1, hq2, hq3, hq4⟩ := hQ
  have htake : s.inputs.take (2 * (nports / 2)) = s.inputs := by
    rw [hev, ← hilen, List.take_length]
  have hrtake : r.2.take (2 * (nports / 2)) = r.2 := by
    rw [hev, ← hq2, List.take_length]
  refine ⟨?_, ?_, ?_, ?_⟩
  · rw [← h]
    exact hq1
  · rw [← h]
    exact hq2
  · rw [← h]
    have := hq4
    rw [htake, hrtake] at this
    exact this
  · intro t ht
    rw [← h]
    have hcnt : s.inputs.count t = 1 := by
      have he := hperm.count_eq t
      have hnd := List.nodup_range nports
      have hle := List.nodup_iff_count_le_one.1 hnd t
      have hpos : 0 < (List.range nports).count t :=
        List.count_pos_iff.2 (List.mem_range.2 ht)
      omega
    have := hq3 t ht
    rw [htake, hcnt] at this
    exact this

/-! ### The stage loop: every port ends with one bit per stage -/

theorem two_pow_mod_two (k : Nat) (hk : 1 ≤ k) : 2 ^ k % 2 = 0 := by
  obtain ⟨j, rfl⟩ : ∃ j, k = j + 1 := ⟨k - 1, by omega⟩
  simp [pow_succ, Nat.mul_mod_left]

theorem stepsz_props (k l : Nat) (hk : 1 ≤ k) :
    0 < (if 2 ^ (l + 2) > 2 ^ k then 2 ^ k else 2 ^ (l + 2)) ∧
    (if 2 ^ (l + 2) > 2 ^ k then 2 ^ k else 2 ^ (l + 2)) % 2 = 0 ∧
    (if 2 ^ (l + 2) > 2 ^ k then 2 ^ k else 2 ^ (l + 2)) ∣ 2 ^ k := by
  by_cases hgt : 2 ^ (l + 2) > 2 ^ k
  · simp only [if_pos hgt]
    exact ⟨pow_pos (by norm_num) k, two_pow_mod_two k hk, dvd_refl _⟩
  · simp only [if_neg hgt]
    have hle : l + 2 ≤ k := by
      by_contra hc
      exact hgt (Nat.pow_lt_pow_right (by norm_num) (by omega))
    exact ⟨pow_pos (by norm_num) (l + 2), two_pow_mod_two (l + 2) (by omega),
      pow_dvd_pow 2 hle⟩

theorem routebitsFull_spec (k : Nat) (cfg : SwCfg) (out : SimState)
    (hk : 1 ≤ k) (h : routebitsFull (2 ^ k) cfg = some out) :
    out.rbits.length = 2 ^ k ∧
    List.Perm out.inputs (List.range (2 ^ k)) ∧
    (∀ t, t < 2 ^ k → (out.rbits.getD t []).length = (stagesList (2 ^ k)).length) := by
  have hev : 2 * (2 ^ k / 2) = 2 ^ k := by
    have h2 := two_pow_mod_two k hk
    omega
  rw [routebitsFull] at h
  have henum : (stagesList (2 ^ k)).enum = (stagesList (2 ^ k)).enumFrom 0 := rfl
  rw [henum] at h
  have hQ := foldlM_enumFrom_inv (rbStep (2 ^ k) cfg)
    (fun i (st : SimState) => st.rbits.length = 2 ^ k ∧ st.inputs.length = 2 ^ k ∧
      List.Perm st.inputs (List.range (2 ^ k)) ∧
      ∀ t, t < 2 ^ k → (st.rbits.getD t []).length = i)
    (stagesList (2 ^ k)) 0 _ out h
    (by
      refine ⟨by simp, by simp, List.Perm.refl _, ?_⟩
      intro t ht
      simp [List.getD_eq_getElem?_getD, List.getElem?_replicate, ht])
    (by
      intro i a b b' hP hf
      unfold rbStep at hf
      dsimp only at hf
      obtain ⟨st1, hsw, hf⟩ := bind_some_inv hf
      obtain ⟨hr1, hi1, hp1, hb1⟩ := switchPhase_spec (2 ^ k) cfg a
        ((sidesList (2 ^ k)).getD i true) b st1 hsw hev hP.1 hP.2.1 hP.2.2.1
      by_cases hlt : i + 1 < (stagesList (2 ^ k)).length
      · rw [if_pos hlt] at hf
        simp only [Option.pure_def, Option.some.injEq] at hf
        obtain ⟨hss1, hss2, hss3⟩ :=
          stepsz_props k ((linkstagesList (2 ^ k)).getD i 0) hk
        rw [← hf]
        refine ⟨hr1, ?_, ?_, ?_⟩
        · exact linkPhase_length _ _ _ _
        · exact ((linkPhase_perm _ _ _ _ hi1 hss1 hss2 hss3).trans hp1).trans hP.2.2.1
        · intro t ht
          rw [hb1 t ht, hP.2.2.2 t ht]
      · rw [if_neg hlt] at hf
        simp only [Option.pure_def, Option.some.injEq] at hf
        rw [← hf]
        refine ⟨hr1, hi1, hp1.trans hP.2.2.1, ?_⟩
        intro t ht
        rw [hb1 t ht, hP.2.2.2 t ht])
  rw [Nat.zero_add] at hQ
  exact ⟨hQ.1, hQ.2.2.1, hQ.2.2.2⟩

theorem stagesList_length_pow (k : Nat) (hk : 1 ≤ k) :
    (stagesList (2 ^ k)).length = 2 * k - 1 := by
  rw [stagesList]
  simp only [List.length_append, List.length_map, List.length_range]
  rw [nstagesI, log2floor_two_pow]
  omega

/-! ### Association-list laws -/

theorem aget_aset {κ α : Type} [DecidableEq κ] :
    ∀ (l : List (κ × α)) (k : κ) (v : α) (k' : κ),
      aget (aset l k v) k' = if k = k' then some v else aget l k'
  | [], k, v, k' => by simp [aset, aget]
  | (a, b) :: t, k, v, k' => by
    by_cases hak : a = k
    · subst hak
      by_cases h1 : a = k' <;> simp [aset, aget, h1]
    · by_cases h1 : a = k'
      · have hkk : ¬ k = k' := fun he => hak (h1.trans he.symm)
        simp only [aset, aget, hak, h1, hkk]
        rw [if_neg (fun he : k' = k => hkk he.symm), aget, if_pos rfl]
        simp
      · simp [aset, aget, hak, h1, aget_aset t k v k']

theorem aget_isSome_iff {κ α : Type} [DecidableEq κ] :
    ∀ (l : List (κ × α)) (k : κ),
      (aget l k).isSome = true ↔ k ∈ l.map (fun kv => kv.1)
  | [], k => by simp [aget]
  | (a, b) :: t, k => by
    rw [aget]
    by_cases h : a = k
    · subst h
      simp
    · rw [if_neg h]
      simp only [List.map_cons, List.mem_cons]
      rw [aget_isSome_iff t k]
      constructor
      · exact Or.inr
      · rintro (h1 | h1)
        · exact absurd h1.symm h
        · exact h1

theorem aget_eq_none_iff {κ α : Type} [DecidableEq κ] (l : List (κ × α)) (k : κ) :
    aget l k = none ↔ k ∉ l.map (fun kv => kv.1) := by
  rw [← aget_isSome_iff]
  cases aget l k <;> simp

theorem aget_cons_self {κ α : Type} [DecidableEq κ] (k : κ) (v : α)
    (t : List (κ × α)) : aget ((k, v) :: t) k = some v := by
  rw [aget, if_pos rfl]

theorem aget_adel_ne {κ α : Type} [DecidableEq κ] :
    ∀ (l : List (κ × α)) (k k' : κ), k' ≠ k → aget (adel l k) k' = aget l k'
  | [], _, _, _ => rfl
  | (a, b) :: t, k, k', h => by
    rw [adel, aget]
    by_cases hak : a = k
    · rw [if_pos hak, if_neg (fun he : a = k' => h (he ▸ hak))]
    · rw [if_neg hak, aget, aget_adel_ne t k k' h]

theorem aget_adel_self {κ α : Type} [DecidableEq κ] :
    ∀ (l : List (κ × α)) (k : κ), (l.map (fun kv => kv.1)).Nodup →
      aget (adel l k) k = none
  | [], _, _ => rfl
  | (a, b) :: t, k, hnd => by
    rw [adel]
    simp only [List.map_cons, List.nodup_cons] at hnd
    by_cases hak : a = k
    · rw [if_pos hak, aget_eq_none_iff]
      exact fun hm => hnd.1 (by rw [hak]; exact hm)
    · rw [if_neg hak, aget, if_neg hak]
      exact aget_adel_self t k hnd.2

theorem adel_sublist {κ α : Type} [DecidableEq κ] :
    ∀ (l : List (κ × α)) (k : κ), (adel l k).Sublist l
  | [], _ => List.Sublist.refl []
  | (a, b) :: t, k => by
    rw [adel]
    by_cases hak : a = k
    · rw [if_pos hak]
      exact List.sublist_cons_self _ _
    · rw [if_neg hak]
      exact (adel_sublist t k).cons₂ _

theorem length_adel_of_isSome {κ α : Type} [DecidableEq κ] :
    ∀ (l : List (κ × α)) (k : κ), (aget l k).isSome = true →
      (adel l k).length + 1 = l.length
  | [], k, h => by simp [aget] at h
  | (a, b) :: t, k, h => by
    rw [adel]
    by_cases hak : a = k
    · rw [if_pos hak]
      rfl
    · rw [aget, if_neg hak] at h
      rw [if_neg hak, List.length_cons, List.length_cons,
        length_adel_of_isSome t k h]

theorem aset_of_aget_none {κ α : Type} [DecidableEq κ] :
    ∀ (l : List (κ × α)) (k : κ) (v : α), aget l k = none →
      aset l k v = l ++ [(k, v)]
  | [], _, _, _ => rfl
  | (a, b) :: t, k, v, h => by
    rw [aget] at h
    by_cases hak : a = k
    · rw [if_pos hak] at h
      exact absurd h (by simp)
    · rw [if_neg hak] at h
      rw [aset, if_neg hak, aset_of_aget_none t k v h, List.cons_append]

theorem keys_aset_of_isSome {κ α : Type} [DecidableEq κ] :
    ∀ (l : List (κ × α)) (k : κ) (v : α), (aget l k).isSome = true →
      (aset l k v).map (fun kv => kv.1) = l.map (fun kv => kv.1)
  | [], k, v, h => by simp [aget] at h
  | (a, b) :: t, k, v, h => by
    rw [aset]
    by_cases hak : a = k
    · rw [if_pos hak, List.map_cons, List.map_cons, hak]
    · rw [aget, if_neg hak] at h
      rw [if_neg hak, List.map_cons, List.map_cons, keys_aset_of_isSome t k v h]

theorem mem_aset_of_ne {κ α : Type} [DecidableEq κ] :
    ∀ (l : List (κ × α)) (k : κ) (v : α) (kv : κ × α), kv ∈ l → kv.1 ≠ k →
      kv ∈ aset l k v
  | [], _, _, _, h, _ => absurd h (by simp)
  | (a, b) :: t, k, v, kv, h, hne => by
    rw [aset]
    by_cases hak : a = k
    · rw [if_pos hak]
      rcases List.mem_cons.1 h with h1 | h1
      · exact absurd (show kv.1 = k by rw [h1]; exact hak) hne
      · exact List.mem_cons_of_mem _ h1
    · rw [if_neg hak]
      rcases List.mem_cons.1 h with h1 | h1
      · exact h1 ▸ List.mem_cons_self _ _
      · exact List.mem_cons_of_mem _ (mem_aset_of_ne t k v kv h1 hne)

theorem mem_adel_of_ne {κ α : Type} [DecidableEq κ] :
    ∀ (l : List (κ × α)) (k : κ) (kv : κ × α), kv ∈ l → kv.1 ≠ k →
      kv ∈ adel l k
  | [], _, _, h, _ => absurd h (by simp)
  | (a, b) :: t, k, kv, h, hne => by
    rw [adel]
    by_cases hak : a = k
    · rw [if_pos hak]
      rcases List.mem_cons.1 h with h1 | h1
      · exact absurd (show kv.1 = k by rw [h1]; exact hak) hne
      · exact h1
    · rw [if_neg hak]
      rcases List.mem_cons.1 h with h1 | h1
      · exact h1 ▸ List.mem_cons_self _ _
      · exact List.mem_cons_of_mem _ (mem_adel_of_ne t k kv h1 hne)

theorem aget_of_mem_nodup {κ α : Type} [DecidableEq κ] :
    ∀ (l : List (κ × α)) (kv : κ × α), kv ∈ l →
      (l.map (fun x => x.1)).Nodup → aget l kv.1 = some kv.2
  | [], kv, h, _ => absurd h (by simp)
  | (a, b) :: t, kv, h, hnd => by
    simp only [List.map_cons, List.nodup_cons] at hnd
    rw [aget]
    rcases List.mem_cons.1 h with h1 | h1
    · subst h1
      simp
    · have hne : ¬ a = kv.1 :=
        fun he => hnd.1 (by rw [he]; exact List.mem_map_of_mem _ h1)
      rw [if_neg hne]
      exact aget_of_mem_nodup t kv h1 hnd.2

theorem sum_map_sub (f g : Nat → Nat) (w : Nat) :
    ∀ (l : List Nat), l.Nodup → w ∈ l → 1 ≤ f w →
      (∀ c, g c = f c - (if c = w then 1 else 0)) →
      (l.map g).sum + 1 = (l.map f).sum
  | [], _, hm, _, _ => absurd hm (by simp)
  | a :: t, hnd, hm, hf, hg => by
    simp only [List.nodup_cons] at hnd
    simp only [List.map_cons, List.sum_cons]
    rcases List.mem_cons.1 hm with h1 | h1
    · subst h1
      have ht : t.map g = t.map f := List.map_congr_left (fun c hc => by
        rw [hg c, if_neg (fun he => hnd.1 (show w ∈ t by rw [← he]; exact hc))]
        omega)
      rw [ht, hg w, if_pos rfl]
      omega
    · have hga : g a = f a := by
        rw [hg a, if_neg (fun he => hnd.1 (show a ∈ t by rw [he]; exact h1))]
        omega
      have := sum_map_sub f g w t hnd.2 h1 hf hg
      omega

theorem sumR_dec (P P' : Cells) (h w : Nat) (hw : w < h)
    (hr : 1 ≤ rCount P w)
    (hc : ∀ c, rCount P' c = rCount P c - (if c = w then 1 else 0)) :
    sumR P' h + 1 = sumR P h :=
  sum_map_sub (rCount P) (rCount P') w (List.range h) (List.nodup_range h)
    (List.mem_range.2 hw) hr hc

theorem sumR_eq_zero (P : Cells) (h : Nat) (hs : sumR P h = 0) :
    ∀ c, c < h → rCount P c = 0 := by
  intro c hc
  have hm : rCount P c ∈ (List.range h).map (fun c => rCount P c) :=
    List.mem_map_of_mem _ (List.mem_range.2 hc)
  unfold sumR at hs
  exact List.sum_eq_zero_iff.1 hs _ hm

theorem sumR_pos (P : Cells) (h : Nat) (hs : 1 ≤ sumR P h) :
    ∃ c, c < h ∧ 1 ≤ rCount P c := by
  by_contra hno
  push_neg at hno
  have hz : sumR P h = 0 := by
    unfold sumR
    rw [List.sum_eq_zero_iff]
    intro x hx
    rcases List.mem_map.1 hx with ⟨c, hc, hcx⟩
    have := hno c (List.mem_range.1 hc)
    omega
  omega

/-! ### Cell-count bookkeeping -/

theorem rCount_of_aget (P : Cells) (c : Nat) (cell : List (Nat × Entry))
    (h : aget P c = some cell) : rCount P c = cell.length := by
  unfold rCount
  rw [h]
  rfl

theorem rCount_of_none (P : Cells) (c : Nat) (h : aget P c = none) :
    rCount P c = 0 := by
  unfold rCount
  rw [h]
  rfl

theorem aget_isSome_of_rCount_pos (P : Cells) (c : Nat)
    (h : 1 ≤ rCount P c) : (aget P c).isSome = true := by
  cases hg : aget P c with
  | none => rw [rCount_of_none _ _ hg] at h; omega
  | some cell => rfl

theorem rCount_pos_ps (part : PartState) (e : Entry) (h : psHas part e) :
    1 ≤ rCount part.ps (e.src / 2) := by
  obtain ⟨cell, h1, h2⟩ := h
  rw [rCount_of_aget _ _ _ h1]
  cases cell with
  | nil => simp [aget] at h2
  | cons a t => simp

theorem rCount_pos_pd (part : PartState) (e : Entry) (h : pdHas part e) :
    1 ≤ rCount part.pd (e.dst / 2) := by
  obtain ⟨cell, h1, h2⟩ := h
  rw [rCount_of_aget _ _ _ h1]
  cases cell with
  | nil => simp [aget] at h2
  | cons a t => simp

theorem pdHas_unique (part : PartState) (e e' : Entry)
    (h : pdHas part e) (h' : pdHas part e') (heq : e'.dst = e.dst) : e' = e := by
  obtain ⟨cell, h1, h2⟩ := h
  obtain ⟨cell', h1', h2'⟩ := h'
  rw [heq] at h1' h2'
  rw [h1] at h1'
  have hc : cell' = cell := Option.some.inj h1'.symm
  rw [hc, h2] at h2'
  exact Option.some.inj h2'.symm

theorem psHas_unique (part : PartState) (e e' : Entry)
    (h : psHas part e) (h' : psHas part e') (heq : e'.src = e.src) : e' = e := by
  obtain ⟨cell, h1, h2⟩ := h
  obtain ⟨cell', h1', h2'⟩ := h'
  rw [heq] at h1' h2'
  rw [h1] at h1'
  have hc : cell' = cell := Option.some.inj h1'.symm
  rw [hc, h2] at h2'
  exact Option.some.inj h2'.symm

/-- `BSPMat.delete` of a listed entry: it succeeds, removes exactly that
entry from exactly its two cells, and preserves the structural
invariant. -/
theorem delete_good (h : Nat) (part : PartState) (e : Entry)
    (hg : PartGood h part) (hs : psHas part e) (hd : pdHas part e) :
    ∃ part', part.delete e = some part' ∧ part'.dbl = part.dbl ∧
      PartGood h part' ∧
      (∀ c, rCount part'.ps c =
        rCount part.ps c - (if c = e.src / 2 then 1 else 0)) ∧
      (∀ c, rCount part'.pd c =
        rCount part.pd c - (if c = e.dst / 2 then 1 else 0)) ∧
      (∀ e', psHas part' e' ↔ (psHas part e' ∧ e'.src ≠ e.src)) ∧
      (∀ e', pdHas part' e' ↔ (pdHas part e' ∧ e'.dst ≠ e.dst)) := by
  obtain ⟨cs, hcs1, hcs2⟩ := hs
  obtain ⟨cd, hcd1, hcd2⟩ := hd
  have hcsm : (e.src / 2, cs) ∈ part.ps := aget_mem _ _ _ hcs1
  have hcdm : (e.dst / 2, cd) ∈ part.pd := aget_mem _ _ _ hcd1
  have hcsN : (cs.map (fun ke => ke.1)).Nodup := hg.psN _ hcsm
  have hcdN : (cd.map (fun ke => ke.1)).Nodup := hg.pdN _ hcdm
  have hcsS : (aget cs e.src).isSome = true := by rw [hcs2]; rfl
  have hcdS : (aget cd e.dst).isSome = true := by rw [hcd2]; rfl
  set csd := adel cs e.src with hcsd
  set cdd := adel cd e.dst with hcdd
  set nps := (if csd.isEmpty then adel part.ps (e.src / 2)
    else aset part.ps (e.src / 2) csd) with hnps
  set npd := (if cdd.isEmpty then adel part.pd (e.dst / 2)
    else aset part.pd (e.dst / 2) cdd) with hnpd
  have hagetS : ∀ c, c ≠ e.src / 2 → aget nps c = aget part.ps c := by
    intro c hc
    by_cases hE : csd.isEmpty
    · rw [hnps, if_pos hE, aget_adel_ne _ _ _ hc]
    · rw [hnps, if_neg hE, aget_aset, if_neg (fun he => hc he.symm)]
  have hagetD : ∀ c, c ≠ e.dst / 2 → aget npd c = aget part.pd c := by
    intro c hc
    by_cases hE : cdd.isEmpty
    · rw [hnpd, if_pos hE, aget_adel_ne _ _ _ hc]
    · rw [hnpd, if_neg hE, aget_aset, if_neg (fun he => hc he.symm)]
  have hagetS2 : aget nps (e.src / 2) = if csd.isEmpty then none else some csd := by
    by_cases hE : csd.isEmpty
    · rw [hnps, if_pos hE, if_pos hE]
      exact aget_adel_self part.ps (e.src / 2) hg.psK
    · rw [hnps, if_neg hE, if_neg hE, aget_aset, if_pos rfl]
  have hagetD2 : aget npd (e.dst / 2) = if cdd.isEmpty then none else some cdd := by
    by_cases hE : cdd.isEmpty
    · rw [hnpd, if_pos hE, if_pos hE]
      exact aget_adel_self part.pd (e.dst / 2) hg.pdK
    · rw [hnpd, if_neg hE, if_neg hE, aget_aset, if_pos rfl]
  have hlenS : csd.length + 1 = cs.length := length_adel_of_isSome cs e.src hcsS
  have hlenD : cdd.length + 1 = cd.length := length_adel_of_isSome cd e.dst hcdS
  have hrS : ∀ c, rCount nps c =
      rCount part.ps c - (if c = e.src / 2 then 1 else 0) := by
    intro c
    by_cases hc : c = e.src / 2
    · subst hc
      rw [if_pos rfl]
      unfold rCount
      rw [hagetS2, hcs1]
      by_cases hE : csd.isEmpty
      · rw [if_pos hE]
        rw [List.isEmpty_iff] at hE
        rw [hE] at hlenS
        simp only [Option.getD_none, Option.getD_some, List.length_nil]
        simp only [List.length_nil] at hlenS
        omega
      · rw [if_neg hE]
        simp only [Option.getD_some]
        omega
    · rw [if_neg hc]
      unfold rCount
      rw [hagetS c hc]
      omega
  have hrD : ∀ c, rCount npd c =
      rCount part.pd c - (if c = e.dst / 2 then 1 else 0) := by
    intro c
    by_cases hc : c = e.dst / 2
    · subst hc
      rw [if_pos rfl]
      unfold rCount
      rw [hagetD2, hcd1]
      by_cases hE : cdd.isEmpty
      · rw [if_pos hE]
        rw [List.isEmpty_iff] at hE
        rw [hE] at hlenD
        simp only [Option.getD_none, Option.getD_some, List.length_nil]
        simp only [List.length_nil] at hlenD
        omega
      · rw [if_neg hE]
        simp only [Option.getD_some]
        omega
    · rw [if_neg hc]
      unfold rCount
      rw [hagetD c hc]
      omega
  have hhasS : ∀ e', psHas ⟨nps, npd, part.dbl⟩ e' ↔
      (psHas part e' ∧ e'.src ≠ e.src) := by
    intro e'
    constructor
    · rintro ⟨cell, hc1, hc2⟩
      by_cases hcc : e'.src / 2 = e.src / 2
      · rw [show (⟨nps, npd, part.dbl⟩ : PartState).ps = nps from rfl, hcc,
          hagetS2] at hc1
        by_cases hE : csd.isEmpty
        · rw [if_pos hE] at hc1
          exact absurd hc1 (by simp)
        · rw [if_neg hE] at hc1
          have hcell : cell = csd := (Option.some.inj hc1).symm
          subst hcell
          have hne : e'.src ≠ e.src := by
            intro heq
            rw [heq, hcsd, aget_adel_self cs e.src hcsN] at hc2
            exact absurd hc2 (by simp)
          refine ⟨⟨cs, by rw [hcc]; exact hcs1, ?_⟩, hne⟩
          rw [hcsd, aget_adel_ne cs e.src e'.src hne] at hc2
          exact hc2
      · rw [show (⟨nps, npd, part.dbl⟩ : PartState).ps = nps from rfl,
          hagetS _ hcc] at hc1
        exact ⟨⟨cell, hc1, hc2⟩, fun heq => hcc (by rw [heq])⟩
    · rintro ⟨⟨cell, hc1, hc2⟩, hne⟩
      by_cases hcc : e'.src / 2 = e.src / 2
      · rw [hcc, hcs1] at hc1
        have hcell : cell = cs := Option.some.inj hc1.symm
        rw [hcell] at hc2
        have hget : aget csd e'.src = some e' := by
          rw [hcsd, aget_adel_ne cs e.src e'.src hne]
          exact hc2
      -- the shrunk cell still holds e', so it is not empty
        have hE : ¬ csd.isEmpty = true := by
          intro hE
          rw [List.isEmpty_iff] at hE
          rw [hE] at hget
          exact absurd hget (by simp [aget])
        exact ⟨csd, by
          rw [show (⟨nps, npd, part.dbl⟩ : PartState).ps = nps from rfl, hcc,
            hagetS2, if_neg hE], hget⟩
      · exact ⟨cell, by
          rw [show (⟨nps, npd, part.dbl⟩ : PartState).ps = nps from rfl,
            hagetS _ hcc]
          exact hc1, hc2⟩
  have hhasD : ∀ e', pdHas ⟨nps, npd, part.dbl⟩ e' ↔
      (pdHas part e' ∧ e'.dst ≠ e.dst) := by
    intro e'
    constructor
    · rintro ⟨cell, hc1, hc2⟩
      by_cases hcc : e'.dst / 2 = e.dst / 2
      · rw [show (⟨nps, npd, part.dbl⟩ : PartState).pd = npd from rfl, hcc,
          hagetD2] at hc1
        by_cases hE : cdd.isEmpty
        · rw [if_pos hE] at hc1
          exact absurd hc1 (by simp)
        · rw [if_neg hE] at hc1
          have hcell : cell = cdd := (Option.some.inj hc1).symm
          subst hcell
          have hne : e'.dst ≠ e.dst := by
            intro heq
            rw [heq, hcdd, aget_adel_self cd e.dst hcdN] at hc2
            exact absurd hc2 (by simp)
          refine ⟨⟨cd, by rw [hcc]; exact hcd1, ?_⟩, hne⟩
          rw [hcdd, aget_adel_ne cd e.dst e'.dst hne] at hc2
          exact hc2
      · rw [show (⟨nps, npd, part.dbl⟩ : PartState).pd = npd from rfl,
          hagetD _ hcc] at hc1
        exact ⟨⟨cell, hc1, hc2⟩, fun heq => hcc (by rw [heq])⟩
    · rintro ⟨⟨cell, hc1, hc2⟩, hne⟩
      by_cases hcc : e'.dst / 2 = e.dst / 2
      · rw [hcc, hcd1] at hc1
        have hcell : cell = cd := Option.some.inj hc1.symm
        rw [hcell] at hc2
        have hget : aget cdd e'.dst = some e' := by
          rw [hcdd, aget_adel_ne cd e.dst e'.dst hne]
          exact hc2
        have hE : ¬ cdd.isEmpty = true := by
          intro hE
          rw [List.isEmpty_iff] at hE
          rw [hE] at hget
          exact absurd hget (by simp [aget])
        exact ⟨cdd, by
          rw [show (⟨nps, npd, part.dbl⟩ : PartState).pd = npd from rfl, hcc,
            hagetD2, if_neg hE], hget⟩
      · exact ⟨cell, by
          rw [show (⟨nps, npd, part.dbl⟩ : PartState).pd = npd from rfl,
            hagetD _ hcc]
          exact hc1, hc2⟩
  have hgood : PartGood h (⟨nps, npd, part.dbl⟩ : PartState) := by
    have hpsK : (nps.map (fun c => c.1)).Nodup := by
      by_cases hE : csd.isEmpty
      · rw [hnps, if_pos hE]
        exact hg.psK.sublist ((adel_sublist _ _).map _)
      · rw [hnps, if_neg hE,
          keys_aset_of_isSome _ _ _ (by rw [hcs1]; rfl)]
        exact hg.psK
    have hpdK : (npd.map (fun c => c.1)).Nodup := by
      by_cases hE : cdd.isEmpty
      · rw [hnpd, if_pos hE]
        exact hg.pdK.sublist ((adel_sublist _ _).map _)
      · rw [hnpd, if_neg hE,
          keys_aset_of_isSome _ _ _ (by rw [hcd1]; rfl)]
        exact hg.pdK
    have hpsC : ∀ ccell ∈ nps, ccell.2 ≠ [] ∧
        ∀ ke ∈ ccell.2, ke.1 = ke.2.src ∧ ke.2.src / 2 = ccell.1 ∧
          ke.2.src < 2 * h ∧ ke.2.dst < 2 * h := by
      intro ccell hcm
      by_cases hE : csd.isEmpty
      · rw [hnps, if_pos hE] at hcm
        exact hg.psC ccell (mem_adel _ _ _ hcm)
      · rw [hnps, if_neg hE] at hcm
        rcases mem_aset _ _ _ _ hcm with h1 | h1
        · subst h1
          refine ⟨fun hnil => hE (by rw [show csd = [] from hnil]; rfl), ?_⟩
          intro ke hke
          exact (hg.psC _ hcsm).2 ke (mem_adel cs e.src ke hke)
        · exact hg.psC ccell h1
    have hpdC : ∀ ccell ∈ npd, ccell.2 ≠ [] ∧
        ∀ ke ∈ ccell.2, ke.1 = ke.2.dst ∧ ke.2.dst / 2 = ccell.1 ∧
          ke.2.src < 2 * h ∧ ke.2.dst < 2 * h := by
      intro ccell hcm
      by_cases hE : cdd.isEmpty
      · rw [hnpd, if_pos hE] at hcm
        exact hg.pdC ccell (mem_adel _ _ _ hcm)
      · rw [hnpd, if_neg hE] at hcm
        rcases mem_aset _ _ _ _ hcm with h1 | h1
        · subst h1
          refine ⟨fun hnil => hE (by rw [show cdd = [] from hnil]; rfl), ?_⟩
          intro ke hke
          exact (hg.pdC _ hcdm).2 ke (mem_adel cd e.dst ke hke)
        · exact hg.pdC ccell h1
    have hpsN2 : ∀ ccell ∈ nps, (ccell.2.map (fun ke => ke.1)).Nodup := by
      intro ccell hcm
      by_cases hE : csd.isEmpty
      · rw [hnps, if_pos hE] at hcm
        exact hg.psN ccell (mem_adel _ _ _ hcm)
      · rw [hnps, if_neg hE] at hcm
        rcases mem_aset _ _ _ _ hcm with h1 | h1
        · subst h1
          exact hcsN.sublist ((adel_sublist cs e.src).map _)
        · exact hg.psN ccell h1
    have hpdN2 : ∀ ccell ∈ npd, (ccell.2.map (fun ke => ke.1)).Nodup := by
      intro ccell hcm
      by_cases hE : cdd.isEmpty
      · rw [hnpd, if_pos hE] at hcm
        exact hg.pdN ccell (mem_adel _ _ _ hcm)
      · rw [hnpd, if_neg hE] at hcm
        rcases mem_aset _ _ _ _ hcm with h1 | h1
        · subst h1
          exact hcdN.sublist ((adel_sublist cd e.dst).map _)
        · exact hg.pdN ccell h1
    refine ⟨hpsK, hpdK, hpsC, hpdC, hpsN2, hpdN2, ?_, ?_⟩
    · intro e' hp
      rcases (hhasS e').1 hp with ⟨h1, h2⟩
      have h3 := hg.mirSD e' h1
      refine (hhasD e').2 ⟨h3, fun heq => h2 ?_⟩
      have := pdHas_unique part e e' ⟨cd, hcd1, hcd2⟩ h3 heq
      rw [this]
    · intro e' hp
      rcases (hhasD e').1 hp with ⟨h1, h2⟩
      have h3 := hg.mirDS e' h1
      refine (hhasS e').2 ⟨h3, fun heq => h2 ?_⟩
      have := psHas_unique part e e' ⟨cs, hcs1, hcs2⟩ h3 heq
      rw [this]
  refine ⟨⟨nps, npd, part.dbl⟩, ?_, rfl, hgood, hrS, hrD, hhasS, hhasD⟩
  unfold PartState.delete
  dsimp only
  rw [hcs1]
  simp only [Option.bind_eq_bind, Option.some_bind]
  rw [hcs2]
  simp only [Option.some_bind]
  rw [hcd1]
  simp only [Option.some_bind]
  rw [hcd2]
  simp only [Option.some_bind, Option.pure_def]

/-- `BSPMat.insert` of an entry whose halved destination is not yet a
key: appends it and bumps the two counts of its halved ids. -/
theorem insert_good (h : Nat) (m : BSPMat) (x : Entry) (hg : PaGood h m)
    (hfresh : dstCount m (x.dst / 2) = 0)
    (hx1 : x.src < 2 * h) (hx2 : x.dst < 2 * h) :
    PaGood h (m.insert x) ∧
    (∀ c, srcCount (m.insert x) c =
      srcCount m c + (if c = x.src / 2 then 1 else 0)) ∧
    (∀ c, dstCount (m.insert x) c =
      dstCount m c + (if c = x.dst / 2 then 1 else 0)) ∧
    (m.insert x).d.length = m.d.length + 1 := by
  have hx1' : x.src / 2 < h := Nat.div_lt_of_lt_mul (by omega)
  have hx2' : x.dst / 2 < h := Nat.div_lt_of_lt_mul (by omega)
  have hnone : aget m.d (x.dst / 2) = none := by
    rw [aget_eq_none_iff]
    intro hmem
    rcases List.mem_map.1 hmem with ⟨kv, hkv, hkey⟩
    have hkv2 := hg kv hkv
    have hcnt : 0 < dstCount m (x.dst / 2) := by
      unfold dstCount
      rw [List.count_pos_iff]
      exact List.mem_map.2 ⟨kv, hkv, by rw [← hkv2.1]; exact hkey⟩
    omega
  have hd_eq : (m.insert x).d =
      m.d ++ [(x.dst / 2, ⟨x.src / 2, x.dst / 2, some x.src, some x.dst⟩)] := by
    show aset m.d (x.dst / 2) _ = _
    exact aset_of_aget_none _ _ _ hnone
  refine ⟨?_, ?_, ?_, ?_⟩
  · intro kv hkv
    rw [hd_eq] at hkv
    rcases List.mem_append.1 hkv with h1 | h1
    · exact hg kv h1
    · rw [List.mem_singleton.1 h1]
      exact ⟨rfl, hx1', hx2', rfl, rfl⟩
  · intro c
    unfold srcCount
    rw [hd_eq, List.map_append, List.count_append]
    simp only [List.map_cons, List.map_nil]
    rw [count_singleton_ite]
  · intro c
    unfold dstCount
    rw [hd_eq, List.map_append, List.count_append]
    simp only [List.map_cons, List.map_nil]
    rw [count_singleton_ite]
  · rw [hd_eq, List.length_append]
    rfl

/-! ### The chase loop preserves the exact invariant -/

theorem aget_head {κ α : Type} [DecidableEq κ] (l : List (κ × α)) (kv : κ × α)
    (h : l.head? = some kv) : aget l kv.1 = some kv.2 := by
  cases l with
  | nil => simp at h
  | cons a t =>
    simp only [List.head?_cons, Option.some.injEq] at h
    subst h
    rw [aget, if_pos rfl]

theorem chaseStep_preserve0 (h rem : Nat) (st : ChaseSt)
    (hinv : ChaseInv h (rem + 1) st) (hr0 : st.refidx = 0) :
    ∃ part' e,
      chaseStep st = some ⟨part', st.Pa, st.Pb.insert e, e.src / 2, 1⟩ ∧
      ChaseInv h rem ⟨part', st.Pa, st.Pb.insert e, e.src / 2, 1⟩ ∧
      part'.dbl = st.part.dbl := by
  obtain ⟨hPG, hPa, hPb, -, hsS, hsD, hOC⟩ := hinv
  have hrem1 : 1 ≤ sumR st.part.pd h := by omega
  obtain ⟨p₀, hposbind, hcell⟩ :
      ∃ p₀, (if (aget st.part.pd st.pos).isSome then some st.pos
          else (st.part.pd.head?).map (fun kv => kv.1)) = some p₀ ∧
        (aget st.part.pd p₀).isSome = true := by
    by_cases hlook : (aget st.part.pd st.pos).isSome = true
    · exact ⟨st.pos, by rw [if_pos hlook], hlook⟩
    · obtain ⟨c₀, hc₀h, hc₀r⟩ := sumR_pos _ _ hrem1
      have hnemp : st.part.pd ≠ [] := by
        intro hnil
        have hx := aget_isSome_of_rCount_pos _ _ hc₀r
        rw [hnil] at hx
        simp [aget] at hx
      obtain ⟨kv, t, hpd⟩ : ∃ kv t, st.part.pd = kv :: t := by
        cases hq : st.part.pd with
        | nil => exact absurd hq hnemp
        | cons a t => exact ⟨a, t, rfl⟩
      refine ⟨kv.1, ?_, ?_⟩
      · rw [if_neg hlook, hpd]
        rfl
      · rw [hpd, aget_head (kv :: t) kv rfl]
        rfl
  obtain ⟨cell, hcellq⟩ : ∃ cell, aget st.part.pd p₀ = some cell :=
    Option.isSome_iff_exists.1 hcell
  have hcmem : (p₀, cell) ∈ st.part.pd := aget_mem _ _ _ hcellq
  have hcprop := hPG.pdC _ hcmem
  obtain ⟨ke0, hhead⟩ : ∃ ke0, cell.head? = some ke0 := by
    cases hcc : cell with
    | nil => exact absurd hcc hcprop.1
    | cons a t => exact ⟨a, rfl⟩
  have hke0m : ke0 ∈ cell := head?_mem hhead
  have hke0p := hcprop.2 ke0 hke0m
  have hp₀ : ke0.2.dst / 2 = p₀ := hke0p.2.1
  have hdHase : pdHas st.part ke0.2 := by
    refine ⟨cell, by rw [hp₀]; exact hcellq, ?_⟩
    have hx := aget_head cell ke0 hhead
    rw [hke0p.1] at hx
    exact hx
  have hsHase : psHas st.part ke0.2 := hPG.mirDS _ hdHase
  have hdstlt : ke0.2.dst / 2 < h :=
    Nat.div_lt_of_lt_mul (by have := hke0p.2.2.2; omega)
  have hdlt : ke0.2.src / 2 < h :=
    Nat.div_lt_of_lt_mul (by have := hke0p.2.2.1; omega)
  have hrpos : 1 ≤ rCount st.part.pd (ke0.2.dst / 2) :=
    rCount_pos_pd st.part ke0.2 hdHase
  have hclass :
      (dstCount st.Pa (ke0.2.dst / 2) = 1 ∧ dstCount st.Pb (ke0.2.dst / 2) = 0 ∧
        rCount st.part.pd (ke0.2.dst / 2) = 1 ∧ ke0.2.dst / 2 = st.pos ∧
        chaseOpen h st) ∨
      (dstCount st.Pa (ke0.2.dst / 2) = 0 ∧ dstCount st.Pb (ke0.2.dst / 2) = 0 ∧
        rCount st.part.pd (ke0.2.dst / 2) = 2 ∧ chaseClosed h st) := by
    rcases hOC with hO | hC
    · have hO2 := hO
      simp only [chaseOpen, hr0, reduceIte] at hO2
      have hpos_some : (aget st.part.pd st.pos).isSome = true :=
        aget_isSome_of_rCount_pos _ _ (by have := hO2.2.1.2.2; omega)
      have hp₀pos : p₀ = st.pos := by
        rw [if_pos hpos_some] at hposbind
        exact (Option.some.inj hposbind).symm
      have hq : ke0.2.dst / 2 = st.pos := hp₀.trans hp₀pos
      refine Or.inl ⟨?_, ?_, ?_, hq, hO⟩
      · rw [hq]
        exact hO2.2.1.1
      · rw [hq]
        exact hO2.2.1.2.1
      · rw [hq]
        exact hO2.2.1.2.2
    · have hC2 := hC
      simp only [chaseClosed] at hC2
      have hfd := hC2.2 (ke0.2.dst / 2) hdstlt
      simp only [fdD] at hfd
      rcases hfd with hfd | hfd
      · exact Or.inr ⟨hfd.1, hfd.2.1, hfd.2.2, hC⟩
      · exact absurd hfd.2.2 (by omega)
  have hfree : dstCount st.Pb (ke0.2.dst / 2) = 0 := by
    rcases hclass with hcl | hcl
    · exact hcl.2.1
    · exact hcl.2.1
  obtain ⟨hPb', hPbS, hPbD, hPbL⟩ :=
    insert_good h st.Pb ke0.2 hPb hfree hke0p.2.2.1 hke0p.2.2.2
  obtain ⟨part', hdel, hdbl, hPG', hrS', hrD', hhasS', hhasD'⟩ :=
    delete_good h st.part ke0.2 hPG hsHase hdHase
  have hSb : ∀ c, c ≠ ke0.2.src / 2 →
      srcCount (st.Pb.insert ke0.2) c = srcCount st.Pb c := by
    intro c hc
    rw [hPbS c, if_neg hc]
    omega
  have hSbe : srcCount (st.Pb.insert ke0.2) (ke0.2.src / 2) =
      srcCount st.Pb (ke0.2.src / 2) + 1 := by
    rw [hPbS _, if_pos rfl]
  have hDb : ∀ c, c ≠ ke0.2.dst / 2 →
      dstCount (st.Pb.insert ke0.2) c = dstCount st.Pb c := by
    intro c hc
    rw [hPbD c, if_neg hc]
    omega
  have hDbe : dstCount (st.Pb.insert ke0.2) (ke0.2.dst / 2) =
      dstCount st.Pb (ke0.2.dst / 2) + 1 := by
    rw [hPbD _, if_pos rfl]
  have hrSn : ∀ c, c ≠ ke0.2.src / 2 →
      rCount part'.ps c = rCount st.part.ps c := by
    intro c hc
    rw [hrS' c, if_neg hc]
    omega
  have hrSe : rCount part'.ps (ke0.2.src / 2) + 1 =
      rCount st.part.ps (ke0.2.src / 2) := by
    have h1 := hrS' (ke0.2.src / 2)
    rw [if_pos rfl] at h1
    have h2 := rCount_pos_ps st.part ke0.2 hsHase
    omega
  have hrDn : ∀ c, c ≠ ke0.2.dst / 2 →
      rCount part'.pd c = rCount st.part.pd c := by
    intro c hc
    rw [hrD' c, if_neg hc]
    omega
  have hrDe : rCount part'.pd (ke0.2.dst / 2) + 1 =
      rCount st.part.pd (ke0.2.dst / 2) := by
    have h1 := hrD' (ke0.2.dst / 2)
    rw [if_pos rfl] at h1
    omega
  have hsS' : sumR part'.ps h = rem := by
    have := sumR_dec st.part.ps part'.ps h (ke0.2.src / 2) hdlt
      (rCount_pos_ps st.part ke0.2 hsHase) hrS'
    omega
  have hsD' : sumR part'.pd h = rem := by
    have := sumR_dec st.part.pd part'.pd h (ke0.2.dst / 2) hdstlt hrpos hrD'
    omega
  refine ⟨part', ke0.2, ?_, ?_, hdbl⟩
  · unfold chaseStep
    dsimp only
    rw [hr0]
    simp only [reduceIte]
    by_cases hck : (aget st.part.pd st.pos).isSome = true
    · rw [if_pos hck] at hposbind
      rw [if_pos hck]
      simp only [Option.bind_eq_bind, Option.some_bind]
      rw [(Option.some.inj hposbind : st.pos = p₀), hcellq]
      simp only [Option.some_bind]
      rw [hhead]
      simp only [Option.some_bind]
      rw [hdel]
      simp only [Option.some_bind, Option.pure_def]
    · rw [if_neg hck] at hposbind
      rw [if_neg hck, hposbind]
      simp only [Option.bind_eq_bind, Option.some_bind]
      rw [hcellq]
      simp only [Option.some_bind]
      rw [hhead]
      simp only [Option.some_bind]
      rw [hdel]
      simp only [Option.some_bind, Option.pure_def]
  · refine ⟨hPG', hPa, hPb', Or.inr rfl, hsS', hsD', ?_⟩
    rcases hclass with ⟨ha1, hb1, hr1, hpq, hO⟩ | ⟨ha0, hb0, hr2, hC⟩
    · -- mid-cycle pick at the thread cell
      simp only [chaseOpen, hr0, reduceIte] at hO
      rcases hO.2.2 with ⟨w, hwlt, hdgl, hfS, hfD⟩ | ⟨w, hwlt, hwne, hdgl, hfS, hfD⟩
      · -- the dangling cell is on the source side
        simp only [dglS] at hdgl
        by_cases hdw : ke0.2.src / 2 = w
        · -- the cycle closes: everything fresh or dead
          rw [← hdw] at hdgl
          refine Or.inr ⟨?_, ?_⟩
          · intro c hc
            simp only [fdS]
            by_cases hcd : c = ke0.2.src / 2
            · subst hcd
              omega
            · have hcw : c ≠ w := fun he => hcd (he.trans hdw.symm)
              have hp := hfS c hc hcw
              simp only [fdS] at hp
              have e1 := hSb c hcd
              have e2 := hrSn c hcd
              omega
          · intro c hc
            simp only [fdD]
            by_cases hcp : c = ke0.2.dst / 2
            · subst hcp
              omega
            · have hcq : c ≠ st.pos := fun he => hcp (he.trans hpq.symm)
              have hp := hfD c hc hcq
              simp only [fdD] at hp
              have e1 := hDb c hcp
              have e2 := hrDn c hcp
              omega
        · -- the chase continues on the source side
          refine Or.inl ?_
          simp only [chaseOpen, reduceIte]
          have hfresh : srcCount st.Pa (ke0.2.src / 2) = 0 ∧
              srcCount st.Pb (ke0.2.src / 2) = 0 ∧
              rCount st.part.ps (ke0.2.src / 2) = 2 := by
            have hp := hfS _ hdlt hdw
            simp only [fdS] at hp
            omega
          refine ⟨hdlt, ?_, Or.inl ⟨w, hwlt, ?_, ?_, ?_, ?_⟩⟩
          · simp only [threadS]
            refine ⟨hfresh.1, ?_, ?_⟩
            · rw [hSbe, hfresh.2.1]
            · omega
          · exact fun he => hdw he.symm
          · simp only [dglS]
            refine ⟨hdgl.1, ?_, ?_⟩
            · rw [hSb w (fun he => hdw he.symm), hdgl.2.1]
            · rw [hrSn w (fun he => hdw he.symm), hdgl.2.2]
          · intro c hc hcp hcw
            have hp := hfS c hc hcw
            simp only [fdS] at hp ⊢
            have e1 := hSb c hcp
            have e2 := hrSn c hcp
            omega
          · intro c hc
            simp only [fdD]
            by_cases hcp : c = ke0.2.dst / 2
            · subst hcp
              omega
            · have hcq : c ≠ st.pos := fun he => hcp (he.trans hpq.symm)
              have hp := hfD c hc hcq
              simp only [fdD] at hp
              have e1 := hDb c hcp
              have e2 := hrDn c hcp
              omega
      · -- the dangling cell is on the destination side
        simp only [dglD] at hdgl
        have hwq : w ≠ ke0.2.dst / 2 := fun he => hwne (he.trans hpq)
        refine Or.inl ?_
        simp only [chaseOpen, reduceIte]
        have hfresh : srcCount st.Pa (ke0.2.src / 2) = 0 ∧
            srcCount st.Pb (ke0.2.src / 2) = 0 ∧
            rCount st.part.ps (ke0.2.src / 2) = 2 := by
          have hp := hfS _ hdlt
          simp only [fdS] at hp
          have h2 := rCount_pos_ps st.part ke0.2 hsHase
          omega
        refine ⟨hdlt, ?_, Or.inr ⟨w, hwlt, ?_, ?_, ?_⟩⟩
        · simp only [threadS]
          refine ⟨hfresh.1, ?_, ?_⟩
          · rw [hSbe, hfresh.2.1]
          · omega
        · simp only [dglD]
          refine ⟨?_, ?_, ?_⟩
          · exact hdgl.1
          · rw [hDb w hwq, hdgl.2.1]
          · rw [hrDn w hwq, hdgl.2.2]
        · intro c hc hcp
          have hp := hfS c hc
          simp only [fdS] at hp ⊢
          have e1 := hSb c hcp
          have e2 := hrSn c hcp
          omega
        · intro c hc hcw
          simp only [fdD]
          by_cases hcp : c = ke0.2.dst / 2
          · subst hcp
            omega
          · have hcq : c ≠ st.pos := fun he => hcp (he.trans hpq.symm)
            have hp := hfD c hc hcq hcw
            simp only [fdD] at hp
            have e1 := hDb c hcp
            have e2 := hrDn c hcp
            omega
    · -- restart pick from a fresh cell: it becomes the new dangling cell
      simp only [chaseClosed] at hC
      refine Or.inl ?_
      simp only [chaseOpen, reduceIte]
      have hfresh : srcCount st.Pa (ke0.2.src / 2) = 0 ∧
          srcCount st.Pb (ke0.2.src / 2) = 0 ∧
          rCount st.part.ps (ke0.2.src / 2) = 2 := by
        have hp := hC.1 _ hdlt
        simp only [fdS] at hp
        have h2 := rCount_pos_ps st.part ke0.2 hsHase
        omega
      refine ⟨hdlt, ?_, Or.inr ⟨ke0.2.dst / 2, hdstlt, ?_, ?_, ?_⟩⟩
      · simp only [threadS]
        refine ⟨hfresh.1, ?_, ?_⟩
        · rw [hSbe, hfresh.2.1]
        · omega
      · simp only [dglD]
        refine ⟨ha0, ?_, ?_⟩
        · rw [hDbe, hb0]
        · omega
      · intro c hc hcp
        have hp := hC.1 c hc
        simp only [fdS] at hp ⊢
        have e1 := hSb c hcp
        have e2 := hrSn c hcp
        omega
      · intro c hc hcw
        have hp := hC.2 c hc
        simp only [fdD] at hp ⊢
        have e1 := hDb c hcw
        have e2 := hrDn c hcw
        omega

theorem chaseStep_preserve1 (h rem : Nat) (st : ChaseSt)
    (hinv : ChaseInv h (rem + 1) st) (hr1 : st.refidx = 1) :
    ∃ part' e,
      chaseStep st = some ⟨part', st.Pa.insert e, st.Pb, e.dst / 2, 0⟩ ∧
      ChaseInv h rem ⟨part', st.Pa.insert e, st.Pb, e.dst / 2, 0⟩ ∧
      part'.dbl = st.part.dbl := by
  obtain ⟨hPG, hPa, hPb, -, hsS, hsD, hOC⟩ := hinv
  have hr1' : ¬ st.refidx = 0 := by omega
  have hrem1 : 1 ≤ sumR st.part.ps h := by omega
  obtain ⟨p₀, hposbind, hcell⟩ :
      ∃ p₀, (if (aget st.part.ps st.pos).isSome then some st.pos
          else (st.part.ps.head?).map (fun kv => kv.1)) = some p₀ ∧
        (aget st.part.ps p₀).isSome = true := by
    by_cases hlook : (aget st.part.ps st.pos).isSome = true
    · exact ⟨st.pos, by rw [if_pos hlook], hlook⟩
    · obtain ⟨c₀, hc₀h, hc₀r⟩ := sumR_pos _ _ hrem1
      have hnemp : st.part.ps ≠ [] := by
        intro hnil
        have hx := aget_isSome_of_rCount_pos _ _ hc₀r
        rw [hnil] at hx
        simp [aget] at hx
      obtain ⟨kv, t, hpd⟩ : ∃ kv t, st.part.ps = kv :: t := by
        cases hq : st.part.ps with
        | nil => exact absurd hq hnemp
        | cons a t => exact ⟨a, t, rfl⟩
      refine ⟨kv.1, ?_, ?_⟩
      · rw [if_neg hlook, hpd]
        rfl
      · rw [hpd, aget_head (kv :: t) kv rfl]
        rfl
  obtain ⟨cell, hcellq⟩ : ∃ cell, aget st.part.ps p₀ = some cell :=
    Option.isSome_iff_exists.1 hcell
  have hcmem : (p₀, cell) ∈ st.part.ps := aget_mem _ _ _ hcellq
  have hcprop := hPG.psC _ hcmem
  obtain ⟨ke0, hhead⟩ : ∃ ke0, cell.head? = some ke0 := by
    cases hcc : cell with
    | nil => exact absurd hcc hcprop.1
    | cons a t => exact ⟨a, rfl⟩
  have hke0m : ke0 ∈ cell := head?_mem hhead
  have hke0p := hcprop.2 ke0 hke0m
  have hp₀ : ke0.2.src / 2 = p₀ := hke0p.2.1
  have hsHase : psHas st.part ke0.2 := by
    refine ⟨cell, by rw [hp₀]; exact hcellq, ?_⟩
    have hx := aget_head cell ke0 hhead
    rw [hke0p.1] at hx
    exact hx
  have hdHase : pdHas st.part ke0.2 := hPG.mirSD _ hsHase
  have hdstlt : ke0.2.dst / 2 < h :=
    Nat.div_lt_of_lt_mul (by have := hke0p.2.2.2; omega)
  have hdlt : ke0.2.src / 2 < h :=
    Nat.div_lt_of_lt_mul (by have := hke0p.2.2.1; omega)
  have hrpos : 1 ≤ rCount st.part.ps (ke0.2.src / 2) :=
    rCount_pos_ps st.part ke0.2 hsHase
  have hrposD : 1 ≤ rCount st.part.pd (ke0.2.dst / 2) :=
    rCount_pos_pd st.part ke0.2 hdHase
  have hclass :
      (srcCount st.Pa (ke0.2.src / 2) = 0 ∧ srcCount st.Pb (ke0.2.src / 2) = 1 ∧
        rCount st.part.ps (ke0.2.src / 2) = 1 ∧ ke0.2.src / 2 = st.pos ∧
        chaseOpen h st) ∨
      (srcCount st.Pa (ke0.2.src / 2) = 0 ∧ srcCount st.Pb (ke0.2.src / 2) = 0 ∧
        rCount st.part.ps (ke0.2.src / 2) = 2 ∧ chaseClosed h st) := by
    rcases hOC with hO | hC
    · have hO2 := hO
      simp only [chaseOpen, hr1, reduceIte] at hO2
      have hpos_some : (aget st.part.ps st.pos).isSome = true :=
        aget_isSome_of_rCount_pos _ _ (by have := hO2.2.1.2.2; omega)
      have hp₀pos : p₀ = st.pos := by
        rw [if_pos hpos_some] at hposbind
        exact (Option.some.inj hposbind).symm
      have hq : ke0.2.src / 2 = st.pos := hp₀.trans hp₀pos
      refine Or.inl ⟨?_, ?_, ?_, hq, hO⟩
      · rw [hq]
        exact hO2.2.1.1
      · rw [hq]
        exact hO2.2.1.2.1
      · rw [hq]
        exact hO2.2.1.2.2
    · have hC2 := hC
      simp only [chaseClosed] at hC2
      have hfd := hC2.1 (ke0.2.src / 2) hdlt
      simp only [fdS] at hfd
      rcases hfd with hfd | hfd
      · exact Or.inr ⟨hfd.1, hfd.2.1, hfd.2.2, hC⟩
      · exact absurd hfd.2.2 (by omega)
  have hfreeA : dstCount st.Pa (ke0.2.dst / 2) = 0 := by
    rcases hOC with hO | hC
    · simp only [chaseOpen, hr1, reduceIte] at hO
      rcases hO.2.2 with ⟨w, hwlt, hwne, hdgl, hfS, hfD⟩ | ⟨w, hwlt, hdgl, hfS, hfD⟩
      · have hp := hfD (ke0.2.dst / 2) hdstlt
        simp only [fdD] at hp
        omega
      · by_cases hcw : ke0.2.dst / 2 = w
        · simp only [dglD] at hdgl
          rw [hcw]
          exact hdgl.1
        · have hp := hfD (ke0.2.dst / 2) hdstlt hcw
          simp only [fdD] at hp
          omega
    · simp only [chaseClosed] at hC
      have hp := hC.2 (ke0.2.dst / 2) hdstlt
      simp only [fdD] at hp
      omega
  obtain ⟨hPa', hPaS, hPaD, hPaL⟩ :=
    insert_good h st.Pa ke0.2 hPa hfreeA hke0p.2.2.1 hke0p.2.2.2
  obtain ⟨part', hdel, hdbl, hPG', hrS', hrD', hhasS', hhasD'⟩ :=
    delete_good h st.part ke0.2 hPG hsHase hdHase
  have hSa : ∀ c, c ≠ ke0.2.src / 2 →
      srcCount (st.Pa.insert ke0.2) c = srcCount st.Pa c := by
    intro c hc
    rw [hPaS c, if_neg hc]
    omega
  have hSae : srcCount (st.Pa.insert ke0.2) (ke0.2.src / 2) =
      srcCount st.Pa (ke0.2.src / 2) + 1 := by
    rw [hPaS _, if_pos rfl]
  have hDa : ∀ c, c ≠ ke0.2.dst / 2 →
      dstCount (st.Pa.insert ke0.2) c = dstCount st.Pa c := by
    intro c hc
    rw [hPaD c, if_neg hc]
    omega
  have hDae : dstCount (st.Pa.insert ke0.2) (ke0.2.dst / 2) =
      dstCount st.Pa (ke0.2.dst / 2) + 1 := by
    rw [hPaD _, if_pos rfl]
  have hrSn : ∀ c, c ≠ ke0.2.src / 2 →
      rCount part'.ps c = rCount st.part.ps c := by
    intro c hc
    rw [hrS' c, if_neg hc]
    omega
  have hrSe : rCount part'.ps (ke0.2.src / 2) + 1 =
      rCount st.part.ps (ke0.2.src / 2) := by
    have h1 := hrS' (ke0.2.src / 2)
    rw [if_pos rfl] at h1
    omega
  have hrDn : ∀ c, c ≠ ke0.2.dst / 2 →
      rCount part'.pd c = rCount st.part.pd c := by
    intro c hc
    rw [hrD' c, if_neg hc]
    omega
  have hrDe : rCount part'.pd (ke0.2.dst / 2) + 1 =
      rCount st.part.pd (ke0.2.dst / 2) := by
    have h1 := hrD' (ke0.2.dst / 2)
    rw [if_pos rfl] at h1
    omega
  have hsS' : sumR part'.ps h = rem := by
    have := sumR_dec st.part.ps part'.ps h (ke0.2.src / 2) hdlt hrpos hrS'
    omega
  have hsD' : sumR part'.pd h = rem := by
    have := sumR_dec st.part.pd part'.pd h (ke0.2.dst / 2) hdstlt hrposD hrD'
    omega
  refine ⟨part', ke0.2, ?_, ?_, hdbl⟩
  · unfold chaseStep
    dsimp only
    rw [hr1]
    simp only [if_neg (by omega : ¬ (1 : Nat) = 0),
      if_neg (by omega : ¬ (1 + 1) % 2 = 1)]
    by_cases hck : (aget st.part.ps st.pos).isSome = true
    · rw [if_pos hck] at hposbind
      rw [if_pos hck]
      simp only [Option.bind_eq_bind, Option.some_bind]
      rw [(Option.some.inj hposbind : st.pos = p₀), hcellq]
      simp only [Option.some_bind]
      rw [hhead]
      simp only [Option.some_bind]
      rw [hdel]
      simp only [Option.some_bind, Option.pure_def]
    · rw [if_neg hck] at hposbind
      rw [if_neg hck, hposbind]
      simp only [Option.bind_eq_bind, Option.some_bind]
      rw [hcellq]
      simp only [Option.some_bind]
      rw [hhead]
      simp only [Option.some_bind]
      rw [hdel]
      simp only [Option.some_bind, Option.pure_def]
  · refine ⟨hPG', hPa', hPb, Or.inl rfl, hsS', hsD', ?_⟩
    rcases hclass with ⟨ha1, hb1, hr01, hpq, hO⟩ | ⟨ha0, hb0, hr2, hC⟩
    · -- mid-cycle pick at the source-side thread cell
      simp only [chaseOpen, hr1, reduceIte] at hO
      rcases hO.2.2 with ⟨w, hwlt, hwne, hdgl, hfS, hfD⟩ | ⟨w, hwlt, hdgl, hfS, hfD⟩
      · -- dangling cell on the source side: chase continues to the
        -- destination side, dangle survives
        simp only [dglS] at hdgl
        have hwq : w ≠ ke0.2.src / 2 := fun he => hwne (he.trans hpq)
        refine Or.inl ?_
        simp only [chaseOpen, reduceIte]
        have hfresh : dstCount st.Pa (ke0.2.dst / 2) = 0 ∧
            dstCount st.Pb (ke0.2.dst / 2) = 0 ∧
            rCount st.part.pd (ke0.2.dst / 2) = 2 := by
          have hp := hfD _ hdstlt
          simp only [fdD] at hp
          omega
        refine ⟨hdstlt, ?_, Or.inl ⟨w, hwlt, ?_, ?_, ?_⟩⟩
        · simp only [threadD]
          refine ⟨?_, hfresh.2.1, ?_⟩
          · rw [hDae, hfresh.1]
          · omega
        · simp only [dglS]
          refine ⟨?_, hdgl.2.1, ?_⟩
          · rw [hSa w hwq]
            exact hdgl.1
          · rw [hrSn w hwq]
            exact hdgl.2.2
        · intro c hc hcw
          simp only [fdS]
          by_cases hcp : c = ke0.2.src / 2
          · subst hcp
            omega
          · have hcq : c ≠ st.pos := fun he => hcp (he.trans hpq.symm)
            have hp := hfS c hc hcq hcw
            simp only [fdS] at hp
            have e1 := hSa c hcp
            have e2 := hrSn c hcp
            omega
        · intro c hc hcp
          have hp := hfD c hc
          simp only [fdD] at hp ⊢
          have e1 := hDa c hcp
          have e2 := hrDn c hcp
          omega
      · -- dangling cell on the destination side
        simp only [dglD] at hdgl
        by_cases hdw : ke0.2.dst / 2 = w
        · -- the cycle closes
          rw [← hdw] at hdgl
          refine Or.inr ⟨?_, ?_⟩
          · intro c hc
            simp only [fdS]
            by_cases hcp : c = ke0.2.src / 2
            · subst hcp
              omega
            · have hcq : c ≠ st.pos := fun he => hcp (he.trans hpq.symm)
              have hp := hfS c hc hcq
              simp only [fdS] at hp
              have e1 := hSa c hcp
              have e2 := hrSn c hcp
              omega
          · intro c hc
            simp only [fdD]
            by_cases hcp : c = ke0.2.dst / 2
            · subst hcp
              omega
            · have hcw : c ≠ w := fun he => hcp (he.trans hdw.symm)
              have hp := hfD c hc hcw
              simp only [fdD] at hp
              have e1 := hDa c hcp
              have e2 := hrDn c hcp
              omega
        · -- the chase continues, destination-side dangle survives
          refine Or.inl ?_
          simp only [chaseOpen, reduceIte]
          have hfresh : dstCount st.Pa (ke0.2.dst / 2) = 0 ∧
              dstCount st.Pb (ke0.2.dst / 2) = 0 ∧
              rCount st.part.pd (ke0.2.dst / 2) = 2 := by
            have hp := hfD _ hdstlt hdw
            simp only [fdD] at hp
            omega
          refine ⟨hdstlt, ?_, Or.inr ⟨w, hwlt, fun he => hdw he.symm, ?_, ?_, ?_⟩⟩
          · simp only [threadD]
            refine ⟨?_, hfresh.2.1, ?_⟩
            · rw [hDae, hfresh.1]
            · omega
          · simp only [dglD]
            refine ⟨?_, ?_, ?_⟩
            · rw [hDa w (fun he => hdw he.symm)]
              exact hdgl.1
            · exact hdgl.2.1
            · rw [hrDn w (fun he => hdw he.symm)]
              exact hdgl.2.2
          · intro c hc
            simp only [fdS]
            by_cases hcp : c = ke0.2.src / 2
            · subst hcp
              omega
            · have hcq : c ≠ st.pos := fun he => hcp (he.trans hpq.symm)
              have hp := hfS c hc hcq
              simp only [fdS] at hp
              have e1 := hSa c hcp
              have e2 := hrSn c hcp
              omega
          · intro c hc hcp hcw
            have hp := hfD c hc hcw
            simp only [fdD] at hp ⊢
            have e1 := hDa c hcp
            have e2 := hrDn c hcp
            omega
    · -- restart pick from a fresh source cell: it becomes the new dangle
      simp only [chaseClosed] at hC
      refine Or.inl ?_
      simp only [chaseOpen, reduceIte]
      have hfresh : dstCount st.Pa (ke0.2.dst / 2) = 0 ∧
          dstCount st.Pb (ke0.2.dst / 2) = 0 ∧
          rCount st.part.pd (ke0.2.dst / 2) = 2 := by
        have hp := hC.2 _ hdstlt
        simp only [fdD] at hp
        omega
      refine ⟨hdstlt, ?_, Or.inl ⟨ke0.2.src / 2, hdlt, ?_, ?_, ?_⟩⟩
      · simp only [threadD]
        refine ⟨?_, hfresh.2.1, ?_⟩
        · rw [hDae, hfresh.1]
        · omega
      · simp only [dglS]
        refine ⟨?_, ?_, ?_⟩
        · rw [hSae, ha0]
        · exact hb0
        · omega
      · intro c hc hcw
        have hp := hC.1 c hc
        simp only [fdS] at hp ⊢
        have e1 := hSa c hcw
        have e2 := hrSn c hcw
        omega
      · intro c hc hcp
        have hp := hC.2 c hc
        simp only [fdD] at hp ⊢
        have e1 := hDa c hcp
        have e2 := hrDn c hcp
        omega

theorem foldlM_const_total {α β : Type} (g : β → Option β) (P : Nat → β → Prop)
    (hstep : ∀ n b, P (n + 1) b → ∃ b', g b = some b' ∧ P n b') :
    ∀ (l : List α) (b0 : β), P l.length b0 →
      ∃ bf, l.foldlM (fun b _ => g b) b0 = some bf ∧ P 0 bf
  | [], b0, h0 => ⟨b0, by simp, h0⟩
  | a :: t, b0, h0 => by
    obtain ⟨b1, hg, h1⟩ := hstep t.length b0 (by simpa using h0)
    obtain ⟨bf, hf, hP⟩ := foldlM_const_total g P hstep t b1 h1
    refine ⟨bf, ?_, hP⟩
    rw [List.foldlM_cons, hg]
    simpa using hf

/-- The chase loop runs to completion from any invariant state, ending
with every cell fully split. -/
theorem chase_total (hh oth : Nat) (init : ChaseSt)
    (hinv : ChaseInv hh oth init) :
    ∃ fin, (List.range oth).foldlM (fun c _ => chaseStep c) init = some fin ∧
      ChaseInv hh 0 fin := by
  refine foldlM_const_total chaseStep (fun n b => ChaseInv hh n b) ?_
    (List.range oth) init (by simpa using hinv)
  intro n b hP
  rcases hP.2.2.2.1 with hr | hr
  · obtain ⟨part', e, heq, hinv', -⟩ := chaseStep_preserve0 hh n b hP hr
    exact ⟨_, heq, hinv'⟩
  · obtain ⟨part', e, heq, hinv', -⟩ := chaseStep_preserve1 hh n b hP hr
    exact ⟨_, heq, hinv'⟩

/-! ### Describing the partition output exactly -/

theorem foldlM_prefix_inv {α β : Type} (f : β → α → Option β)
    (P : List α → β → Prop) (L : List α) :
    ∀ (l done : List α) (b0 bf : β), done ++ l = L →
      l.foldlM f b0 = some bf → P done b0 →
      (∀ pre x suf b b', pre ++ x :: suf = L → P pre b → f b x = some b' →
        P (pre ++ [x]) b') →
      P L bf
  | [], done, b0, bf, hL, h, h0, _ => by
    simp only [List.foldlM_nil, Option.pure_def, Option.some.injEq] at h
    subst h
    rw [← hL]
    simpa using h0
  | a :: t, done, b0, bf, hL, h, h0, hstep => by
    rw [List.foldlM_cons] at h
    obtain ⟨b1, h1, h2⟩ := bind_some_inv h
    exact foldlM_prefix_inv f P L t (done ++ [a]) b1 bf
      (by rw [← hL]; simp) h2
      (hstep done a t b0 b1 hL h0 h1) hstep

theorem aget_map_nil {α : Type} : ∀ (ns : List Nat) (c : Nat), c ∈ ns →
    aget (ns.map (fun x => (x, ([] : List (Nat × α))))) c = some []
  | [], c, h => absurd h (by simp)
  | a :: t, c, h => by
    simp only [List.map_cons]
    rw [aget]
    by_cases hac : a = c
    · rw [if_pos hac]
    · rw [if_neg hac]
      refine aget_map_nil t c ?_
      rcases List.mem_cons.1 h with h1 | h1
      · exact absurd h1.symm hac
      · exact h1

theorem keys_aset_nodup {κ α : Type} [DecidableEq κ] (l : List (κ × α))
    (k : κ) (v : α) (h : (l.map (fun kv => kv.1)).Nodup) :
    ((aset l k v).map (fun kv => kv.1)).Nodup := by
  by_cases hs : (aget l k).isSome = true
  · rw [keys_aset_of_isSome l k v hs]
    exact h
  · have hn : aget l k = none := by
      cases hq : aget l k with
      | none => rfl
      | some w => rw [hq] at hs; simp at hs
    rw [aset_of_aget_none l k v hn, List.map_append]
    simp only [List.map_cons, List.map_nil]
    refine h.append (List.nodup_singleton _) ?_
    intro a ha hm
    simp only [List.mem_singleton] at hm
    subst hm
    exact (aget_eq_none_iff l a).1 hn ha

theorem count_range (x n : Nat) :
    (List.range n).count x = if x < n then 1 else 0 := by
  by_cases h : x < n
  · rw [if_pos h]
    have h1 := List.nodup_iff_count_le_one.1 (List.nodup_range n) x
    have h2 : 0 < (List.range n).count x :=
      List.count_pos_iff.2 (List.mem_range.2 h)
    omega
  · rw [if_neg h, List.count_eq_zero]
    exact fun hm => h (List.mem_range.1 hm)

theorem countP_div2 : ∀ (l : List Nat) (c : Nat),
    l.countP (fun s => s / 2 = c) = l.count (2 * c) + l.count (2 * c + 1)
  | [], c => by simp
  | a :: t, c => by
    rw [List.countP_cons, List.count_cons, List.count_cons, countP_div2 t c]
    simp only [decide_eq_true_eq, beq_iff_eq]
    split_ifs with h1 h2 h3 <;> omega

theorem countP_src_halved (E : List Entry) (hh : Nat)
    (hperm : List.Perm (E.map (fun e => e.src)) (List.range (2 * hh)))
    (c : Nat) (hc : c < hh) :
    E.countP (fun e => e.src / 2 = c) = 2 := by
  have h1 : E.countP (fun e => e.src / 2 = c) =
      (E.map (fun e => e.src)).countP (fun s => s / 2 = c) := by
    rw [List.countP_map]
    rfl
  rw [h1, hperm.countP_eq, countP_div2, count_range, count_range,
    if_pos (by omega), if_pos (by omega)]

theorem countP_dst_halved (E : List Entry) (hh : Nat)
    (hperm : List.Perm (E.map (fun e => e.dst)) (List.range (2 * hh)))
    (c : Nat) (hc : c < hh) :
    E.countP (fun e => e.dst / 2 = c) = 2 := by
  have h1 : E.countP (fun e => e.dst / 2 = c) =
      (E.map (fun e => e.dst)).countP (fun s => s / 2 = c) := by
    rw [List.countP_map]
    rfl
  rw [h1, hperm.countP_eq, countP_div2, count_range, count_range,
    if_pos (by omega), if_pos (by omega)]

theorem sub_filter_all {α : Type} (p q : α → Bool)
    (himp : ∀ x, q x = true → p x = true) :
    ∀ (l : List α), l.countP p ≤ l.countP q →
      ∀ x ∈ l, p x = true → q x = true
  | [], _, x, hx, _ => absurd hx (by simp)
  | a :: t, hc, x, hx, hp => by
    rw [List.countP_cons, List.countP_cons] at hc
    have hmono : t.countP q ≤ t.countP p :=
      List.countP_mono_left (fun y _ hqy => himp y hqy)
    rcases List.mem_cons.1 hx with h1 | h1
    · subst h1
      by_cases hq : q x = true
      · exact hq
      · rw [if_pos hp, if_neg hq] at hc
        omega
    · have hc' : t.countP p ≤ t.countP q := by
        by_cases hpa : p a = true
        · by_cases hqa : q a = true
          · rw [if_pos hpa, if_pos hqa] at hc
            omega
          · rw [if_pos hpa, if_neg hqa] at hc
            omega
        · by_cases hqa : q a = true
          · exact absurd (himp a hqa) hpa
          · rw [if_neg hpa, if_neg hqa] at hc
            omega
      exact sub_filter_all p q himp t hc' x h1 hp

theorem foldl_aset_map {κ α β : Type} [DecidableEq κ] (key : β → κ) (val : β → α) :
    ∀ (l : List β) (acc : List (κ × α)),
      (∀ x ∈ l, aget acc (key x) = none) → (l.map key).Nodup →
      l.foldl (fun a x => aset a (key x) (val x)) acc =
        acc ++ l.map (fun x => (key x, val x))
  | [], acc, _, _ => by simp
  | x :: t, acc, hfresh, hnd => by
    rw [List.foldl_cons, aset_of_aget_none _ _ _ (hfresh x (List.mem_cons_self _ _))]
    simp only [List.map_cons, List.nodup_cons] at hnd
    rw [foldl_aset_map key val t (acc ++ [(key x, val x)]) ?_ hnd.2]
    · simp
    · intro y hy
      rw [aget_eq_none_iff]
      simp only [List.map_append, List.mem_append]
      rintro (hm | hm)
      · have := hfresh y (List.mem_cons_of_mem _ hy)
        rw [aget_eq_none_iff] at this
        exact this hm
      · simp only [List.map_cons, List.map_nil, List.mem_singleton] at hm
        exact hnd.1 (hm ▸ List.mem_map_of_mem key hy)

theorem foldlM_prefix_total {α β : Type} (f : β → α → Option β)
    (P : List α → β → Prop) (L : List α) :
    ∀ (l done : List α) (b0 : β), done ++ l = L → P done b0 →
      (∀ pre x suf b, pre ++ x :: suf = L → P pre b →
        ∃ b', f b x = some b' ∧ P (pre ++ [x]) b') →
      ∃ bf, l.foldlM f b0 = some bf ∧ P L bf
  | [], done, b0, hL, h0, _ => ⟨b0, by simp, by rw [← hL]; simpa using h0⟩
  | a :: t, done, b0, hL, h0, hstep => by
    obtain ⟨b1, hf, h1⟩ := hstep done a t b0 hL h0
    obtain ⟨bf, hff, hPf⟩ := foldlM_prefix_total f P L t (done ++ [a]) b1
      (by rw [← hL]; simp) h1 hstep
    refine ⟨bf, ?_, hPf⟩
    rw [List.foldlM_cons, hf]
    simpa using hff

/-- `BSPMat.partition` on a valid permutation: it succeeds, every cell
holds exactly the entries with that halved id (in dict order, keyed by
the full id), and every key in `dbl` is a cell pair hit at least
twice. -/
theorem partition_descr (hh : Nat) (m : BSPMat)
    (hsz : m.size = 2 * hh)
    (hsp : List.Perm (m.d.map (fun kv => kv.2.src)) (List.range (2 * hh)))
    (hdp : List.Perm (m.d.map (fun kv => kv.2.dst)) (List.range (2 * hh))) :
    ∃ part, m.partition = some part ∧
      part.ps.map (fun c => c.1) = List.range hh ∧
      part.pd.map (fun c => c.1) = List.range hh ∧
      (∀ c, c < hh → aget part.ps c =
        some (((m.d.map (fun kv => kv.2)).filter (fun e => e.src / 2 = c)).map
          (fun e => (e.src, e)))) ∧
      (∀ c, c < hh → aget part.pd c =
        some (((m.d.map (fun kv => kv.2)).filter (fun e => e.dst / 2 = c)).map
          (fun e => (e.dst, e)))) ∧
      (part.dbl.map (fun kv => kv.1)).Nodup ∧
      (∀ p ∈ part.dbl.map (fun kv => kv.1),
        2 ≤ ((m.d.map (fun kv => kv.2)).map
          (fun e => (e.src / 2, e.dst / 2))).count p) := by
  have hndS : (m.d.map (fun kv => kv.2.src)).Nodup :=
    (hsp.nodup_iff).2 (List.nodup_range _)
  have hndD : (m.d.map (fun kv => kv.2.dst)).Nodup :=
    (hdp.nodup_iff).2 (List.nodup_range _)
  have hsz2 : m.size / 2 = hh := by omega
  obtain ⟨stf, hfold, hQ⟩ := foldlM_prefix_total partStep
    (fun pre (acc : PartState × List (Nat × Nat)) =>
      acc.1.ps.map (fun c => c.1) = List.range hh ∧
      acc.1.pd.map (fun c => c.1) = List.range hh ∧
      (∀ c, c < hh → aget acc.1.ps c =
        some (((pre.map (fun kv => kv.2)).filter (fun e => e.src / 2 = c)).map
          (fun e => (e.src, e)))) ∧
      (∀ c, c < hh → aget acc.1.pd c =
        some (((pre.map (fun kv => kv.2)).filter (fun e => e.dst / 2 = c)).map
          (fun e => (e.dst, e)))) ∧
      (acc.1.dbl.map (fun kv => kv.1)).Nodup ∧
      (∀ p ∈ acc.1.dbl.map (fun kv => kv.1),
        2 ≤ ((pre.map (fun kv => kv.2)).map
          (fun e => (e.src / 2, e.dst / 2))).count p) ∧
      (∀ p ∈ acc.2, p ∈ (pre.map (fun kv => kv.2)).map
        (fun e => (e.src / 2, e.dst / 2))))
    m.d m.d []
    ((⟨(List.range hh).map (fun x => (x, [])),
       (List.range hh).map (fun x => (x, [])), []⟩ : PartState), []) rfl
    (by
      refine ⟨?_, ?_, ?_, ?_, by simp, by simp, by simp⟩
      · rw [List.map_map]
        exact List.map_id _
      · rw [List.map_map]
        exact List.map_id _
      · intro c hc
        rw [aget_map_nil _ c (List.mem_range.2 hc)]
        simp
      · intro c hc
        rw [aget_map_nil _ c (List.mem_range.2 hc)]
        simp)
    (by
      intro pre x suf b hLpre hQ
      obtain ⟨hkS, hkD, hgS, hgD, hdN, hdC, hseen⟩ := hQ
      have hxm : x ∈ m.d := by
        rw [← hLpre]
        exact List.mem_append.2 (Or.inr (List.mem_cons_self _ _))
      have hsrc_lt : x.2.src < 2 * hh :=
        List.mem_range.1 (hsp.mem_iff.1 (List.mem_map_of_mem _ hxm))
      have hdst_lt : x.2.dst < 2 * hh :=
        List.mem_range.1 (hdp.mem_iff.1 (List.mem_map_of_mem _ hxm))
      have hns : x.2.src / 2 < hh := Nat.div_lt_of_lt_mul (by omega)
      have hnd : x.2.dst / 2 < hh := Nat.div_lt_of_lt_mul (by omega)
      have hfreshS : x.2.src ∉ pre.map (fun kv => kv.2.src) := by
        have hx := hndS
        rw [← hLpre, List.map_append, List.map_cons, List.nodup_append] at hx
        exact fun hm => hx.2.2 hm (List.mem_cons_self _ _)
      have hfreshD : x.2.dst ∉ pre.map (fun kv => kv.2.dst) := by
        have hx := hndD
        rw [← hLpre, List.map_append, List.map_cons, List.nodup_append] at hx
        exact fun hm => hx.2.2 hm (List.mem_cons_self _ _)
      have hcsq := hgS _ hns
      have hcdq := hgD _ hnd
      have hagS : aget (((pre.map (fun kv => kv.2)).filter
          (fun e => e.src / 2 = x.2.src / 2)).map (fun e => (e.src, e)))
          x.2.src = none := by
        rw [aget_eq_none_iff]
        intro hm
        rcases List.mem_map.1 hm with ⟨ke, hkem, hkeq⟩
        rcases List.mem_map.1 hkem with ⟨e', he'm, he'q⟩
        have he's : e'.src = x.2.src := by rw [← hkeq, ← he'q]
        have he'pre : e' ∈ pre.map (fun kv => kv.2) := List.mem_of_mem_filter he'm
        rcases List.mem_map.1 he'pre with ⟨kv', hkv'm, hkv'q⟩
        refine hfreshS ?_
        rw [← he's, ← hkv'q]
        exact List.mem_map_of_mem _ hkv'm
      have hagD : aget (((pre.map (fun kv => kv.2)).filter
          (fun e => e.dst / 2 = x.2.dst / 2)).map (fun e => (e.dst, e)))
          x.2.dst = none := by
        rw [aget_eq_none_iff]
        intro hm
        rcases List.mem_map.1 hm with ⟨ke, hkem, hkeq⟩
        rcases List.mem_map.1 hkem with ⟨e', he'm, he'q⟩
        have he's : e'.dst = x.2.dst := by rw [← hkeq, ← he'q]
        have he'pre : e' ∈ pre.map (fun kv => kv.2) := List.mem_of_mem_filter he'm
        rcases List.mem_map.1 he'pre with ⟨kv', hkv'm, hkv'q⟩
        refine hfreshD ?_
        rw [← he's, ← hkv'q]
        exact List.mem_map_of_mem _ hkv'm
      have hnewS : aset (((pre.map (fun kv => kv.2)).filter
          (fun e => e.src / 2 = x.2.src / 2)).map (fun e => (e.src, e)))
          x.2.src x.2 =
          (((pre ++ [x]).map (fun kv => kv.2)).filter
            (fun e => e.src / 2 = x.2.src / 2)).map (fun e => (e.src, e)) := by
        rw [aset_of_aget_none _ _ _ hagS, List.map_append, List.filter_append,
          List.map_append]
        simp
      have hnewD : aset (((pre.map (fun kv => kv.2)).filter
          (fun e => e.dst / 2 = x.2.dst / 2)).map (fun e => (e.dst, e)))
          x.2.dst x.2 =
          (((pre ++ [x]).map (fun kv => kv.2)).filter
            (fun e => e.dst / 2 = x.2.dst / 2)).map (fun e => (e.dst, e)) := by
        rw [aset_of_aget_none _ _ _ hagD, List.map_append, List.filter_append,
          List.map_append]
        simp
      have hkS2 : (aset b.1.ps (x.2.src / 2)
          (aset (((pre.map (fun kv => kv.2)).filter
            (fun e => e.src / 2 = x.2.src / 2)).map (fun e => (e.src, e)))
            x.2.src x.2)).map (fun c => c.1) = List.range hh := by
        rw [keys_aset_of_isSome _ _ _ (by rw [hcsq]; rfl), hkS]
      have hkD2 : (aset b.1.pd (x.2.dst / 2)
          (aset (((pre.map (fun kv => kv.2)).filter
            (fun e => e.dst / 2 = x.2.dst / 2)).map (fun e => (e.dst, e)))
            x.2.dst x.2)).map (fun c => c.1) = List.range hh := by
        rw [keys_aset_of_isSome _ _ _ (by rw [hcdq]; rfl), hkD]
      have hgS2 : ∀ c, c < hh → aget (aset b.1.ps (x.2.src / 2)
          (aset (((pre.map (fun kv => kv.2)).filter
            (fun e => e.src / 2 = x.2.src / 2)).map (fun e => (e.src, e)))
            x.2.src x.2)) c =
          some ((((pre ++ [x]).map (fun kv => kv.2)).filter
            (fun e => e.src / 2 = c)).map (fun e => (e.src, e))) := by
        intro c hc
        by_cases hcc : c = x.2.src / 2
        · subst hcc
          rw [aget_aset, if_pos rfl, hnewS]
        · rw [aget_aset, if_neg (fun he => hcc he.symm), hgS c hc]
          have hfx : ¬ x.2.src / 2 = c := fun he => hcc he.symm
          rw [List.map_append, List.filter_append]
          simp [hfx]
      have hgD2 : ∀ c, c < hh → aget (aset b.1.pd (x.2.dst / 2)
          (aset (((pre.map (fun kv => kv.2)).filter
            (fun e => e.dst / 2 = x.2.dst / 2)).map (fun e => (e.dst, e)))
            x.2.dst x.2)) c =
          some ((((pre ++ [x]).map (fun kv => kv.2)).filter
            (fun e => e.dst / 2 = c)).map (fun e => (e.dst, e))) := by
        intro c hc
        by_cases hcc : c = x.2.dst / 2
        · subst hcc
          rw [aget_aset, if_pos rfl, hnewD]
        · rw [aget_aset, if_neg (fun he => hcc he.symm), hgD c hc]
          have hfx : ¬ x.2.dst / 2 = c := fun he => hcc he.symm
          rw [List.map_append, List.filter_append]
          simp [hfx]
      have hpairs : ((pre ++ [x]).map (fun kv => kv.2)).map
          (fun e => (e.src / 2, e.dst / 2)) =
          ((pre.map (fun kv => kv.2)).map (fun e => (e.src / 2, e.dst / 2))) ++
            [(x.2.src / 2, x.2.dst / 2)] := by
        rw [List.map_append, List.map_append]
        rfl
      by_cases hsn : (x.2.src / 2, x.2.dst / 2) ∈ b.2
      · refine ⟨(⟨_, _, aset b.1.dbl (x.2.src / 2, x.2.dst / 2) true⟩, b.2),
          ?_, hkS2, hkD2, hgS2, hgD2, ?_, ?_, ?_⟩
        · unfold partStep
          dsimp only
          rw [hcsq]
          simp only [Option.bind_eq_bind, Option.some_bind]
          rw [hcdq]
          simp only [Option.some_bind]
          rw [if_pos hsn]
          rfl
        · exact keys_aset_nodup _ _ _ hdN
        · intro p hp
          rcases List.mem_map.1 hp with ⟨kv, hkvm, hkvq⟩
          rcases mem_aset _ _ _ _ hkvm with h1 | h1
          · have hpq : p = (x.2.src / 2, x.2.dst / 2) := by
              rw [← hkvq, h1]
            rw [hpairs, List.count_append, hpq]
            have h2 : 0 < ((pre.map (fun kv => kv.2)).map
                (fun e => (e.src / 2, e.dst / 2))).count
                  (x.2.src / 2, x.2.dst / 2) :=
              List.count_pos_iff.2 (hseen _ hsn)
            have h3 : ((x.2.src / 2, x.2.dst / 2) ==
                (x.2.src / 2, x.2.dst / 2)) = true := by simp
            rw [List.count_singleton, if_pos h3]
            omega
          · have h2 := hdC p (by rw [← hkvq]; exact List.mem_map_of_mem _ h1)
            rw [hpairs, List.count_append]
            omega
        · intro p hp
          rw [hpairs]
          exact List.mem_append.2 (Or.inl (hseen p hp))
      · refine ⟨(⟨_, _, b.1.dbl⟩, (x.2.src / 2, x.2.dst / 2) :: b.2),
          ?_, hkS2, hkD2, hgS2, hgD2, hdN, ?_, ?_⟩
        · unfold partStep
          dsimp only
          rw [hcsq]
          simp only [Option.bind_eq_bind, Option.some_bind]
          rw [hcdq]
          simp only [Option.some_bind]
          rw [if_neg hsn]
          rfl
        · intro p hp
          have h2 := hdC p hp
          rw [hpairs, List.count_append]
          omega
        · intro p hp
          rcases List.mem_cons.1 hp with h1 | h1
          · rw [hpairs]
            refine List.mem_append.2 (Or.inr ?_)
            rw [h1]
            exact List.mem_singleton.2 rfl
          · rw [hpairs]
            exact List.mem_append.2 (Or.inl (hseen p h1)))
  refine ⟨stf.1, ?_, hQ.1, hQ.2.1, hQ.2.2.1, hQ.2.2.2.1, hQ.2.2.2.2.1,
    hQ.2.2.2.2.2.1⟩
  unfold BSPMat.partition
  dsimp only
  simp only [hsz2]
  rw [hfold]
  simp

theorem sum_map_const_two :
    ∀ n : Nat, ((List.range n).map (fun _ => (2 : Nat))).sum = 2 * n
  | 0 => rfl
  | n + 1 => by
    rw [List.range_succ, List.map_append, List.sum_append, sum_map_const_two n]
    simp
    omega

theorem sumR_const2 (P : Cells) (hh : Nat)
    (hr : ∀ c, c < hh → rCount P c = 2) : sumR P hh = 2 * hh := by
  unfold sumR
  rw [List.map_congr_left (fun c hc => hr c (List.mem_range.1 hc))]
  exact sum_map_const_two hh

/-- Consolidated facts about a successful partition of a valid
permutation: structural soundness, every cell holding exactly two
entries, and every doubled cell consisting of two entries that agree on
both halved ids. -/
theorem partition_good (hh : Nat) (m : BSPMat)
    (hsz : m.size = 2 * hh)
    (hsp : List.Perm (m.d.map (fun kv => kv.2.src)) (List.range (2 * hh)))
    (hdp : List.Perm (m.d.map (fun kv => kv.2.dst)) (List.range (2 * hh))) :
    ∃ part, m.partition = some part ∧ PartGood hh part ∧
      (∀ c, c < hh → rCount part.ps c = 2) ∧
      (∀ c, c < hh → rCount part.pd c = 2) ∧
      part.pd.map (fun c => c.1) = List.range hh ∧
      (part.dbl.map (fun kv => kv.1)).Nodup ∧
      (∀ kv ∈ part.dbl, kv.1.2 < hh ∧
        (∀ e, pdHas part e → e.dst / 2 = kv.1.2 → e.src / 2 = kv.1.1)) ∧
      sumR part.ps hh = 2 * hh ∧ sumR part.pd hh = 2 * hh := by
  obtain ⟨part, hpart, hkS, hkD, hgS, hgD, hdN, hdC⟩ :=
    partition_descr hh m hsz hsp hdp
  have hndS : (m.d.map (fun kv => kv.2.src)).Nodup :=
    (hsp.nodup_iff).2 (List.nodup_range _)
  have hndD : (m.d.map (fun kv => kv.2.dst)).Nodup :=
    (hdp.nodup_iff).2 (List.nodup_range _)
  have hEs : ∀ e ∈ m.d.map (fun kv => kv.2), e.src < 2 * hh := by
    intro e he
    rcases List.mem_map.1 he with ⟨kv, hkvm, hkvq⟩
    refine List.mem_range.1 (hsp.mem_iff.1 ?_)
    rw [← hkvq]
    exact List.mem_map_of_mem _ hkvm
  have hEd : ∀ e ∈ m.d.map (fun kv => kv.2), e.dst < 2 * hh := by
    intro e he
    rcases List.mem_map.1 he with ⟨kv, hkvm, hkvq⟩
    refine List.mem_range.1 (hdp.mem_iff.1 ?_)
    rw [← hkvq]
    exact List.mem_map_of_mem _ hkvm
  have hsrcmapmap : ∀ (p : Entry → Bool),
      (((m.d.map (fun kv => kv.2)).filter p).map (fun e => e.src)).Nodup := by
    intro p
    have h1 : ((m.d.map (fun kv => kv.2)).map (fun e => e.src)).Nodup := by
      rw [List.map_map]
      exact hndS
    exact h1.sublist ((List.filter_sublist _).map _)
  have hdstmapmap : ∀ (p : Entry → Bool),
      (((m.d.map (fun kv => kv.2)).filter p).map (fun e => e.dst)).Nodup := by
    intro p
    have h1 : ((m.d.map (fun kv => kv.2)).map (fun e => e.dst)).Nodup := by
      rw [List.map_map]
      exact hndD
    exact h1.sublist ((List.filter_sublist _).map _)
  have hlenS : ∀ c, c < hh →
      ((m.d.map (fun kv => kv.2)).filter (fun e => e.src / 2 = c)).length = 2 := by
    intro c hc
    rw [← List.countP_eq_length_filter]
    exact countP_src_halved _ hh (by rw [List.map_map]; exact hsp) c hc
  have hlenD : ∀ c, c < hh →
      ((m.d.map (fun kv => kv.2)).filter (fun e => e.dst / 2 = c)).length = 2 := by
    intro c hc
    rw [← List.countP_eq_length_filter]
    exact countP_dst_halved _ hh (by rw [List.map_map]; exact hdp) c hc
  have hrS : ∀ c, c < hh → rCount part.ps c = 2 := by
    intro c hc
    rw [rCount_of_aget _ _ _ (hgS c hc), List.length_map]
    exact hlenS c hc
  have hrD : ∀ c, c < hh → rCount part.pd c = 2 := by
    intro c hc
    rw [rCount_of_aget _ _ _ (hgD c hc), List.length_map]
    exact hlenD c hc
  have hmemS : ∀ ccell ∈ part.ps, ccell.1 < hh ∧
      ccell.2 = ((m.d.map (fun kv => kv.2)).filter
        (fun e => e.src / 2 = ccell.1)).map (fun e => (e.src, e)) := by
    intro ccell hcm
    have hck : ccell.1 ∈ List.range hh := by
      rw [← hkS]
      exact List.mem_map_of_mem _ hcm
    have hclt := List.mem_range.1 hck
    have hknd : (part.ps.map (fun c => c.1)).Nodup := by
      rw [hkS]
      exact List.nodup_range _
    have := aget_of_mem_nodup part.ps ccell hcm hknd
    rw [hgS _ hclt] at this
    exact ⟨hclt, Option.some.inj this.symm⟩
  have hmemD : ∀ ccell ∈ part.pd, ccell.1 < hh ∧
      ccell.2 = ((m.d.map (fun kv => kv.2)).filter
        (fun e => e.dst / 2 = ccell.1)).map (fun e => (e.dst, e)) := by
    intro ccell hcm
    have hck : ccell.1 ∈ List.range hh := by
      rw [← hkD]
      exact List.mem_map_of_mem _ hcm
    have hclt := List.mem_range.1 hck
    have hknd : (part.pd.map (fun c => c.1)).Nodup := by
      rw [hkD]
      exact List.nodup_range _
    have := aget_of_mem_nodup part.pd ccell hcm hknd
    rw [hgD _ hclt] at this
    exact ⟨hclt, Option.some.inj this.symm⟩
  have hpsHas_iff : ∀ e, psHas part e ↔ (e ∈ m.d.map (fun kv => kv.2) ∧
      e.src / 2 < hh) := by
    intro e
    constructor
    · rintro ⟨cell, hc1, hc2⟩
      have hin := aget_mem _ _ _ hc2
      have hcm := aget_mem _ _ _ hc1
      have := (hmemS _ hcm).2
      simp only at this
      rw [this] at hin
      rcases List.mem_map.1 hin with ⟨e', he'm, he'q⟩
      have he : e' = e := by
        have := congrArg Prod.snd he'q
        simpa using this
      subst he
      exact ⟨List.mem_of_mem_filter he'm, (hmemS _ hcm).1⟩
    · rintro ⟨hm, hlt⟩
      refine ⟨_, hgS _ hlt, ?_⟩
      refine aget_of_mem_nodup _ (e.src, e) ?_ ?_
      · refine List.mem_map.2 ⟨e, ?_, rfl⟩
        refine List.mem_filter.2 ⟨hm, by simp⟩
      · rw [List.map_map]
        exact hsrcmapmap _
  have hpdHas_iff : ∀ e, pdHas part e ↔ (e ∈ m.d.map (fun kv => kv.2) ∧
      e.dst / 2 < hh) := by
    intro e
    constructor
    · rintro ⟨cell, hc1, hc2⟩
      have hin := aget_mem _ _ _ hc2
      have hcm := aget_mem _ _ _ hc1
      have := (hmemD _ hcm).2
      simp only at this
      rw [this] at hin
      rcases List.mem_map.1 hin with ⟨e', he'm, he'q⟩
      have he : e' = e := by
        have := congrArg Prod.snd he'q
        simpa using this
      subst he
      exact ⟨List.mem_of_mem_filter he'm, (hmemD _ hcm).1⟩
    · rintro ⟨hm, hlt⟩
      refine ⟨_, hgD _ hlt, ?_⟩
      refine aget_of_mem_nodup _ (e.dst, e) ?_ ?_
      · refine List.mem_map.2 ⟨e, ?_, rfl⟩
        refine List.mem_filter.2 ⟨hm, by simp⟩
      · rw [List.map_map]
        exact hdstmapmap _
  have hgood : PartGood hh part := by
    refine ⟨by rw [hkS]; exact List.nodup_range _,
      by rw [hkD]; exact List.nodup_range _, ?_, ?_, ?_, ?_, ?_, ?_⟩
    · intro ccell hcm
      obtain ⟨hclt, hcq⟩ := hmemS _ hcm
      constructor
      · intro hnil
        have hms := hlenS _ hclt
        have hlen2 : ccell.2.length = 2 := by
          rw [hcq, List.length_map]
          exact hms
        rw [hnil] at hlen2
        simp at hlen2
      · intro ke hke
        rw [hcq] at hke
        rcases List.mem_map.1 hke with ⟨e', he'm, he'q⟩
        have hef := List.mem_filter.1 he'm
        refine ⟨by rw [← he'q], ?_, ?_, ?_⟩
        · rw [← he'q]
          simpa using hef.2
        · rw [← he'q]
          simp only
          exact hEs e' hef.1
        · rw [← he'q]
          simp only
          exact hEd e' hef.1
    · intro ccell hcm
      obtain ⟨hclt, hcq⟩ := hmemD _ hcm
      constructor
      · intro hnil
        have hms := hlenD _ hclt
        have hlen2 : ccell.2.length = 2 := by
          rw [hcq, List.length_map]
          exact hms
        rw [hnil] at hlen2
        simp at hlen2
      · intro ke hke
        rw [hcq] at hke
        rcases List.mem_map.1 hke with ⟨e', he'm, he'q⟩
        have hef := List.mem_filter.1 he'm
        refine ⟨by rw [← he'q], ?_, ?_, ?_⟩
        · rw [← he'q]
          simpa using hef.2
        · rw [← he'q]
          simp only
          exact hEs e' hef.1
        · rw [← he'q]
          simp only
          exact hEd e' hef.1
    · intro ccell hcm
      rw [(hmemS _ hcm).2, List.map_map]
      exact hsrcmapmap _
    · intro ccell hcm
      rw [(hmemD _ hcm).2, List.map_map]
      exact hdstmapmap _
    · intro e he
      rw [hpsHas_iff] at he
      rw [hpdHas_iff]
      exact ⟨he.1, Nat.div_lt_of_lt_mul (by have := hEd e he.1; omega)⟩
    · intro e he
      rw [hpdHas_iff] at he
      rw [hpsHas_iff]
      exact ⟨he.1, Nat.div_lt_of_lt_mul (by have := hEs e he.1; omega)⟩
  have hdbl2 : ∀ kv ∈ part.dbl, kv.1.2 < hh ∧
      (∀ e, pdHas part e → e.dst / 2 = kv.1.2 → e.src / 2 = kv.1.1) := by
    intro kv hkvm
    have hcnt := hdC kv.1 (List.mem_map_of_mem _ hkvm)
    have hcnt2 : 2 ≤ (m.d.map (fun kv => kv.2)).countP
        (fun e => (e.src / 2, e.dst / 2) = kv.1) := by
      have h1 : ((m.d.map (fun kv => kv.2)).map
          (fun e => (e.src / 2, e.dst / 2))).count kv.1 =
          (m.d.map (fun kv => kv.2)).countP
            (fun e => (e.src / 2, e.dst / 2) = kv.1) := by
        rw [List.count, List.countP_map]
        refine List.countP_congr ?_
        intro e he
        simp [Function.comp]
      rw [h1] at hcnt
      exact hcnt
    have hblt : kv.1.2 < hh := by
      have hpos : 0 < (m.d.map (fun kv => kv.2)).countP
          (fun e => (e.src / 2, e.dst / 2) = kv.1) := by omega
      rw [List.countP_pos] at hpos
      obtain ⟨e, hem, hep⟩ := hpos
      simp only [decide_eq_true_eq] at hep
      have : e.dst / 2 = kv.1.2 := by rw [← hep]
      rw [← this]
      exact Nat.div_lt_of_lt_mul (by have := hEd e hem; omega)
    refine ⟨hblt, ?_⟩
    intro e hpde hedst
    have hsub := sub_filter_all (fun e => e.dst / 2 = kv.1.2)
      (fun e => (e.src / 2, e.dst / 2) = kv.1)
      (by
        intro x hx
        simp only [decide_eq_true_eq] at hx ⊢
        rw [← hx])
      (m.d.map (fun kv => kv.2))
      (by
        have hdc : (m.d.map (fun kv => kv.2)).countP
            (fun e => e.dst / 2 = kv.1.2) = 2 := by
          rw [List.countP_eq_length_filter]
          exact hlenD _ hblt
        omega)
      e (by rw [hpdHas_iff] at hpde; exact hpde.1)
      (by simp [hedst])
    simp only [decide_eq_true_eq] at hsub
    have := congrArg Prod.fst hsub
    simpa using this
  exact ⟨part, hpart, hgood, hrS, hrD, hkD, hdN, hdbl2,
    sumR_const2 part.ps hh hrS, sumR_const2 part.pd hh hrD⟩

theorem rCount_le_sumR (P : Cells) (hh c : Nat) (hc : c < hh) :
    rCount P c ≤ sumR P hh := by
  unfold sumR
  exact List.single_le_sum (fun x _ => Nat.zero_le x) _
    (List.mem_map_of_mem _ (List.mem_range.2 hc))

/-- The doubled-cell phase: it succeeds, kills each doubled cell into
one `Pa` entry and one `Pb` entry, and leaves every cell untouched or
fully split. -/
theorem permutedbl_good (hh : Nat) (part : PartState) (hh1 : 1 ≤ hh)
    (hgood : PartGood hh part)
    (hrS : ∀ c, c < hh → rCount part.ps c = 2)
    (hrD : ∀ c, c < hh → rCount part.pd c = 2)
    (hkD : part.pd.map (fun c => c.1) = List.range hh)
    (hdN : (part.dbl.map (fun kv => kv.1)).Nodup)
    (hdbl : ∀ kv ∈ part.dbl, kv.1.2 < hh ∧
      (∀ e, pdHas part e → e.dst / 2 = kv.1.2 → e.src / 2 = kv.1.1)) :
    ∃ part2 Pa Pb sc oth,
      BSPMat.permutedbl part (2 * hh) ⟨[], [], 0⟩ ⟨[], [], 0⟩ =
        some (part2, Pa, Pb, sc, oth) ∧
      PartGood hh part2 ∧ PaGood hh Pa ∧ PaGood hh Pb ∧
      (∀ c, c < hh → fdS Pa Pb part2.ps c) ∧
      (∀ c, c < hh → fdD Pa Pb part2.pd c) ∧
      sumR part2.ps hh = sumR part2.pd hh ∧
      oth = sumR part2.pd hh - 1 ∧
      (sc = none → sumR part2.pd hh = 0) ∧
      (∀ s, sc = some s → (aget part2.pd s).isSome = true) := by
  have hPaEmpty : PaGood hh (⟨[], [], 0⟩ : BSPMat) := by
    intro kv hkv
    simp at hkv
  have hcnt0 : ∀ c, srcCount (⟨[], [], 0⟩ : BSPMat) c = 0 ∧
      dstCount (⟨[], [], 0⟩ : BSPMat) c = 0 := by
    intro c
    constructor <;> rfl
  by_cases hde : part.dbl.isEmpty
  · refine ⟨part, ⟨[], [], 0⟩, ⟨[], [], 0⟩, some 0, 2 * hh - 1, ?_,
      hgood, hPaEmpty, hPaEmpty, ?_, ?_, ?_, ?_, ?_, ?_⟩
    · unfold BSPMat.permutedbl
      rw [if_pos hde]
      rfl
    · intro c hc
      exact Or.inl ⟨(hcnt0 c).1, (hcnt0 c).1, hrS c hc⟩
    · intro c hc
      exact Or.inl ⟨(hcnt0 c).2, (hcnt0 c).2, hrD c hc⟩
    · rw [sumR_const2 _ _ hrS, sumR_const2 _ _ hrD]
    · rw [sumR_const2 _ _ hrD]
    · intro h
      simp at h
    · intro s hs
      have hs0 : s = 0 := (Option.some.inj hs).symm
      subst hs0
      rw [aget_isSome_iff, hkD]
      exact List.mem_range.2 (by omega)
  · obtain ⟨r, hfold, hP⟩ := foldlM_prefix_total dblStep
      (fun pre (acc : DblSt) =>
        PartGood hh acc.part ∧ PaGood hh acc.Pa ∧ PaGood hh acc.Pb ∧
        (∀ c, c < hh → fdS acc.Pa acc.Pb acc.part.ps c) ∧
        (∀ c, c < hh → fdD acc.Pa acc.Pb acc.part.pd c) ∧
        sumR acc.part.ps hh = sumR acc.part.pd hh ∧
        acc.others = sumR acc.part.pd hh - 1 ∧
        (∀ kv ∈ part.dbl, kv.1 ∉ pre.map (fun q => q.1) →
          rCount acc.part.pd kv.1.2 = 2) ∧
        (∀ e, pdHas acc.part e → pdHas part e))
      part.dbl part.dbl [] (⟨part, ⟨[], [], 0⟩, ⟨[], [], 0⟩, 2 * hh - 1⟩ : DblSt)
      rfl
      (by
        refine ⟨hgood, hPaEmpty, hPaEmpty, ?_, ?_, ?_, ?_, ?_, fun e he => he⟩
        · intro c hc
          exact Or.inl ⟨(hcnt0 c).1, (hcnt0 c).1, hrS c hc⟩
        · intro c hc
          exact Or.inl ⟨(hcnt0 c).2, (hcnt0 c).2, hrD c hc⟩
        · show sumR part.ps hh = sumR part.pd hh
          rw [sumR_const2 _ _ hrS, sumR_const2 _ _ hrD]
        · show 2 * hh - 1 = sumR part.pd hh - 1
          rw [sumR_const2 _ _ hrD]
        · intro kv hkv hnm
          exact hrD _ (hdbl kv hkv).1)
      (by
        intro pre kv suf b hsplit hQ
        obtain ⟨hG, hPA, hPB, hfS, hfD, hsums, hoth, hr2s, hmono⟩ := hQ
        have hkvm : kv ∈ part.dbl := by
          rw [← hsplit]
          exact List.mem_append.2 (Or.inr (List.mem_cons_self _ _))
        have hkvfresh : kv.1 ∉ pre.map (fun q => q.1) := by
          have hx := hdN
          rw [← hsplit, List.map_append, List.map_cons, List.nodup_append] at hx
          exact fun hm => hx.2.2 hm (List.mem_cons_self _ _)
        have hblt : kv.1.2 < hh := (hdbl kv hkvm).1
        have hprop := (hdbl kv hkvm).2
        have hr2 : rCount b.part.pd kv.1.2 = 2 := hr2s kv hkvm hkvfresh
        obtain ⟨cell₁, hcell₁⟩ : ∃ cell, aget b.part.pd kv.1.2 = some cell :=
          Option.isSome_iff_exists.1 (aget_isSome_of_rCount_pos _ _ (by omega))
        have hc₁m : (kv.1.2, cell₁) ∈ b.part.pd := aget_mem _ _ _ hcell₁
        have hc₁p := hG.pdC _ hc₁m
        obtain ⟨ke₁, hhd₁⟩ : ∃ ke, cell₁.head? = some ke := by
          cases hcc : cell₁ with
          | nil => exact absurd hcc hc₁p.1
          | cons a t => exact ⟨a, rfl⟩
        have hke₁p := hc₁p.2 ke₁ (head?_mem hhd₁)
        have hd₁ : ke₁.2.dst / 2 = kv.1.2 := hke₁p.2.1
        have hdHas₁ : pdHas b.part ke₁.2 := by
          refine ⟨cell₁, by rw [hd₁]; exact hcell₁, ?_⟩
          have hx := aget_head cell₁ ke₁ hhd₁
          rw [hke₁p.1] at hx
          exact hx
        have hsHas₁ : psHas b.part ke₁.2 := hG.mirDS _ hdHas₁
        have ha₁ : ke₁.2.src / 2 = kv.1.1 :=
          hprop ke₁.2 (hmono _ hdHas₁) hd₁
        have halt : kv.1.1 < hh := by
          rw [← ha₁]
          exact Nat.div_lt_of_lt_mul (by have := hke₁p.2.2.1; omega)
        have hfr₁ : dstCount b.Pa kv.1.2 = 0 := by
          have hp := hfD _ hblt
          simp only [fdD] at hp
          omega
        obtain ⟨hPA1, hPaS1, hPaD1, hPaL1⟩ := insert_good hh b.Pa ke₁.2 hPA
          (by rw [hd₁]; exact hfr₁) hke₁p.2.2.1 hke₁p.2.2.2
        obtain ⟨part1, hdel₁, hdbl₁, hG1, hrS1, hrD1, hhasS1, hhasD1⟩ :=
          delete_good hh b.part ke₁.2 hG hsHas₁ hdHas₁
        have hrpd1 : rCount part1.pd kv.1.2 = 1 := by
          have h := hrD1 kv.1.2
          rw [if_pos hd₁.symm] at h
          omega
        obtain ⟨cell₂, hcell₂⟩ : ∃ cell, aget part1.pd kv.1.2 = some cell :=
          Option.isSome_iff_exists.1 (aget_isSome_of_rCount_pos _ _ (by omega))
        have hc₂m : (kv.1.2, cell₂) ∈ part1.pd := aget_mem _ _ _ hcell₂
        have hc₂p := hG1.pdC _ hc₂m
        obtain ⟨ke₂, hhd₂⟩ : ∃ ke, cell₂.head? = some ke := by
          cases hcc : cell₂ with
          | nil => exact absurd hcc hc₂p.1
          | cons a t => exact ⟨a, rfl⟩
        have hke₂p := hc₂p.2 ke₂ (head?_mem hhd₂)
        have hd₂ : ke₂.2.dst / 2 = kv.1.2 := hke₂p.2.1
        have hdHas₂ : pdHas part1 ke₂.2 := by
          refine ⟨cell₂, by rw [hd₂]; exact hcell₂, ?_⟩
          have hx := aget_head cell₂ ke₂ hhd₂
          rw [hke₂p.1] at hx
          exact hx
        have hsHas₂ : psHas part1 ke₂.2 := hG1.mirDS _ hdHas₂
        have hdHas₂0 : pdHas b.part ke₂.2 := ((hhasD1 ke₂.2).1 hdHas₂).1
        have ha₂ : ke₂.2.src / 2 = kv.1.1 :=
          hprop ke₂.2 (hmono _ hdHas₂0) hd₂
        have hfr₂ : dstCount b.Pb kv.1.2 = 0 := by
          have hp := hfD _ hblt
          simp only [fdD] at hp
          omega
        obtain ⟨hPB1, hPbS1, hPbD1, hPbL1⟩ := insert_good hh b.Pb ke₂.2 hPB
          (by rw [hd₂]; exact hfr₂) hke₂p.2.2.1 hke₂p.2.2.2
        obtain ⟨part2, hdel₂, hdbl₂, hG2, hrS2, hrD2, hhasS2, hhasD2⟩ :=
          delete_good hh part1 ke₂.2 hG1 hsHas₂ hdHas₂
        have hne₁₂ : ke₂.2.src ≠ ke₁.2.src := by
          intro he
          have := (hhasS1 ke₂.2).1 hsHas₂
          exact this.2 he
        -- source-cell bookkeeping: both entries live in source cell kv.1.1
        have hsrc1pos : 1 ≤ rCount b.part.ps (ke₁.2.src / 2) :=
          rCount_pos_ps _ _ hsHas₁
        have hfs₁ : srcCount b.Pa kv.1.1 = 0 ∧ srcCount b.Pb kv.1.1 = 0 ∧
            rCount b.part.ps kv.1.1 = 2 := by
          have hp := hfS _ halt
          simp only [fdS] at hp
          rw [ha₁] at hsrc1pos
          omega
        refine ⟨⟨part2, b.Pa.insert ke₁.2, b.Pb.insert ke₂.2, b.others - 2⟩,
          ?_, hG2, hPA1, hPB1, ?_, ?_, ?_, ?_, ?_, ?_⟩
        · unfold dblStep
          dsimp only
          rw [hcell₁]
          simp only [Option.bind_eq_bind, Option.some_bind]
          rw [hhd₁]
          simp only [Option.some_bind]
          rw [hdel₁]
          simp only [Option.some_bind]
          rw [hcell₂]
          simp only [Option.some_bind]
          rw [hhd₂]
          simp only [Option.some_bind]
          rw [hdel₂]
          simp only [Option.some_bind, Option.pure_def]
        · -- source side: cell kv.1.1 dies, everything else unchanged
          intro c hc
          simp only [fdS]
          have e1 := hPaS1 c
          have e2 := hPbS1 c
          have e3 := hrS1 c
          have e4 := hrS2 c
          by_cases hcc : c = kv.1.1
          · subst hcc
            rw [ha₁] at e1 e3
            rw [ha₂] at e2 e4
            rw [if_pos rfl] at e1 e2 e3 e4
            omega
          · have hne1 : ¬ c = ke₁.2.src / 2 := by rw [ha₁]; exact hcc
            have hne2 : ¬ c = ke₂.2.src / 2 := by rw [ha₂]; exact hcc
            rw [if_neg hne1] at e1 e3
            rw [if_neg hne2] at e2 e4
            have hp := hfS c hc
            simp only [fdS] at hp
            omega
        · -- destination side: cell kv.1.2 dies
          intro c hc
          simp only [fdD]
          have e1 := hPaD1 c
          have e2 := hPbD1 c
          have e3 := hrD1 c
          have e4 := hrD2 c
          by_cases hcc : c = kv.1.2
          · subst hcc
            rw [hd₁] at e1 e3
            rw [hd₂] at e2 e4
            rw [if_pos rfl] at e1 e2 e3 e4
            omega
          · have hne1 : ¬ c = ke₁.2.dst / 2 := by rw [hd₁]; exact hcc
            have hne2 : ¬ c = ke₂.2.dst / 2 := by rw [hd₂]; exact hcc
            rw [if_neg hne1] at e1 e3
            rw [if_neg hne2] at e2 e4
            have hp := hfD c hc
            simp only [fdD] at hp
            omega
        · -- the two sides lose the same number of entries
          show sumR part2.ps hh = sumR part2.pd hh
          have hs1 := sumR_dec b.part.ps part1.ps hh (ke₁.2.src / 2)
            (by rw [ha₁]; exact halt) hsrc1pos hrS1
          have hs2 := sumR_dec part1.ps part2.ps hh (ke₂.2.src / 2)
            (by rw [ha₂]; exact halt) (rCount_pos_ps _ _ hsHas₂) hrS2
          have hd1 := sumR_dec b.part.pd part1.pd hh (ke₁.2.dst / 2)
            (by rw [hd₁]; exact hblt) (rCount_pos_pd _ _ hdHas₁) hrD1
          have hd2 := sumR_dec part1.pd part2.pd hh (ke₂.2.dst / 2)
            (by rw [hd₂]; exact hblt) (rCount_pos_pd _ _ hdHas₂) hrD2
          omega
        · -- the running `others` counter
          have hd1 := sumR_dec b.part.pd part1.pd hh (ke₁.2.dst / 2)
            (by rw [hd₁]; exact hblt) (rCount_pos_pd _ _ hdHas₁) hrD1
          have hd2 := sumR_dec part1.pd part2.pd hh (ke₂.2.dst / 2)
            (by rw [hd₂]; exact hblt) (rCount_pos_pd _ _ hdHas₂) hrD2
          have hle := rCount_le_sumR b.part.pd hh kv.1.2 hblt
          show b.others - 2 = sumR part2.pd hh - 1
          omega
        · -- cells of still-unprocessed doubled keys are untouched
          intro kv' hkv'm hkv'f
          show rCount part2.pd kv'.1.2 = 2
          have hkv'pre : kv'.1 ∉ pre.map (fun q => q.1) := by
            intro hm
            exact hkv'f (by
              rw [List.map_append]
              exact List.mem_append.2 (Or.inl hm))
          have hr2' := hr2s kv' hkv'm hkv'pre
          by_cases hbb : kv'.1.2 = kv.1.2
          · exfalso
            have ha' : ke₁.2.src / 2 = kv'.1.1 :=
              (hdbl kv' hkv'm).2 ke₁.2 (hmono _ hdHas₁) (by rw [hd₁, hbb])
            have hkk : kv'.1 = kv.1 := by
              have h1 : kv'.1.1 = kv.1.1 := by rw [← ha', ha₁]
              exact Prod.ext h1 hbb
            refine hkv'f ?_
            rw [List.map_append, hkk]
            refine List.mem_append.2 (Or.inr ?_)
            simp
          · have e3 := hrD1 kv'.1.2
            have e4 := hrD2 kv'.1.2
            have hne1 : ¬ kv'.1.2 = ke₁.2.dst / 2 := by rw [hd₁]; exact hbb
            have hne2 : ¬ kv'.1.2 = ke₂.2.dst / 2 := by rw [hd₂]; exact hbb
            rw [if_neg hne1] at e3
            rw [if_neg hne2] at e4
            omega
        · -- deletions only shrink the entry set
          intro e he
          exact hmono _ (((hhasD1 e).1 (((hhasD2 e).1 he).1)).1))
    obtain ⟨hGr, hPAr, hPBr, hfSr, hfDr, hsumr, hothr, -, -⟩ := hP
    by_cases hemp : r.part.pd.isEmpty
    · have hsum0 : sumR r.part.pd hh = 0 := by
        unfold sumR
        rw [List.sum_eq_zero_iff]
        intro x hx
        rcases List.mem_map.1 hx with ⟨c, -, hcx⟩
        rw [← hcx, rCount_of_none]
        rw [List.isEmpty_iff] at hemp
        rw [hemp]
        rfl
      refine ⟨r.part, r.Pa, r.Pb, none, r.others, ?_, hGr, hPAr, hPBr,
        hfSr, hfDr, hsumr, hothr, fun _ => hsum0, ?_⟩
      · unfold BSPMat.permutedbl
        rw [if_neg hde]
        simp only [Option.bind_eq_bind]
        rw [hfold]
        simp only [Option.some_bind]
        rw [if_pos hemp]
        rfl
      · intro s hs
        simp at hs
    · obtain ⟨kv0, t0, hpd0⟩ : ∃ kv t, r.part.pd = kv :: t := by
        cases hq : r.part.pd with
        | nil => rw [hq, List.isEmpty_nil] at hemp; exact absurd rfl hemp
        | cons a t => exact ⟨a, t, rfl⟩
      refine ⟨r.part, r.Pa, r.Pb, some kv0.1, r.others, ?_, hGr, hPAr, hPBr,
        hfSr, hfDr, hsumr, hothr, ?_, ?_⟩
      · unfold BSPMat.permutedbl
        rw [if_neg hde]
        simp only [Option.bind_eq_bind]
        rw [hfold]
        simp only [Option.some_bind]
        rw [if_neg hemp, hpd0]
        rfl
      · intro h
        simp at h
      · intro s hs
        have hs0 : s = kv0.1 := (Option.some.inj hs).symm
        subst hs0
        rw [hpd0, aget_head (kv0 :: t0) kv0 rfl]
        rfl

theorem oddHalves_total : ∀ (l : List (Option Nat)),
    (∀ o ∈ l, o.isSome = true) → ∃ ys, oddHalves l = some ys
  | [], _ => ⟨[], rfl⟩
  | o :: t, h => by
    obtain ⟨v, hv⟩ := Option.isSome_iff_exists.1 (h o (List.mem_cons_self _ _))
    obtain ⟨ys, hys⟩ := oddHalves_total t (fun x hx => h x (List.mem_cons_of_mem _ hx))
    by_cases hp : v % 2 = 1
    · refine ⟨v / 2 :: ys, ?_⟩
      simp only [oddHalves, Option.bind_eq_bind]
      rw [hv]
      simp only [Option.some_bind]
      rw [hys]
      simp only [Option.some_bind]
      rw [if_pos hp]
      rfl
    · refine ⟨ys, ?_⟩
      simp only [oddHalves, Option.bind_eq_bind]
      rw [hv]
      simp only [Option.some_bind]
      rw [hys]
      simp only [Option.some_bind]
      rw [if_neg hp]
      rfl

theorem perm_range_of_counts (l : List Nat) (h : Nat)
    (hbd : ∀ x ∈ l, x < h) (hcnt : ∀ c, c < h → l.count c = 1) :
    List.Perm l (List.range h) := by
  rw [List.perm_iff_count]
  intro c
  rw [count_range]
  by_cases hc : c < h
  · rw [if_pos hc]
    exact hcnt c hc
  · rw [if_neg hc]
    exact List.count_eq_zero.2 (fun hm => hc (hbd c hm))

/-- A finished half with one entry per cell on each coordinate is a
valid half-permutation: its `odd`-comprehensions succeed, it has `h`
entries keyed by destination and its sources and destinations each run
over `0 … h-1`. -/
theorem permstep_finish (hh : Nat) (P : BSPMat) (hPA : PaGood hh P)
    (hs : ∀ c, c < hh → srcCount P c = 1)
    (hd : ∀ c, c < hh → dstCount P c = 1) :
    (∃ ysI, oddHalves (P.d.map (fun kv => kv.2.os)) = some ysI) ∧
    (∃ ysO, oddHalves (P.d.map (fun kv => kv.2.od)) = some ysO) ∧
    P.d.length = hh ∧ (∀ kv ∈ P.d, kv.1 = kv.2.dst) ∧
    List.Perm (P.d.map (fun kv => kv.2.src)) (List.range hh) ∧
    List.Perm (P.d.map (fun kv => kv.2.dst)) (List.range hh) := by
  have hsrcP : List.Perm (P.d.map (fun kv => kv.2.src)) (List.range hh) := by
    refine perm_range_of_counts _ _ ?_ hs
    intro x hx
    rcases List.mem_map.1 hx with ⟨kv, hkv, hq⟩
    rw [← hq]
    exact (hPA kv hkv).2.1
  have hdstP : List.Perm (P.d.map (fun kv => kv.2.dst)) (List.range hh) := by
    refine perm_range_of_counts _ _ ?_ hd
    intro x hx
    rcases List.mem_map.1 hx with ⟨kv, hkv, hq⟩
    rw [← hq]
    exact (hPA kv hkv).2.2.1
  have hlen : P.d.length = hh := by
    have h1 := hdstP.length_eq
    rw [List.length_map, List.length_range] at h1
    exact h1
  refine ⟨?_, ?_, hlen, fun kv hkv => (hPA kv hkv).1, hsrcP, hdstP⟩
  · refine oddHalves_total _ ?_
    intro o ho
    rcases List.mem_map.1 ho with ⟨kv, hkv, hq⟩
    rw [← hq]
    exact (hPA kv hkv).2.2.2.1
  · refine oddHalves_total _ ?_
    intro o ho
    rcases List.mem_map.1 ho with ⟨kv, hkv, hq⟩
    rw [← hq]
    exact (hPA kv hkv).2.2.2.2

/-- One full `permstep` on a valid permutation over `2*hh` ids: it
succeeds with a one-entry table and splits the permutation into two
valid half-permutations of size `hh`. -/
theorem permstep_total (hh : Nat) (m : BSPMat) (stage offset : Nat)
    (hh1 : 1 ≤ hh) (hsz : m.size = 2 * hh)
    (hsp : List.Perm (m.d.map (fun kv => kv.2.src)) (List.range (2 * hh)))
    (hdp : List.Perm (m.d.map (fun kv => kv.2.dst)) (List.range (2 * hh))) :
    ∃ sets Pa Pb, m.permstep stage offset =
        some ([((stage, offset), sets)], Pa, Pb) ∧
      Pa.size = hh ∧ (∀ kv ∈ Pa.d, kv.1 = kv.2.dst) ∧
      List.Perm (Pa.d.map (fun kv => kv.2.src)) (List.range hh) ∧
      List.Perm (Pa.d.map (fun kv => kv.2.dst)) (List.range hh) ∧
      Pb.size = hh ∧ (∀ kv ∈ Pb.d, kv.1 = kv.2.dst) ∧
      List.Perm (Pb.d.map (fun kv => kv.2.src)) (List.range hh) ∧
      List.Perm (Pb.d.map (fun kv => kv.2.dst)) (List.range hh) := by
  obtain ⟨part, hpart, hG, hrS, hrD, hkD, hdN, hdbl, hsS, hsD⟩ :=
    partition_good hh m hsz hsp hdp
  obtain ⟨part2, Pa, Pb, sc, oth, hdblq, hG2, hPA, hPB, hfS, hfD, hsum,
    hoth, hscn, hscs⟩ :=
    permutedbl_good hh part hh1 hG hrS hrD hkD hdN hdbl
  cases sc with
  | none =>
    have hsum0 : sumR part2.pd hh = 0 := hscn rfl
    have hdead : ∀ c, c < hh → srcCount Pa c = 1 ∧ srcCount Pb c = 1 ∧
        dstCount Pa c = 1 ∧ dstCount Pb c = 1 := by
      intro c hc
      have h1 := hfS c hc
      have h2 := hfD c hc
      simp only [fdS] at h1
      simp only [fdD] at h2
      have e1 := sumR_eq_zero _ _ (by omega : sumR part2.ps hh = 0) c hc
      have e2 := sumR_eq_zero _ _ hsum0 c hc
      omega
    obtain ⟨⟨ysI, hysI⟩, ⟨ysO, hysO⟩, hlenA, hkeyA, hsrcA, hdstA⟩ :=
      permstep_finish hh Pa hPA (fun c hc => (hdead c hc).1)
        (fun c hc => (hdead c hc).2.2.1)
    obtain ⟨-, -, hlenB, hkeyB, hsrcB, hdstB⟩ :=
      permstep_finish hh Pb hPB (fun c hc => (hdead c hc).2.1)
        (fun c hc => (hdead c hc).2.2.2)
    refine ⟨(ysI.dedup, ysO.dedup), ⟨Pa.s, Pa.d, Pa.d.length⟩,
      ⟨Pb.s, Pb.d, Pb.d.length⟩, ?_, hlenA, hkeyA, hsrcA, hdstA,
      hlenB, hkeyB, hsrcB, hdstB⟩
    unfold BSPMat.permstep
    simp only [Option.bind_eq_bind]
    rw [hpart]
    simp only [Option.some_bind]
    rw [hsz, hdblq]
    simp only [Option.some_bind, Option.pure_def]
    rw [hysI]
    simp only [Option.some_bind]
    rw [hysO]
    simp only [Option.some_bind]
  | some s =>
    have hsget : (aget part2.pd s).isSome = true := hscs s rfl
    obtain ⟨cell, hcell⟩ := Option.isSome_iff_exists.1 hsget
    have hcm : (s, cell) ∈ part2.pd := aget_mem _ _ _ hcell
    have hcp := hG2.pdC _ hcm
    obtain ⟨ke, hhd⟩ : ∃ ke, cell.head? = some ke := by
      cases hcc : cell with
      | nil => exact absurd hcc hcp.1
      | cons a t => exact ⟨a, rfl⟩
    have hkep := hcp.2 ke (head?_mem hhd)
    have hds : ke.2.dst / 2 = s := hkep.2.1
    have hslt : s < hh := by
      rw [← hds]
      exact Nat.div_lt_of_lt_mul (by have := hkep.2.2.2; omega)
    have hdHas : pdHas part2 ke.2 := by
      refine ⟨cell, by rw [hds]; exact hcell, ?_⟩
      have hx := aget_head cell ke hhd
      rw [hkep.1] at hx
      exact hx
    have hsHas : psHas part2 ke.2 := hG2.mirDS _ hdHas
    have hw : ke.2.src / 2 < hh :=
      Nat.div_lt_of_lt_mul (by have := hkep.2.2.1; omega)
    have hfreshD : dstCount Pa (ke.2.dst / 2) = 0 ∧
        dstCount Pb (ke.2.dst / 2) = 0 ∧ rCount part2.pd (ke.2.dst / 2) = 2 := by
      rw [hds]
      rcases hfD s hslt with h1 | h1
      · exact h1
      · exfalso
        have h2 := rCount_pos_pd _ _ hdHas
        rw [hds] at h2
        omega
    have hfreshS : srcCount Pa (ke.2.src / 2) = 0 ∧
        srcCount Pb (ke.2.src / 2) = 0 ∧ rCount part2.ps (ke.2.src / 2) = 2 := by
      rcases hfS _ hw with h1 | h1
      · exact h1
      · exfalso
        have h2 := rCount_pos_ps _ _ hsHas
        omega
    obtain ⟨hPA1, hPaS1, hPaD1, hPaL1⟩ := insert_good hh Pa ke.2 hPA
      hfreshD.1 hkep.2.2.1 hkep.2.2.2
    obtain ⟨part3, hdel, hdbl3, hG3, hrS3, hrD3, hhasS3, hhasD3⟩ :=
      delete_good hh part2 ke.2 hG2 hsHas hdHas
    have hsum1 : 1 ≤ sumR part2.pd hh := by
      have h1 := rCount_le_sumR part2.pd hh (ke.2.dst / 2) (by rw [hds]; exact hslt)
      omega
    have hsD3 := sumR_dec part2.pd part3.pd hh (ke.2.dst / 2)
      (by rw [hds]; exact hslt) (by omega) hrD3
    have hsS3 := sumR_dec part2.ps part3.ps hh (ke.2.src / 2) hw
      (rCount_pos_ps _ _ hsHas) hrS3
    have hinv : ChaseInv hh oth ⟨part3, Pa.insert ke.2, Pb, ke.2.dst / 2, 0⟩ := by
      refine ⟨hG3, hPA1, hPB, Or.inl rfl, ?_, ?_, Or.inl ?_⟩
      · show sumR part3.ps hh = oth
        omega
      · show sumR part3.pd hh = oth
        omega
      · simp only [chaseOpen, reduceIte]
        refine ⟨by rw [hds]; exact hslt, ?_,
          Or.inl ⟨ke.2.src / 2, hw, ?_, ?_, ?_⟩⟩
        · simp only [threadD]
          have e1 := hPaD1 (ke.2.dst / 2)
          rw [if_pos rfl] at e1
          have e3 := hrD3 (ke.2.dst / 2)
          rw [if_pos rfl] at e3
          refine ⟨by omega, hfreshD.2.1, by omega⟩
        · simp only [dglS]
          have e1 := hPaS1 (ke.2.src / 2)
          rw [if_pos rfl] at e1
          have e3 := hrS3 (ke.2.src / 2)
          rw [if_pos rfl] at e3
          refine ⟨by omega, hfreshS.2.1, by omega⟩
        · intro c hc hcw
          have hp := hfS c hc
          simp only [fdS] at hp ⊢
          have e1 := hPaS1 c
          have e2 := hrS3 c
          rw [if_neg hcw] at e1 e2
          omega
        · intro c hc hcp
          have hp := hfD c hc
          simp only [fdD] at hp ⊢
          have e1 := hPaD1 c
          have e2 := hrD3 c
          rw [if_neg hcp] at e1 e2
          omega
    obtain ⟨fin, hchase, hinv0⟩ := chase_total hh oth _ hinv
    obtain ⟨hGf, hPAf, hPBf, -, hsSf, hsDf, hOC⟩ := hinv0
    have hC : chaseClosed hh fin := by
      rcases hOC with hO | hC
      · exfalso
        simp only [chaseOpen] at hO
        obtain ⟨hplt, hO2⟩ := hO
        by_cases hr : fin.refidx = 0
        · rw [if_pos hr] at hO2
          have h1 := hO2.1
          simp only [threadD] at h1
          have h2 := sumR_eq_zero _ _ hsDf fin.pos hplt
          omega
        · rw [if_neg hr] at hO2
          have h1 := hO2.1
          simp only [threadS] at h1
          have h2 := sumR_eq_zero _ _ hsSf fin.pos hplt
          omega
      · exact hC
    have hdead : ∀ c, c < hh → srcCount fin.Pa c = 1 ∧ srcCount fin.Pb c = 1 ∧
        dstCount fin.Pa c = 1 ∧ dstCount fin.Pb c = 1 := by
      intro c hc
      have h1 := hC.1 c hc
      have h2 := hC.2 c hc
      simp only [fdS] at h1
      simp only [fdD] at h2
      have e1 := sumR_eq_zero _ _ hsSf c hc
      have e2 := sumR_eq_zero _ _ hsDf c hc
      omega
    obtain ⟨⟨ysI, hysI⟩, ⟨ysO, hysO⟩, hlenA, hkeyA, hsrcA, hdstA⟩ :=
      permstep_finish hh fin.Pa hPAf (fun c hc => (hdead c hc).1)
        (fun c hc => (hdead c hc).2.2.1)
    obtain ⟨-, -, hlenB, hkeyB, hsrcB, hdstB⟩ :=
      permstep_finish hh fin.Pb hPBf (fun c hc => (hdead c hc).2.1)
        (fun c hc => (hdead c hc).2.2.2)
    refine ⟨(ysI.dedup, ysO.dedup), ⟨fin.Pa.s, fin.Pa.d, fin.Pa.d.length⟩,
      ⟨fin.Pb.s, fin.Pb.d, fin.Pb.d.length⟩, ?_, hlenA, hkeyA, hsrcA, hdstA,
      hlenB, hkeyB, hsrcB, hdstB⟩
    unfold BSPMat.permstep
    simp only [Option.bind_eq_bind]
    rw [hpart]
    simp only [Option.some_bind]
    rw [hsz, hdblq]
    simp only [Option.some_bind]
    rw [hcell]
    simp only [Option.some_bind]
    rw [hhd]
    simp only [Option.some_bind]
    rw [hdel]
    simp only [Option.some_bind]
    rw [hchase]
    simp only [Option.some_bind, Option.pure_def]
    rw [hysI]
    simp only [Option.some_bind]
    rw [hysO]
    simp only [Option.some_bind]

theorem aget_foldl_aset_isSome {κ α : Type} [DecidableEq κ] :
    ∀ (l : List (κ × α)) (a0 : List (κ × α)) (key : κ),
      (aget (l.foldl (fun acc kv => aset acc kv.1 kv.2) a0) key).isSome = true ↔
      ((aget a0 key).isSome = true ∨ key ∈ l.map (fun kv => kv.1))
  | [], a0, key => by simp
  | kv :: t, a0, key => by
    rw [List.foldl_cons, aget_foldl_aset_isSome t (aset a0 kv.1 kv.2) key,
      aget_aset]
    by_cases hk : kv.1 = key
    · rw [if_pos hk]
      constructor
      · intro _
        refine Or.inr ?_
        rw [List.map_cons]
        exact List.mem_cons.2 (Or.inl hk.symm)
      · intro _
        exact Or.inl rfl
    · rw [if_neg hk]
      simp only [List.map_cons, List.mem_cons]
      constructor
      · rintro (h1 | h1)
        · exact Or.inl h1
        · exact Or.inr (Or.inr h1)
      · rintro (h1 | h1 | h1)
        · exact Or.inl h1
        · exact absurd h1.symm hk
        · exact Or.inr h1

/-- The full recursion of `BSPMat.permutation`: on a valid permutation
of size `2^(s+1)` it succeeds, and the produced table holds exactly the
(stage, group offset) keys of the recursion tree rooted at
(`s`, `offset`). -/
theorem permutationAux_total : ∀ (s : Nat) (m : BSPMat) (offset : Nat),
    m.size = 2 ^ (s + 1) →
    List.Perm (m.d.map (fun kv => kv.2.src)) (List.range (2 ^ (s + 1))) →
    List.Perm (m.d.map (fun kv => kv.2.dst)) (List.range (2 ^ (s + 1))) →
    ∃ cfg, permutationAux s m offset = some cfg ∧
      ∀ st o, (aget cfg (st, o)).isSome = true ↔
        (st ≤ s ∧ 2 ^ (s - st) * offset ≤ o ∧ o < 2 ^ (s - st) * (offset + 1))
  | 0, m, offset => by
    intro hsz hsp hdp
    obtain ⟨sets, Pa, Pb, hps, -⟩ := permstep_total 1 m 0 offset (le_refl 1)
      (by rw [hsz]; decide) hsp hdp
    refine ⟨[((0, offset), sets)], ?_, ?_⟩
    · simp only [permutationAux, Option.bind_eq_bind]
      rw [hps]
      simp only [Option.some_bind, Option.pure_def]
    · intro st o
      have hb : (aget ([((0, offset), sets)] : SwCfg) (st, o)).isSome = true ↔
          (st = 0 ∧ o = offset) := by
        rw [aget_isSome_iff]
        simp [Prod.ext_iff]
      rw [hb]
      constructor
      · rintro ⟨rfl, rfl⟩
        refine ⟨Nat.le_refl _, ?_, ?_⟩
        · rw [Nat.sub_self, pow_zero, one_mul]
        · rw [Nat.sub_self, pow_zero, one_mul]
          omega
      · rintro ⟨h1, h2, h3⟩
        have h0 : st = 0 := Nat.le_zero.1 h1
        subst h0
        rw [Nat.sub_self, pow_zero, one_mul] at h2 h3
        exact ⟨rfl, by omega⟩
  | s + 1, m, offset => by
    intro hsz hsp hdp
    have hpos : 0 < 2 ^ (s + 1) := pow_pos (by omega) _
    obtain ⟨sets, Pa, Pb, hps, hPaSz, -, hPaS, hPaD, hPbSz, -, hPbS, hPbD⟩ :=
      permstep_total (2 ^ (s + 1)) m (s + 1) offset (by omega)
        (by rw [hsz]; exact Nat.pow_succ')
        (by rw [← Nat.pow_succ']; exact hsp)
        (by rw [← Nat.pow_succ']; exact hdp)
    obtain ⟨ca, hca, hcaC⟩ := permutationAux_total s Pa (offset * 2) hPaSz hPaS hPaD
    obtain ⟨cb, hcb, hcbC⟩ := permutationAux_total s Pb (offset * 2 + 1) hPbSz hPbS hPbD
    refine ⟨cb.foldl (fun acc kv => aset acc kv.1 kv.2)
      (ca.foldl (fun acc kv => aset acc kv.1 kv.2) [((s + 1, offset), sets)]),
      ?_, ?_⟩
    · simp only [permutationAux, Option.bind_eq_bind]
      rw [hps]
      simp only [Option.some_bind]
      rw [hca]
      simp only [Option.some_bind]
      rw [hcb]
      simp only [Option.some_bind, Option.pure_def]
    · intro st o
      rw [aget_foldl_aset_isSome, aget_foldl_aset_isSome]
      rw [show (cb.map (fun kv => kv.1) : List (Nat × Nat)) =
        cb.map (fun kv => kv.1) from rfl]
      rw [← aget_isSome_iff ca (st, o), ← aget_isSome_iff cb (st, o)]
      rw [hcaC st o, hcbC st o]
      have hbase : (aget ([((s + 1, offset), sets)] : SwCfg) (st, o)).isSome = true ↔
          (st = s + 1 ∧ o = offset) := by
        rw [aget_isSome_iff]
        simp [Prod.ext_iff]
      rw [hbase]
      by_cases hst : st = s + 1
      · subst hst
        have he : s + 1 - (s + 1) = 0 := by omega
        rw [he, pow_zero, one_mul]
        constructor
        · rintro ((⟨-, rfl⟩ | ⟨hle, -⟩) | ⟨hle, -⟩)
          · exact ⟨Nat.le_refl _, by omega, by omega⟩
          · omega
          · omega
        · rintro ⟨-, h1, h2⟩
          exact Or.inl (Or.inl ⟨rfl, by omega⟩)
      · by_cases hsts : st ≤ s
        · have hpe : 2 ^ (s + 1 - st) = 2 * 2 ^ (s - st) := by
            rw [show s + 1 - st = (s - st) + 1 by omega, Nat.pow_succ']
          have e1 : 2 ^ (s + 1 - st) * offset = 2 ^ (s - st) * (offset * 2) := by
            rw [hpe]
            ring
          have e2 : 2 ^ (s + 1 - st) * (offset + 1) =
              2 ^ (s - st) * (offset * 2 + 1 + 1) := by
            rw [hpe]
            ring
          have e3 : 2 ^ (s - st) * (offset * 2) ≤ 2 ^ (s - st) * (offset * 2 + 1) :=
            Nat.mul_le_mul_left _ (by omega)
          have e4 : 2 ^ (s - st) * (offset * 2 + 1) ≤
              2 ^ (s - st) * (offset * 2 + 1 + 1) :=
            Nat.mul_le_mul_left _ (by omega)
          rw [e1, e2]
          set X := 2 ^ (s - st) * (offset * 2) with hX
          set Y := 2 ^ (s - st) * (offset * 2 + 1) with hY
          set Z := 2 ^ (s - st) * (offset * 2 + 1 + 1) with hZ
          omega
        · constructor
          · rintro ((⟨h1, -⟩ | ⟨h1, -⟩) | ⟨h1, -⟩) <;> omega
          · rintro ⟨h1, -⟩
            omega

/-- `BSPMat.__init__` on a zipped pair of duplicate-free id lists: the
two dicts are the zip keyed by source resp. destination. -/
theorem ofList_descr (n : Nat) (src dst : List Nat)
    (hls : src.length = n) (hld : dst.length = n)
    (hsN : src.Nodup) (hdN : dst.Nodup) :
    (BSPMat.ofList (src.zip dst)).s =
      (src.zip dst).map (fun ab => (ab.1, (⟨ab.1, ab.2, none, none⟩ : Entry))) ∧
    (BSPMat.ofList (src.zip dst)).d =
      (src.zip dst).map (fun ab => (ab.2, (⟨ab.1, ab.2, none, none⟩ : Entry))) ∧
    (BSPMat.ofList (src.zip dst)).size = n := by
  have hfst : (src.zip dst).map (fun ab => ab.1) = src :=
    List.map_fst_zip src dst (by omega)
  have hsnd : (src.zip dst).map (fun ab => ab.2) = dst :=
    List.map_snd_zip src dst (by omega)
  have hknd : ((src.zip dst).map (fun ab => ab.1)).Nodup := by
    rw [hfst]
    exact hsN
  have h1 := foldl_aset_map (fun ab : Nat × Nat => ab.1)
    (fun ab : Nat × Nat => (⟨ab.1, ab.2, none, none⟩ : Entry)) (src.zip dst) []
    (fun x _ => rfl) hknd
  have hs' : (src.zip dst).foldl
      (fun acc ab => aset acc ab.1 (⟨ab.1, ab.2, none, none⟩ : Entry)) [] =
      (src.zip dst).map (fun ab => (ab.1, (⟨ab.1, ab.2, none, none⟩ : Entry))) :=
    h1.trans (List.nil_append _)
  have hknd2 : (((src.zip dst).map
      (fun ab => (ab.1, (⟨ab.1, ab.2, none, none⟩ : Entry)))).map
      (fun kv => kv.2.dst)).Nodup := by
    rw [List.map_map]
    have hcomp : (src.zip dst).map
        ((fun kv : Nat × Entry => kv.2.dst) ∘
          (fun ab => (ab.1, (⟨ab.1, ab.2, none, none⟩ : Entry)))) =
        (src.zip dst).map (fun ab => ab.2) := rfl
    rw [hcomp, hsnd]
    exact hdN
  have h2 := foldl_aset_map (fun kv : Nat × Entry => kv.2.dst)
    (fun kv : Nat × Entry => kv.2)
    ((src.zip dst).map (fun ab => (ab.1, (⟨ab.1, ab.2, none, none⟩ : Entry)))) []
    (fun x _ => rfl) hknd2
  refine ⟨hs', ?_, ?_⟩
  · show ((src.zip dst).foldl
      (fun acc ab => aset acc ab.1 (⟨ab.1, ab.2, none, none⟩ : Entry)) []).foldl
      (fun acc kv => aset acc kv.2.dst kv.2) [] = _
    rw [hs']
    refine h2.trans ?_
    rw [List.nil_append, List.map_map]
    rfl
  · show ((src.zip dst).foldl
      (fun acc ab => aset acc ab.1 (⟨ab.1, ab.2, none, none⟩ : Entry)) []).length = n
    rw [hs', List.length_map, List.length_zip]
    omega

/-- The keystone: on every valid permutation of `2^k` ids (`k ≥ 1`) the
decomposer succeeds and its table holds exactly the keys
(stage, offset) with `stage < k` and `offset < 2^(k-1-stage)`. -/
theorem genSwconfig_keystone (k : Nat) (src dst : List Nat) (hk : 1 ≤ k)
    (hs : List.Perm src (List.range (2 ^ k)))
    (hd : List.Perm dst (List.range (2 ^ k))) :
    ∃ cfg, genSwconfig (2 ^ k) src dst = some cfg ∧
      ∀ st o, (aget cfg (st, o)).isSome = true ↔
        (st < k ∧ o < 2 ^ (k - 1 - st)) := by
  have hls : src.length = 2 ^ k := by rw [hs.length_eq, List.length_range]
  have hld : dst.length = 2 ^ k := by rw [hd.length_eq, List.length_range]
  have hsN : src.Nodup := hs.nodup_iff.2 (List.nodup_range _)
  have hdN : dst.Nodup := hd.nodup_iff.2 (List.nodup_range _)
  obtain ⟨hsEq, hdEq, hszEq⟩ := ofList_descr (2 ^ k) src dst hls hld hsN hdN
  have hmapS : (BSPMat.ofList (src.zip dst)).d.map (fun kv => kv.2.src) = src := by
    rw [hdEq, List.map_map]
    exact List.map_fst_zip src dst (by omega)
  have hmapD : (BSPMat.ofList (src.zip dst)).d.map (fun kv => kv.2.dst) = dst := by
    rw [hdEq, List.map_map]
    exact List.map_snd_zip src dst (by omega)
  have hkk : k - 1 + 1 = k := by omega
  obtain ⟨cfg, hrun, hchar⟩ := permutationAux_total (k - 1)
    (BSPMat.ofList (src.zip dst)) 0
    (by rw [hszEq, hkk]) (by rw [hmapS, hkk]; exact hs) (by rw [hmapD, hkk]; exact hd)
  refine ⟨cfg, ?_, ?_⟩
  · unfold genSwconfig BSPMat.permutation
    rw [log2floor_two_pow]
    exact hrun
  · intro st o
    rw [hchar st o]
    constructor
    · rintro ⟨h1, h2, h3⟩
      exact ⟨by omega, by omega⟩
    · rintro ⟨h1, h2⟩
      exact ⟨by omega, by omega, by omega⟩

/-- C5: for every non-empty input list, `dupecheck` raises exactly when
some value occurs more than once, and the reported set of ids is exactly
the set of values occurring more than once (membership, hence order,
independent). -/
theorem C5_dupecheck_characterisation (l : List Int) (h : l ≠ []) :
    (dupecheckRaises l = true ↔ ∃ x, 2 ≤ l.count x) ∧
    (∀ x : Int, x ∈ dupes l ↔ 2 ≤ l.count x) :=
  ⟨dupecheckRaises_iff l, fun x => mem_dupes_iff l x⟩

/-- Witness for C5 at the spec's Scenario C input `[0, 0, 1, 2]`. -/
theorem C5_dupecheck_characterisation_witness :
    (([0, 0, 1, 2] : List Int) ≠ [] ∧
      ((dupecheckRaises [0, 0, 1, 2] = true ↔
          ∃ x, 2 ≤ ([0, 0, 1, 2] : List Int).count x) ∧
        (∀ x : Int, x ∈ dupes [0, 0, 1, 2] ↔
          2 ≤ ([0, 0, 1, 2] : List Int).count x))) ∧
    dupes [0, 0, 1, 2] = [0] :=
  ⟨⟨by decide, C5_dupecheck_characterisation [0, 0, 1, 2] (by decide)⟩, by decide⟩

/-- C6: for every non-empty input list, `rangecheck` raises exactly when
some id is negative or at least `nports`, and the value named in the
error is an offending member of the list. -/
theorem C6_rangecheck_characterisation (nports : Int) (l : List Int) (h : l ≠ []) :
    ((∃ v, rangecheck nports l = .err v) ↔ ∃ x ∈ l, x < 0 ∨ nports ≤ x) ∧
    (∀ v, rangecheck nports l = .err v → v ∈ l ∧ (v < 0 ∨ nports ≤ v)) :=
  ⟨rangecheck_err_iff nports l h, fun v hv => rangecheck_err_offending nports l v hv⟩

/-- Witness for C6 at the spec's Scenario D input: `N = 8`, a list
containing 9. -/
theorem C6_rangecheck_characterisation_witness :
    (([0, 1, 9] : List Int) ≠ [] ∧
      (((∃ v, rangecheck 8 [0, 1, 9] = .err v) ↔
          ∃ x ∈ ([0, 1, 9] : List Int), x < 0 ∨ (8 : Int) ≤ x) ∧
        (∀ v, rangecheck 8 [0, 1, 9] = .err v →
          v ∈ ([0, 1, 9] : List Int) ∧ (v < 0 ∨ (8 : Int) ≤ v)))) ∧
    rangecheck 8 [0, 1, 9] = .err 9 :=
  ⟨⟨by decide, C6_rangecheck_characterisation 8 [0, 1, 9] (by decide)⟩, by decide⟩

/-- C10: validation only checks duplicates and ranges.  Any request whose
source and destination lists are non-empty, duplicate-free and within
`[0, nports)` passes validation, with no constraint whatsoever relating
the number of pairs to `nports`. -/
theorem C10_validate_ignores_length (nports : Int) (src dst : List Int)
    (hs0 : src ≠ []) (hd0 : dst ≠ [])
    (hsnd : src.Nodup) (hdnd : dst.Nodup)
    (hsr : ∀ x ∈ src, 0 ≤ x ∧ x < nports)
    (hdr : ∀ x ∈ dst, 0 ≤ x ∧ x < nports) :
    validate nports src dst = .ok := by
  have hdup : ∀ l : List Int, l.Nodup → dupecheckRaises l = false := by
    intro l hl
    rcases h : dupecheckRaises l with _ | _
    · rfl
    · obtain ⟨x, hx⟩ := (dupecheckRaises_iff l).1 h
      have := List.nodup_iff_count_le_one.1 hl x
      omega
  have hrange : ∀ l : List Int, l ≠ [] → (∀ x ∈ l, 0 ≤ x ∧ x < nports) →
      rangecheck nports l = .ok := by
    intro l hne hb
    obtain ⟨mx, hmx⟩ := max?_isSome_of_ne_nil l hne
    obtain ⟨mn, hmn⟩ := min?_isSome_of_ne_nil l hne
    have hmxm : mx ∈ l := List.max?_mem (fun a b => max_choice a b) hmx
    have hmnm : mn ∈ l := List.min?_mem (fun a b => min_choice a b) hmn
    rw [rangecheck_eq_of_some nports l mx mn hmx hmn,
      if_neg (not_le.2 (hb mx hmxm).2), if_neg (not_lt.2 (hb mn hmnm).1)]
  rw [validate, hdup src hsnd, hdup dst hdnd]
  simp only [Bool.false_eq_true, if_false]
  rw [hrange src hs0 hsr, hrange dst hd0 hdr]

/-- Witness for C10: with `N = 8`, the two-pair request `[0, 1]` to
`[2, 3]` (fewer than `N` pairs) passes validation. -/
theorem C10_validate_ignores_length_witness :
    (([0, 1] : List Int) ≠ [] ∧ ([2, 3] : List Int) ≠ [] ∧
      ([0, 1] : List Int).Nodup ∧ ([2, 3] : List Int).Nodup ∧
      (∀ x ∈ ([0, 1] : List Int), 0 ≤ x ∧ x < 8) ∧
      (∀ x ∈ ([2, 3] : List Int), 0 ≤ x ∧ x < 8) ∧
      ([0, 1] : List Int).length < 8) ∧
    validate 8 [0, 1] [2, 3] = .ok :=
  ⟨⟨by decide, by decide, by decide, by decide, by decide, by decide, by decide⟩,
    C10_validate_ignores_length 8 [0, 1] [2, 3] (by decide) (by decide)
      (by decide) (by decide) (by decide) (by decide)⟩

/-- C7 amended: the generator emits, for the i-th destination-sorted
entry, the header `(group <<< (hbits + 1)) ||| i`, where the group
offset is the advance function iterated `i mod nsw` times from 0; the
advance adds the skip and, when the sum reaches the block size `nsw`,
wraps as `(sum + 1) mod nsw` rather than plain modulo. -/
theorem C7_amended_closed_form (nports mbits rbits : Nat) (src dst : List Nat)
    (h : 0 < nports / 2 ^ mbits) :
    bsGen nports mbits rbits src dst =
      ((sortByDst (src.zip dst)).map (·.1)).enum.map
        (fun ir =>
          ((groupAt (nports / 2 ^ mbits) (nports / 2 ^ mbits / 2 ^ mbits) ir.1) <<<
            ((rbits - 1) / 2 + 1)) ||| ir.1) := by
  rw [bsGen]
  have he : ∀ l : List Nat, l.enum = l.enumFrom 0 := fun l => rfl
  rw [he, bsGenGo_spec (nports / 2 ^ mbits) (nports / 2 ^ mbits / 2 ^ mbits)
    ((rbits - 1) / 2) h ((sortByDst (src.zip dst)).map (·.1)) 0 [] 0
    (fun hz => absurd (Nat.zero_mod _) hz)]
  rw [List.nil_append]
  rfl

/-- Witness for C7 amended at the counterexample topology `N = 16`,
`middleBits = 1`, header width 9, identity request. -/
theorem C7_amended_closed_form_witness :
    (0 < 16 / 2 ^ 1) ∧
    bsGen 16 1 9 (List.range 16) (List.range 16) =
      ((sortByDst ((List.range 16).zip (List.range 16))).map (·.1)).enum.map
        (fun ir =>
          ((groupAt (16 / 2 ^ 1) (16 / 2 ^ 1 / 2 ^ 1) ir.1) <<< ((9 - 1) / 2 + 1)) |||
            ir.1) :=
  ⟨by decide, C7_amended_closed_form 16 1 9 (List.range 16) (List.range 16) (by decide)⟩

/-- C1: the round-trip property fails on the code.  For the valid
permutation request sources `[0,1,2,3]`, destinations `[3,2,1,0]` on
`N = 4` (Scenario B of the spec), the pipeline produces the header
`[0,0,1]` for port 0, and replaying it through the simulated wiring
lands on port 1, not on the recorded destination 3.  (The decomposer
records the middle-stage crossing in the `out` set, but `routebits`
only consults the `in` set at the middle stage.) -/
theorem C1_roundtrip_fails_scenarioB :
    (genSwconfig 4 [0, 1, 2, 3] [3, 2, 1, 0]).bind (routebits 4) =
      some [[0, 0, 1], [1, 0, 0], [0, 1, 1], [1, 1, 0]] ∧
    replay 4 0 [0, 0, 1] = 1 ∧ ¬ replay 4 0 [0, 0, 1] = 3 := by decide

/-- C8: for the identity permutation with `N = 8`, the decomposition
yields a table whose `in` and `out` crossing sets are empty at every
(stage, group) entry, and every port's header replays straight through
to that same port. -/
theorem C8_identity8_straight_through :
    genSwconfig 8 (List.range 8) (List.range 8) = some identityCfg8 ∧
    (∀ kv ∈ identityCfg8, kv.2.1 = [] ∧ kv.2.2 = []) ∧
    routebits 8 identityCfg8 = some identityRb8 ∧
    (∀ p ∈ List.range 8, replay 8 p (identityRb8.getD p []) = p) := by decide

/-- C4 fails as stated: `routebits` derives the header length from the
port count alone (`2 * log2 N - 1` bits), not from the topology fields
`stages`, `stageBits`, `middleBits`.  For the topology with `N = 4`,
`stages = 2`, `stageBits = 1`, `middleBits = 1` and the identity
permutation, every produced header has 3 bits while
`2 * stages * stageBits + middleBits = 5`. -/
theorem C4_counterexample_length_formula :
    (genSwconfig 4 [0, 1, 2, 3] [0, 1, 2, 3]).bind (routebits 4) =
      some [[0, 0, 0], [1, 0, 1], [0, 1, 0], [1, 1, 1]] ∧
    ¬ (([[0, 0, 0], [1, 0, 1], [0, 1, 0], [1, 1, 1]] : List (List Nat)).getD 0 []).length
        = rbitsFormula 2 1 1 := by decide

/-- C4 (amended): for every port count `N = 2^k` (`k ≥ 1`) and every
switch-configuration table on which `routebits` succeeds, all produced
headers have the same bit length, namely `2 * log2 N - 1 = 2k - 1`; the
length is determined by the port count alone, not by the topology fields
`stages`, `stageBits`, `middleBits`. -/
theorem C4_amended_uniform_length (k : Nat) (cfg : SwCfg) (rb : List (List Nat))
    (hk : 1 ≤ k) (h : routebits (2 ^ k) cfg = some rb) :
    ∀ t, t < 2 ^ k → (rb.getD t []).length = 2 * k - 1 := by
  intro t ht
  rw [routebits] at h
  obtain ⟨out, hout, hrb⟩ : ∃ out, routebitsFull (2 ^ k) cfg = some out ∧
      out.rbits = rb := by
    cases hfull : routebitsFull (2 ^ k) cfg with
    | none => rw [hfull] at h; simp at h
    | some o =>
      rw [hfull] at h
      simp only [Option.map_some', Option.some.injEq] at h
      exact ⟨o, rfl, h⟩
  have hsp := (routebitsFull_spec k cfg out hk hout).2.2 t ht
  rw [hrb] at hsp
  rw [hsp, stagesList_length_pow k hk]

theorem C4_amended_uniform_length_witness :
    1 ≤ 2 ∧
    routebits (2 ^ 2) [((1, 0), ([], [])), ((0, 0), ([], [])), ((0, 1), ([], []))] =
      some [[0, 0, 0], [1, 0, 1], [0, 1, 0], [1, 1, 1]] ∧
    (∀ t, t < 2 ^ 2 →
      (([[0, 0, 0], [1, 0, 1], [0, 1, 0], [1, 1, 1]] : List (List Nat)).getD t []).length
        = 2 * 2 - 1) :=
  ⟨by decide, by decide,
    C4_amended_uniform_length 2 [((1, 0), ([], [])), ((0, 0), ([], [])), ((0, 1), ([], []))]
      [[0, 0, 0], [1, 0, 1], [0, 1, 0], [1, 1, 1]] (by decide) (by decide)⟩

/-- C7 fails as stated: the group offset does not wrap modulo the block
size.  With `N = 16`, `middleBits = 1` (block `nsw = 8`, skip 4) and the
identity request, the code's third header carries group offset 1
(`sw` runs 0, 4, then wraps to `(8 + 1) % 8 = 1`), while the spec's
modulo rule yields 0; the emitted header lists differ at index 2. -/
theorem C7_counterexample_group_wrap :
    bsGen 16 1 9 (List.range 16) (List.range 16) ≠
      bsGenSpec 16 1 9 (List.range 16) (List.range 16) := by decide

/-- C9 fails as stated: a crossing set can be as large as the whole
group, not half of it.  For the valid permutation `[0,1,2,3] to
[1,0,3,2]` on `N = 4`, the (stage 1, group 0) entry governs the
2-switch group and its `crossOutputs` set contains both switches,
exceeding half the group size. -/
theorem C9_counterexample_half_bound :
    genSwconfig 4 [0, 1, 2, 3] [1, 0, 3, 2] =
      some [((1, 0), ([], [0, 1])), ((0, 0), ([], [])), ((0, 1), ([], []))] ∧
    ¬ ([0, 1] : List Nat).length ≤ 2 ^ 1 / 2 := by decide

/-- C9 amended: for every valid permutation request on `N = 2^k` ports and
every (stage, group) entry of a successfully produced table, the crossing
sets list at most `2^stage` switches, the full size of the group (each
switch appears at most once per side); the `groupSize/2` bound of the
claim is refuted by `C9_counterexample_half_bound`. -/
theorem C9_amended_group_size_bound (k : Nat) (src dst : List Nat) (tbl : SwCfg)
    (hk : 1 ≤ k)
    (hs : ∀ x ∈ src, x < 2 ^ k) (hd : ∀ x ∈ dst, x < 2 ^ k)
    (h : genSwconfig (2 ^ k) src dst = some tbl) :
    ∀ e ∈ tbl, e.2.1.length ≤ 2 ^ e.1.1 ∧ e.2.2.length ≤ 2 ^ e.1.1 := by
  unfold genSwconfig BSPMat.permutation at h
  rw [log2floor_two_pow] at h
  have hmat : MatP (EntryB (2 ^ (k - 1 + 1))) (BSPMat.ofList (src.zip dst)) := by
    intro kv hkv
    obtain ⟨ab, hab, he⟩ := ofList_entry_mem _ kv hkv
    obtain ⟨h1, h2⟩ := List.of_mem_zip hab
    rw [he]
    have hkeq : k - 1 + 1 = k := Nat.succ_pred_eq_of_pos hk
    exact ⟨by rw [hkeq]; exact hs ab.1 h1, by rw [hkeq]; exact hd ab.2 h2⟩
  have hb := permutationAux_bound (k - 1) _ 0 tbl h hmat
  intro e he
  obtain ⟨hb1, hb2, hnd1, hnd2⟩ := hb e he
  exact ⟨length_le_of_nodup_lt _ _ hnd1 hb1, length_le_of_nodup_lt _ _ hnd2 hb2⟩

/-- Witness for C9 amended at `k = 2` with the counterexample permutation. -/
theorem C9_amended_group_size_bound_witness :
    ((1 ≤ 2) ∧ (∀ x ∈ ([0, 1, 2, 3] : List Nat), x < 2 ^ 2) ∧
      (∀ x ∈ ([1, 0, 3, 2] : List Nat), x < 2 ^ 2) ∧
      genSwconfig (2 ^ 2) [0, 1, 2, 3] [1, 0, 3, 2] =
        some [((1, 0), ([], [0, 1])), ((0, 0), ([], [])), ((0, 1), ([], []))]) ∧
    ∀ e ∈ ([((1, 0), ([], [0, 1])), ((0, 0), ([], [])), ((0, 1), ([], []))] : SwCfg),
      e.2.1.length ≤ 2 ^ e.1.1 ∧ e.2.2.length ≤ 2 ^ e.1.1 :=
  ⟨⟨by decide, by decide, by decide, by decide⟩,
    C9_amended_group_size_bound 2 [0, 1, 2, 3] [1, 0, 3, 2] _ (by decide) (by decide)
      (by decide) (by decide)⟩

/-- C2 fails as stated for `k = 0`: the identity permutation on
`N = 2^0 = 1` port is a valid permutation request, yet the decomposition
terminates with no table at all — `partition` dies looking up a cell in
the empty halved-cell dict (Python raises KeyError inside the
`permutation(-1)` call), so no recursion depth is ever reached. -/
theorem C2_counterexample_size_one :
    List.Perm [0] (List.range (2 ^ 0)) ∧ genSwconfig (2 ^ 0) [0] [0] = none := by
  decide

/-- C2 (amended): for every valid permutation of `N = 2^k` ports with
`k ≥ 1`, the decomposition started at stage `log2 N - 1` terminates
with a table, and the stages present in the table are exactly
`0 … log2 N - 1`: the recursion is exactly `log2 N` levels deep. -/
theorem C2_amended_depth_log2 (k : Nat) (src dst : List Nat) (hk : 1 ≤ k)
    (hs : List.Perm src (List.range (2 ^ k)))
    (hd : List.Perm dst (List.range (2 ^ k))) :
    ∃ cfg, genSwconfig (2 ^ k) src dst = some cfg ∧
      (∀ st o, (aget cfg (st, o)).isSome = true → st < log2floor (2 ^ k)) ∧
      (∀ st, st < log2floor (2 ^ k) → ∃ o, (aget cfg (st, o)).isSome = true) := by
  obtain ⟨cfg, hrun, hchar⟩ := genSwconfig_keystone k src dst hk hs hd
  rw [log2floor_two_pow]
  refine ⟨cfg, hrun, ?_, ?_⟩
  · intro st o h
    exact ((hchar st o).1 h).1
  · intro st hst
    refine ⟨0, (hchar st 0).2 ⟨hst, ?_⟩⟩
    exact pow_pos (by omega) _

/-- Witness for C2 amended at `k = 1` with the identity permutation. -/
theorem C2_amended_depth_log2_witness :
    (1 ≤ 1 ∧ List.Perm [0, 1] (List.range (2 ^ 1)) ∧
      List.Perm [0, 1] (List.range (2 ^ 1))) ∧
    (∃ cfg, genSwconfig (2 ^ 1) [0, 1] [0, 1] = some cfg ∧
      (∀ st o, (aget cfg (st, o)).isSome = true → st < log2floor (2 ^ 1)) ∧
      (∀ st, st < log2floor (2 ^ 1) → ∃ o, (aget cfg (st, o)).isSome = true)) :=
  ⟨⟨by decide, by decide, by decide⟩,
    C2_amended_depth_log2 1 [0, 1] [0, 1] (by decide) (by decide) (by decide)⟩

/-- C3 fails as stated for `k = 0` (the spec says `k ≥ 0`): on the valid
one-port permutation the decomposer produces no SwitchConfigTable —
`partition` fails on the empty halved-cell dict — so there is no entry
for any stage at all. -/
theorem C3_counterexample_size_one :
    List.Perm [0] (List.range (2 ^ 0)) ∧
    (BSPMat.ofList ([0].zip [0])).permutation 0 0 = none := by
  decide

/-- C3 (amended): for every valid permutation of `N = 2^k` ports with
`k ≥ 1`, the produced table has an entry exactly for each (stage, group)
with `stage < k` and group offset below `2^(k-1-stage)`, and at each
stage every one of the `N/2` switches lies in the range of exactly one
group offset (each group spans `2^stage` switches). -/
theorem C3_amended_stage_partition (k : Nat) (src dst : List Nat) (hk : 1 ≤ k)
    (hs : List.Perm src (List.range (2 ^ k)))
    (hd : List.Perm dst (List.range (2 ^ k))) :
    ∃ cfg, (BSPMat.ofList (src.zip dst)).permutation (k - 1) 0 = some cfg ∧
      (∀ st o, (aget cfg (st, o)).isSome = true ↔
        (st < k ∧ o < 2 ^ (k - 1 - st))) ∧
      (∀ st sw, st < k → sw < 2 ^ (k - 1) →
        ∃ o, o < 2 ^ (k - 1 - st) ∧ 2 ^ st * o ≤ sw ∧ sw < 2 ^ st * (o + 1) ∧
          ∀ o', o' < 2 ^ (k - 1 - st) → 2 ^ st * o' ≤ sw →
            sw < 2 ^ st * (o' + 1) → o' = o) := by
  obtain ⟨cfg, hrun, hchar⟩ := genSwconfig_keystone k src dst hk hs hd
  refine ⟨cfg, ?_, hchar, ?_⟩
  · unfold genSwconfig BSPMat.permutation at hrun
    rw [log2floor_two_pow] at hrun
    exact hrun
  · intro st sw hst hsw
    have hP : 0 < 2 ^ st := pow_pos (by omega) st
    have hmlt : sw % 2 ^ st < 2 ^ st := Nat.mod_lt _ hP
    have hdm : 2 ^ st * (sw / 2 ^ st) + sw % 2 ^ st = sw :=
      Nat.div_add_mod sw (2 ^ st)
    have hup : sw < 2 ^ st * (sw / 2 ^ st + 1) := by
      calc sw = 2 ^ st * (sw / 2 ^ st) + sw % 2 ^ st := hdm.symm
        _ < 2 ^ st * (sw / 2 ^ st) + 2 ^ st := Nat.add_lt_add_left hmlt _
        _ = 2 ^ st * (sw / 2 ^ st + 1) := by ring
    refine ⟨sw / 2 ^ st, ?_, ?_, hup, ?_⟩
    · refine Nat.div_lt_of_lt_mul ?_
      have hpow : 2 ^ st * 2 ^ (k - 1 - st) = 2 ^ (k - 1) := by
        rw [← pow_add]
        congr 1
        omega
      rw [hpow]
      exact hsw
    · calc 2 ^ st * (sw / 2 ^ st) = sw / 2 ^ st * 2 ^ st := Nat.mul_comm _ _
        _ ≤ sw := Nat.div_mul_le_self _ _
    · intro o' ho1 ho2 ho3
      refine (Nat.div_eq_of_lt_le ?_ ?_).symm
      · rw [Nat.mul_comm]
        exact ho2
      · rw [Nat.mul_comm]
        exact ho3

/-- Witness for C3 amended at `k = 1` with the swap permutation. -/
theorem C3_amended_stage_partition_witness :
    (1 ≤ 1 ∧ List.Perm [0, 1] (List.range (2 ^ 1)) ∧
      List.Perm [1, 0] (List.range (2 ^ 1))) ∧
    (∃ cfg, (BSPMat.ofList ([0, 1].zip [1, 0])).permutation (1 - 1) 0 = some cfg ∧
      (∀ st o, (aget cfg (st, o)).isSome = true ↔
        (st < 1 ∧ o < 2 ^ (1 - 1 - st))) ∧
      (∀ st sw, st < 1 → sw < 2 ^ (1 - 1) →
        ∃ o, o < 2 ^ (1 - 1 - st) ∧ 2 ^ st * o ≤ sw ∧ sw < 2 ^ st * (o + 1) ∧
          ∀ o', o' < 2 ^ (1 - 1 - st) → 2 ^ st * o' ≤ sw →
            sw < 2 ^ st * (o' + 1) → o' = o)) :=
  ⟨⟨by decide, by decide, by decide⟩,
    C3_amended_stage_partition 1 [0, 1] [1, 0] (by decide) (by decide) (by decide)⟩

end MCENoC
